import Mathlib

/-!
Verification model of the Tagger repository (src/tagger/tagger.py).

The tagger attaches free-text tags to files and directories, persisting them
in per-directory sidecar files named `.tag`.  A `.tag` file of directory `D`
holds a JSON mapping from absolute path strings to tag lists, covering `D`
itself and the files directly inside `D`.

The shallow embedding below models:
  - the filesystem as a finite tree (`FSNode`); a directory node carries its
    optional sidecar mapping in the `meta` field, and `os.scandir` is modelled
    as listing the `.tag` sidecar entry (when present) together with the real
    children;
  - absolute canonical paths as lists of components (`FPath`);
  - the `FileTagger` primitives (`_read_tags`, `_write_tags`,
    `_possible_has_tag_entry`, `__read_tag_meta`, `__write_tag_meta`,
    `__get_tag_file`);
  - the abstract base class `Tagger` as a record of its overridable hooks
    (`TaggerImpl`), with the shared methods (`add_tags`, `rm_tags`,
    `get_tags`, `find_tags`, `clear_tags`, `merge_tags`) defined generically
    over it;
  - the send/receive generator `_possible_tagged_paths` as an explicit
    layer-by-layer work-queue machine (`phaseA`, `phaseB`, `runLayers`)
    parameterised by the consumer's per-candidate actions (`Driver`).

Python deques are represented as Lean lists whose head is the RIGHT end of
the deque: `pop()` takes the head, `appendleft x` is `l ++ [x]`, and
`extendleft xs` is `l ++ xs`.
-/

abbrev FPath := List String

abbrev TagMeta := List (FPath × List String)

inductive FSNode where
  | file (name : String)
  | dir (name : String) (meta : Option TagMeta) (children : List FSNode)
deriving Repr

def FSNode.name : FSNode → String
  | .file n => n
  | .dir n _ _ => n

def FSNode.isDirNode : FSNode → Bool
  | .file _ => false
  | .dir _ _ _ => true

/-- Resolve a path to the node it denotes, if any.  The sidecar file of a
directory appears as a pseudo file child named `.tag` whenever the directory
has a sidecar mapping, mirroring the fact that on disk the `.tag` file is an
ordinary directory entry. -/
def lookupNode : FSNode → FPath → Option FSNode
  | n, [] => some n
  | .file _, _ :: _ => none
  | .dir _ meta cs, c :: rest =>
    if c = ".tag" && meta.isSome && rest.isEmpty then some (.file ".tag")
    else
      match cs.find? (fun ch => ch.name = c) with
      | some ch => lookupNode ch rest
      | none => none

def existsFS (fs : FSNode) (p : FPath) : Bool :=
  (lookupNode fs p).isSome

def isDirFS (fs : FSNode) (p : FPath) : Bool :=
  match lookupNode fs p with
  | some (.dir _ _ _) => true
  | _ => false

def isFileFS (fs : FSNode) (p : FPath) : Bool :=
  match lookupNode fs p with
  | some (.file _) => true
  | _ => false

/-- Sidecar mapping attached to the directory at `p` (if `p` is a directory
with a sidecar). -/
def dirMeta (fs : FSNode) (p : FPath) : Option TagMeta :=
  match lookupNode fs p with
  | some (.dir _ m _) => m
  | _ => none

mutual
def heightFS : FSNode → Nat
  | .file _ => 0
  | .dir _ _ cs => heightForest cs + 1
def heightForest : List FSNode → Nat
  | [] => 0
  | c :: cs => max (heightFS c) (heightForest cs)
end

/-- Fuel bound for the traversal: strictly more than the number of depth
layers the walk can ever perform on this tree. -/
def travFuel (fs : FSNode) : Nat :=
  heightFS fs + 1

def namesNodup : List String → Bool
  | [] => true
  | n :: rest => !(rest.contains n) && namesNodup rest

mutual
/-- Well-formedness of the tree shape: sibling names are distinct and no real
child is named `.tag` (that name is reserved for the sidecar file). -/
def namesOK : FSNode → Bool
  | .file _ => true
  | .dir _ _ cs =>
    namesNodup (List.map FSNode.name cs) &&
    !(List.map FSNode.name cs).contains ".tag" && forestNamesOK cs
def forestNamesOK : List FSNode → Bool
  | [] => true
  | c :: cs => namesOK c && forestNamesOK cs
end

-- sanity: the model evaluates
example : heightFS (.dir "r" none [.file "a", .dir "b" none [.file "c"]]) = 2 := by
  decide

example :
    lookupNode (.dir "r" (some [([ "r" ], ["t"])]) [.file "a"]) [".tag"] =
      some (.file ".tag") := rfl

example : isDirFS (.dir "r" none [.file "a"]) ["a"] = false := by
  decide

/-! ## Sidecar mapping primitives (FileTagger) -/

def metaLookup (m : TagMeta) (k : FPath) : Option (List String) :=
  (m.find? (fun e => e.1 = k)).map (fun e => e.2)

/-- Python dict assignment `meta[k] = v`: replace in place, else append. -/
def metaInsert (m : TagMeta) (k : FPath) (v : List String) : TagMeta :=
  if m.any (fun e => e.1 = k) then
    m.map (fun e => if e.1 = k then (k, v) else e)
  else
    m ++ [(k, v)]

/-- Python `meta.pop(k)`. -/
def metaErase (m : TagMeta) (k : FPath) : TagMeta :=
  m.filter (fun e => ¬ e.1 = k)

/-- Replace the sidecar mapping of the directory at path `p` (no-op if `p`
does not resolve to a directory). -/
def setMetaNode : FSNode → FPath → Option TagMeta → FSNode
  | .dir n _ cs, [], m => .dir n m cs
  | .file n, [], _ => .file n
  | .file n, _ :: _, _ => .file n
  | .dir n m0 cs, c :: rest, m =>
    .dir n m0 (cs.map fun ch => if ch.name = c then setMetaNode ch rest m else ch)

namespace FileTagger

/-- Directory whose sidecar file holds the record for `p`
(`FileTagger.__get_tag_file` without the trailing `/.tag`): a file's record
lives in its parent directory, a directory's record in itself; a nonexistent
path is treated like a directory. -/
def tag_dir_of (fs : FSNode) (p : FPath) : FPath :=
  if isFileFS fs p then p.dropLast else p

/-- Python `FileTagger.__read_tag_meta`: load the sidecar mapping covering
`p`; a missing (or unreadable) sidecar file reads as the empty mapping. -/
def read_tag_meta (fs : FSNode) (p : FPath) : TagMeta :=
  (dirMeta fs (tag_dir_of fs p)).getD []

/-- Python `FileTagger.__write_tag_meta`: write back the sidecar mapping
covering `p`.  An empty mapping deletes the sidecar file (success also when
it did not exist); a non-empty mapping is written, which fails when the
hosting directory does not exist. -/
def write_tag_meta (fs : FSNode) (p : FPath) (meta : TagMeta) : FSNode × Bool :=
  let td := tag_dir_of fs p
  if meta.isEmpty then
    if (dirMeta fs td).isSome then (setMetaNode fs td none, true) else (fs, true)
  else
    if isDirFS fs td then (setMetaNode fs td (some meta), true) else (fs, false)

/-- Python `FileTagger._read_tags`. -/
def read_tags (fs : FSNode) (p : FPath) : List String :=
  (metaLookup (read_tag_meta fs p) p).getD []

/-- Python `FileTagger._write_tags`: empty tags remove the entry for `p`
(`meta.pop`), otherwise the entry is set to `list(set(tags))` (modelled as
`dedup`); then the mapping is written back. -/
def write_tags (fs : FSNode) (p : FPath) (tags : List String) : FSNode × Bool :=
  let meta := read_tag_meta fs p
  let meta' := if tags.isEmpty then metaErase meta p else metaInsert meta p tags.dedup
  write_tag_meta fs p meta'

/-- Python `FileTagger._possible_has_tag_entry`: the pruning probe, an
existence check of the sidecar file covering `directory`. -/
def possible_has_tag_entry (fs : FSNode) (d : FPath) : Bool :=
  (dirMeta fs (tag_dir_of fs d)).isSome

/-- Python `FileTagger.sync_tags`: drop mapping entries whose path no longer
exists and write the mapping back; returns False when the path is missing,
and (implicitly) None otherwise. -/
def sync_tags (fs : FSNode) (p : FPath) : FSNode × Option Bool :=
  if ¬ existsFS fs p then (fs, some false)
  else
    let meta := read_tag_meta fs p
    let meta' := meta.filter (fun e => existsFS fs e.1)
    ((write_tag_meta fs p meta').1, none)

end FileTagger

/-! ## The abstract base class and its shared methods -/

/-- Lexicographic comparison of code-point sequences, the order Python uses
to sort strings.  (Defined from scratch because the kernel cannot evaluate
the builtin iterator-based comparison on `String`.) -/
def strLeAux : List Char → List Char → Bool
  | [], _ => true
  | _ :: _, [] => false
  | a :: as, b :: bs =>
    if a.toNat < b.toNat then true
    else if b.toNat < a.toNat then false
    else strLeAux as bs

def strLe (a b : String) : Bool :=
  strLeAux a.data b.data

/-- Python `tags.sort()` on strings. -/
def sortTags (l : List String) : List String :=
  l.insertionSort (fun a b => strLe a b = true)

/-- Overridable hooks of the abstract `Tagger` base class: the filesystem
view (for `os.path` and `os.scandir`), `_read_tags`, `_write_tags` and
`_possible_has_tag_entry`, over an abstract tagger state `S`. -/
structure TaggerImpl (S : Type) where
  getFs : S → FSNode
  read_tagsH : S → FPath → List String
  write_tagsH : S → FPath → List String → S × Bool
  probeH : S → FPath → Bool

/-- The `FileTagger` instance: the state is the filesystem itself. -/
def fileImpl : TaggerImpl FSNode where
  getFs := id
  read_tagsH := FileTagger.read_tags
  write_tagsH := FileTagger.write_tags
  probeH := FileTagger.possible_has_tag_entry

namespace Tagger

variable {S : Type}

/-- Python `Tagger.get_tags`: empty for a missing path, otherwise the stored
tags, sorted. -/
def get_tags (impl : TaggerImpl S) (s : S) (p : FPath) : List String :=
  if ¬ existsFS (impl.getFs s) p then []
  else sortTags (impl.read_tagsH s p)

/-- Python `Tagger._contain_tags`: `set(tags).issubset(set(get_tags(path)))`. -/
def contain_tags (impl : TaggerImpl S) (s : S) (p : FPath) (tags : List String) : Bool :=
  tags.all (fun t => (get_tags impl s p).contains t)

/-- Python `Tagger.add_tags`.  The return value is heterogeneous in Python:
the empty list `[]` when no tags are given or the path is missing, otherwise
the boolean result of `_write_tags`; we model it as a sum. -/
def add_tags (impl : TaggerImpl S) (s : S) (p : FPath) (tags : List String) :
    S × (List String ⊕ Bool) :=
  if tags.isEmpty || ¬ existsFS (impl.getFs s) p then (s, .inl [])
  else
    let old := get_tags impl s p
    let new := (old ++ tags).dedup
    let r := impl.write_tagsH s p new
    (r.1, .inr r.2)

/-- Python `Tagger.rm_tags`. -/
def rm_tags (impl : TaggerImpl S) (s : S) (p : FPath) (tags : List String) :
    S × Bool :=
  if ¬ existsFS (impl.getFs s) p then (s, false)
  else
    let old := (get_tags impl s p).dedup
    let new := old.filter (fun t => ¬ tags.contains t)
    impl.write_tagsH s p new

end Tagger

/-! ## The traversal engine (`Tagger._possible_tagged_paths`)

The Python generator is a send/receive coroutine; we model it as an explicit
layer-by-layer work-queue machine driven by a consumer.  The consumer is a
`Driver`: its `onDir` action handles a yielded directory candidate and
returns the `stop` decision sent back to the generator; `onFile` handles a
yielded file candidate (whose sent value the generator ignores). -/

structure Driver (S : Type) where
  getFs : S → FSNode
  probeD : S → FPath → Bool
  onDir : S → FPath → S × Bool
  onFile : S → FPath → S

/-- Python `os.scandir` of the directory at `p`: every entry as
`(full path, is_dir)`.  The sidecar `.tag` file, when present, is an ordinary
entry (scandir order is unspecified by the OS; the model lists it first). -/
def scandirFS (fs : FSNode) (p : FPath) : List (FPath × Bool) :=
  match lookupNode fs p with
  | some (.dir _ m cs) =>
    (if m.isSome then [(p ++ [".tag"], false)] else []) ++
      cs.map (fun c => (p ++ [c.name], c.isDirNode))
  | _ => []

/-- The subdirectory entries of `p`, in scandir order: what the generator
enqueues for a directory whose probe is negative. -/
def dirChildPaths (fs : FSNode) (p : FPath) : List FPath :=
  ((scandirFS fs p).filter (fun e => e.2)).map (fun e => e.1)

/-- Inner loop `while len(roots)` of `_possible_tagged_paths`: pop each
pending root; a probe-positive directory is yielded (and, unless the consumer
says stop, queued in `tmp_roots` for expansion); a probe-negative directory
contributes its subdirectories to `sub_roots`.  Returns
`(state, sub_roots, tmp_roots)`. -/
def phaseA (dr : Driver S) : List FPath → S → List FPath → List FPath →
    S × List FPath × List FPath
  | [], s, subRoots, tmpRoots => (s, subRoots, tmpRoots)
  | top :: rest, s, subRoots, tmpRoots =>
    if dr.probeD s top then
      let r := dr.onDir s top
      phaseA dr rest r.1 subRoots (if r.2 then tmpRoots else tmpRoots ++ [top])
    else
      phaseA dr rest s (subRoots ++ dirChildPaths (dr.getFs s) top) tmpRoots

/-- The `for entry in scandir_it` loop of the expansion phase: subdirectory
entries are prepended to the next layer's roots, file entries are yielded. -/
def phaseBEntries (dr : Driver S) : List (FPath × Bool) → S → List FPath →
    S × List FPath
  | [], s, roots => (s, roots)
  | e :: rest, s, roots =>
    if e.2 then phaseBEntries dr rest s (roots ++ [e.1])
    else phaseBEntries dr rest (dr.onFile s e.1) roots

/-- Expansion loop `while len(tmp_roots)`: scan each confirmed directory,
yielding its files and enqueueing its subdirectories for the next layer. -/
def phaseB (dr : Driver S) : List FPath → S → List FPath → S × List FPath
  | [], s, roots => (s, roots)
  | top :: rest, s, roots =>
    let r := phaseBEntries dr (scandirFS (dr.getFs s) top) s roots
    phaseB dr rest r.1 r.2

/-- Outer loop of `_possible_tagged_paths`: one iteration per depth layer.
After the pending roots of the current layer are processed (`phaseA`), the
walk stops if `curr_depth == depth`; otherwise the confirmed directories are
expanded (`phaseB`) and the next layer starts with the accumulated roots.
The `fuel` argument only bounds the number of layers; the top-level entry
points pass `travFuel`, which exceeds the height of the tree, so it never
cuts the walk short. -/
def runLayers (dr : Driver S) : Nat → S → List FPath → List FPath → Nat →
    Option Nat → S
  | 0, s, _, _, _, _ => s
  | _ + 1, s, [], _, _, _ => s
  | fuel + 1, s, root0 :: roots, tmpRoots, currDepth, depth =>
    let r1 := phaseA dr (root0 :: roots) s [] tmpRoots
    if depth = some currDepth then r1.1
    else
      let r2 := phaseB dr r1.2.2 r1.1 r1.2.1
      runLayers dr fuel r2.1 r2.2 [] (currDepth + 1) depth

/-- Drive the generator to exhaustion from its initial state. -/
def runTagged (dr : Driver S) (s : S) (root : FPath) (depth : Option Nat) : S :=
  runLayers dr (travFuel (dr.getFs s)) s [root] [] 0 depth

/-! ### Consumers of the generator -/

/-- Instrumentation driver: log every yielded `(path, is_dir)` candidate and
answer a directory yield with the oracle `dec`.  Its log is exactly the yield
trace of `_possible_tagged_paths` for a consumer whose stop decisions are
given by `dec`. -/
def traceDriver (fs : FSNode) (dec : FPath → Bool) :
    Driver (List (FPath × Bool)) where
  getFs := fun _ => fs
  probeD := fun _ p => FileTagger.possible_has_tag_entry fs p
  onDir := fun log p => (log ++ [(p, true)], dec p)
  onFile := fun log p => log ++ [(p, false)]

/-- Yield trace of the generator over a static filesystem with stop oracle
`dec`. -/
def travTrace (fs : FSNode) (root : FPath) (depth : Option Nat)
    (dec : FPath → Bool) : List (FPath × Bool) :=
  runTagged (traceDriver fs dec) [] root depth

namespace Tagger

/-- Consumer of `_find_tags_top_only` (with `stopOn = true`) and
`_find_tags_all` (with `stopOn = false`): record every candidate whose tags
contain the query; a matching directory answers `stop = stopOn`, everything
else answers `stop = False`. -/
def findDriver (impl : TaggerImpl S) (tags : List String) (stopOn : Bool) :
    Driver (S × List FPath) where
  getFs := fun s => impl.getFs s.1
  probeD := fun s p => impl.probeH s.1 p
  onDir := fun s p =>
    if contain_tags impl s.1 p tags then ((s.1, s.2 ++ [p]), stopOn)
    else (s, false)
  onFile := fun s p =>
    if contain_tags impl s.1 p tags then (s.1, s.2 ++ [p]) else s

/-- Python `Tagger._find_tags_top_only`. -/
def find_tags_top_only (impl : TaggerImpl S) (s : S) (p : FPath)
    (tags : List String) (depth : Option Nat) : List FPath :=
  (runTagged (findDriver impl tags true) (s, []) p depth).2

/-- Python `Tagger._find_tags_all`. -/
def find_tags_all (impl : TaggerImpl S) (s : S) (p : FPath)
    (tags : List String) (depth : Option Nat) : List FPath :=
  (runTagged (findDriver impl tags false) (s, []) p depth).2

/-- Python `Tagger.find_tags`. -/
def find_tags (impl : TaggerImpl S) (s : S) (p : FPath) (tags : List String)
    (top_only : Bool) (depth : Option Nat) : List FPath :=
  if ¬ existsFS (impl.getFs s) p then []
  else if ¬ isDirFS (impl.getFs s) p then
    if tags.all (fun t => (get_tags impl s p).contains t) then [p] else []
  else if top_only then find_tags_top_only impl s p tags depth
  else find_tags_all impl s p tags depth

/-- Consumer of recursive `Tagger.clear_tags`: clear every candidate's tags
(the boolean result of `_write_tags` is discarded) and answer every directory
yield with `top_only`. -/
def clearDriver (impl : TaggerImpl S) (top_only : Bool) : Driver S where
  getFs := impl.getFs
  probeD := impl.probeH
  onDir := fun s p => ((impl.write_tagsH s p []).1, top_only)
  onFile := fun s p => (impl.write_tagsH s p []).1

/-- Python `Tagger.clear_tags`. -/
def clear_tags (impl : TaggerImpl S) (s : S) (p : FPath) (recursive : Bool)
    (depth : Option Nat) (top_only : Bool) : S × Bool :=
  if ¬ existsFS (impl.getFs s) p then (s, false)
  else if ¬ isDirFS (impl.getFs s) p then impl.write_tagsH s p []
  else if ¬ recursive then impl.write_tagsH s p []
  else (runTagged (clearDriver impl top_only) s p depth, true)

end Tagger

/-! ## Merge (`Tagger.merge_tags`, FileTagger instance)

`merge_tags` manipulates the filesystem directly through `os` and `shutil`,
so it is modelled for the `FileTagger` instance, whose state is the
filesystem. -/

/-- Rename a node (used when copying a match under its collision-free target
name). -/
def renameNode (n : FSNode) (nm : String) : FSNode :=
  match n with
  | .file _ => .file nm
  | .dir _ m cs => .dir nm m cs

/-- Graft `ch` as a new last child of the directory at `p` (no-op if `p` is
not a directory). -/
def addChild : FSNode → FPath → FSNode → FSNode
  | .dir n m cs, [], ch => .dir n m (cs ++ [ch])
  | .file n, [], _ => .file n
  | .file n, _ :: _, _ => .file n
  | .dir n m cs, c :: rest, ch =>
    .dir n m (cs.map fun x => if x.name = c then addChild x rest ch else x)

/-- Python `os.mkdir`: fails (`none`) unless the parent exists as a directory
and the path itself does not exist. -/
def mkdirFS (fs : FSNode) (p : FPath) : Option FSNode :=
  match p.getLast? with
  | none => none
  | some nm =>
    if isDirFS fs p.dropLast && !existsFS fs p then
      some (addChild fs p.dropLast (.dir nm none []))
    else none

/-- Append `_n` to the last path component, as
`"{}_{}".format(target, postfix)` does on the path string. -/
def dupName (target : FPath) (n : Nat) : FPath :=
  target.dropLast ++ [target.getLastD "" ++ "_" ++ toString n]

/-- The `while os.path.exists(...)` probe loop of `_handle_dup_path`,
with explicit fuel (the top-level wrapper passes enough fuel to reach the
first unused suffix). -/
def dupProbe (fs : FSNode) (target : FPath) : Nat → Nat → FPath
  | 0, n => dupName target n
  | fuel + 1, n =>
    if existsFS fs (dupName target n) then dupProbe fs target fuel (n + 1)
    else dupName target n

/-- Number of entries the parent directory of `p` can hold (children plus the
sidecar file): a bound on how many suffixed names can be taken. -/
def siblingBound (fs : FSNode) (p : FPath) : Nat :=
  match lookupNode fs p.dropLast with
  | some (.dir _ m cs) => cs.length + (if m.isSome then 1 else 0)
  | _ => 0

/-- Python `Tagger._handle_dup_path`: if `target` exists, probe suffixes
`_1, _2, ...` in increasing order and take the first unused name. -/
def handle_dup_path (fs : FSNode) (target : FPath) : FPath :=
  if existsFS fs target then dupProbe fs target (siblingBound fs target + 1) 1
  else target

/-- The `for p in paths` body of `merge_tags`: copy each match to its
collision-resolved target (a directory subtree is copied verbatim, sidecar
files included; a file copy re-applies the source file's tags at the
destination). -/
def mergeLoop (fs : FSNode) (destPath : FPath) : List FPath → FSNode
  | [] => fs
  | p :: rest =>
    let target := handle_dup_path fs (destPath ++ [p.getLastD ""])
    let fs' :=
      match lookupNode fs p with
      | some nd =>
        if isDirFS fs p then
          addChild fs target.dropLast (renameNode nd (target.getLastD ""))
        else
          let fsC := addChild fs target.dropLast (renameNode nd (target.getLastD ""))
          (Tagger.add_tags fileImpl fsC target (Tagger.get_tags fileImpl fsC p)).1
      | none => fs
    mergeLoop fs' destPath rest

/-- Python `Tagger.merge_tags` (FileTagger).  Returns `some false` at the
explicit `return False` sites; the success path falls off the end of the
function, i.e. returns Python `None`, modelled as `none`. -/
def merge_tags (fs : FSNode) (path destPath : FPath) (tags : List String)
    (depth : Option Nat) : FSNode × Option Bool :=
  if ¬ isDirFS fs path then (fs, some false)
  else
    let fs1? : Option FSNode :=
      if existsFS fs destPath then
        if isDirFS fs destPath then some fs else none
      else mkdirFS fs destPath
    match fs1? with
    | none => (fs, some false)
    | some fs1 =>
      let ps := Tagger.find_tags fileImpl fs1 path tags true depth
      let fs2 := mergeLoop fs1 destPath ps
      ((Tagger.add_tags fileImpl fs2 destPath tags).1, none)

/-! ## Sanity checks: the scenarios of tests/test_tagger.py -/

/-- The tree of `test_find_tags_top_only` / `test_find_tags_depth`:
`tmp0{test2,test3}` with `tmp1{test1}/tmp3{test1}`, `tmp2` untagged and file
`tmpf{test1}`. -/
def scenarioFS : FSNode :=
  .dir "" none
    [ .dir "tmp0"
        (some [(["tmp0"], ["test2", "test3"]), (["tmp0", "tmpf"], ["test1"])])
        [ .dir "tmp1" (some [(["tmp0", "tmp1"], ["test1"])])
            [ .dir "tmp3" (some [(["tmp0", "tmp1", "tmp3"], ["test1"])]) [] ]
        , .dir "tmp2" none []
        , .file "tmpf" ]
    ]

example :
    Tagger.find_tags fileImpl scenarioFS ["tmp0"] ["test1"] true none =
      [["tmp0", "tmpf"], ["tmp0", "tmp1"]] := by
  decide

example :
    Tagger.find_tags fileImpl scenarioFS ["tmp0"] ["test1"] false (some 1) =
      [["tmp0", "tmpf"], ["tmp0", "tmp1"]] := by
  decide

example :
    Tagger.find_tags fileImpl scenarioFS ["tmp0"] ["test1"] false (some 2) =
      [["tmp0", "tmpf"], ["tmp0", "tmp1"], ["tmp0", "tmp1", "tmp3"]] := by
  decide

example :
    Tagger.find_tags fileImpl scenarioFS ["tmp0"] ["test1"] false none =
      [["tmp0", "tmpf"], ["tmp0", "tmp1"], ["tmp0", "tmp1", "tmp3"]] := by
  decide

example :
    Tagger.get_tags fileImpl scenarioFS ["tmp0"] = ["test2", "test3"] := by
  decide

/-! ## Derived observations and specification predicates -/

/-- Kind of the entry at `q`: `some true` directory, `some false` file,
`none` nonexistent. -/
def kindAt (fs : FSNode) (q : FPath) : Option Bool :=
  (lookupNode fs q).map FSNode.isDirNode

/-- Every proper ancestor `a` of `p` at or below `root` lets the walk
continue past it: either its pruning probe is negative (the walk silently
descends to its subdirectories) or the consumer answered `stop = false`
when `a` was yielded. -/
def chainOK (fs : FSNode) (dec : FPath → Bool) (root p : FPath) : Prop :=
  ∀ a : FPath, root <+: a → a <+: p → a ≠ p →
    (FileTagger.possible_has_tag_entry fs a = false ∨ dec a = false)

/-- The configured maximum depth admits a candidate at tree depth
`p.length - root.length`. -/
def depthOK (root p : FPath) (depth : Option Nat) : Prop :=
  ∀ m, depth = some m → p.length ≤ root.length + m

/-- Complete characterisation of the directory candidates yielded by
`_possible_tagged_paths`. -/
def dirYieldCond (fs : FSNode) (dec : FPath → Bool) (root p : FPath)
    (depth : Option Nat) : Prop :=
  root <+: p ∧ isDirFS fs p = true ∧
    FileTagger.possible_has_tag_entry fs p = true ∧
    chainOK fs dec root p ∧ depthOK root p depth

/-- `p` is the shallowest sidecar-bearing directory on its branch at or
below `root`: its own probe is positive and every proper ancestor down from
`root` has a negative probe. -/
def firstPositive (fs : FSNode) (root p : FPath) : Prop :=
  root <+: p ∧ isDirFS fs p = true ∧
    FileTagger.possible_has_tag_entry fs p = true ∧
    ∀ a : FPath, root <+: a → a <+: p → a ≠ p →
      FileTagger.possible_has_tag_entry fs a = false

/-- An entry of the sidecar record of directory `d` is scoped to that record
when its key is `d` itself or a file directly inside `d` (spec section 3). -/
def entryScoped (fs : FSNode) (d k : FPath) : Prop :=
  k = d ∨ (k ≠ [] ∧ k.dropLast = d ∧ isFileFS fs k = true)

def metaEntriesOK (m : Option TagMeta) : Bool :=
  match m with
  | none => true
  | some l => !l.isEmpty && l.all (fun e => !e.2.isEmpty)

mutual
/-- Sidecar hygiene: no sidecar holds an empty mapping, and every entry
holds a non-empty tag list. -/
def sidecarsOK : FSNode → Bool
  | .file _ => true
  | .dir _ m cs => metaEntriesOK m && forestSidecarsOK cs
def forestSidecarsOK : List FSNode → Bool
  | [] => true
  | c :: cs => sidecarsOK c && forestSidecarsOK cs
end

/-- One `phaseA` pass of the recursive top-only clear (`clear_tags` with
`recursive=True, top_only=True`): every probe-positive root is cleared and
pruned, every probe-negative root contributes its subdirectories to the next
layer. -/
def clearTopPhase : FSNode → List FPath → FSNode × List FPath
  | fs, [] => (fs, [])
  | fs, top :: rest =>
    if FileTagger.possible_has_tag_entry fs top then
      let r := clearTopPhase (FileTagger.write_tags fs top []).1 rest
      (r.1, r.2)
    else
      let r := clearTopPhase fs rest
      (r.1, dirChildPaths fs top ++ r.2)

/-- Layer iteration of the recursive top-only clear. -/
def clearTopRun : Nat → FSNode → List FPath → FSNode
  | 0, fs, _ => fs
  | _ + 1, fs, [] => fs
  | fuel + 1, fs, root0 :: roots =>
    let r := clearTopPhase fs (root0 :: roots)
    clearTopRun fuel r.1 r.2

/-- Decimal digit machinery used to reason about the `_1, _2, ...` suffix
probing of `_handle_dup_path`. -/
def digitVal (c : Char) : Nat :=
  c.toNat - 48

def digitsVal (base : Nat) (l : List Char) : Nat :=
  l.foldl (fun a c => a * base + digitVal c) 0

/-- Tree for the C4 counterexample: the root `r` is untagged but
sidecar-bearing (its file child `f` is tagged), and the branch
`r / a / b` carries nested tagged ancestors `a` and `b`. -/
def c4FS : FSNode :=
  .dir "" none
    [ .dir "r" (some [(["r", "f"], ["t"])])
        [ .file "f"
        , .dir "a" (some [(["r", "a"], ["t"])])
            [ .dir "b" (some [(["r", "a", "b"], ["t"])]) [] ] ] ]

/-- The real (non-sidecar) entries of the directory at `p`, in scandir
order. -/
def childEntries (fs : FSNode) (p : FPath) : List (FPath × Bool) :=
  match lookupNode fs p with
  | some (.dir _ _ cs) => cs.map (fun c => (p ++ [c.name], c.isDirNode))
  | _ => []

mutual
/-- Forget every sidecar mapping; the pure directory structure. -/
def stripMeta : FSNode → FSNode
  | .file n => .file n
  | .dir n _ cs => .dir n none (stripForest cs)
def stripForest : List FSNode → List FSNode
  | [] => []
  | c :: cs => stripMeta c :: stripForest cs
end

/-- Name and kind of each child of a resolved directory node. -/
def childSig : Option FSNode → List (String × Bool)
  | some (.dir _ _ cs) => cs.map (fun c => (c.name, c.isDirNode))
  | _ => []

/-- Names an entry directly inside directory `q` can carry: the sidecar file
plus the real children. -/
def sibNames (fs : FSNode) (q : FPath) : List String :=
  (if (dirMeta fs q).isSome then [".tag"] else []) ++
    (childSig (lookupNode fs q)).map Prod.fst

/-- The file entries of `p`, in scandir order: what the expansion phase of
the walk yields for a confirmed directory. -/
def fileChildPaths (fs : FSNode) (p : FPath) : List FPath :=
  ((scandirFS fs p).filter (fun e => !e.2)).map (fun e => e.1)

/-- Complete characterisation of the file candidates yielded by
`_possible_tagged_paths`: the parent directory was yielded with a positive
probe, the consumer let it continue, the candidate is one of its scandir
file entries, and the configured depth admits one more level. -/
def fileYieldCond (fs : FSNode) (dec : FPath → Bool) (root q : FPath)
    (depth : Option Nat) : Prop :=
  root <+: q.dropLast ∧ isDirFS fs q.dropLast = true ∧
    FileTagger.possible_has_tag_entry fs q.dropLast = true ∧
    chainOK fs dec root q.dropLast ∧ dec q.dropLast = false ∧
    q ∈ fileChildPaths fs q.dropLast ∧ depthOK root q depth

/-- Pure layer-by-layer restatement of the yield trace of
`_possible_tagged_paths`: each layer yields its probe-positive pending roots
(in queue order), then — unless the depth bound cuts the walk here — the
files of the non-stopped ones, and continues with the subdirectories of both
the probe-negative roots and the non-stopped positive roots. -/
def travLayers (fs : FSNode) (dec : FPath → Bool) :
    Nat → List FPath → Nat → Option Nat → List (FPath × Bool)
  | 0, _, _, _ => []
  | _ + 1, [], _, _ => []
  | fuel + 1, r0 :: rest, cd, depth =>
    let dirY := ((r0 :: rest).filter
      (fun r => FileTagger.possible_has_tag_entry fs r)).map
        (fun r => (r, true))
    if depth = some cd then dirY
    else
      let tmps := (r0 :: rest).filter
        (fun r => FileTagger.possible_has_tag_entry fs r && !dec r)
      dirY ++
        tmps.flatMap (fun t => (fileChildPaths fs t).map (fun q => (q, false))) ++
        travLayers fs dec fuel
          (((r0 :: rest).filter
            (fun r => !FileTagger.possible_has_tag_entry fs r)).flatMap
              (dirChildPaths fs) ++
            tmps.flatMap (dirChildPaths fs))
          (cd + 1) depth

/-- The sidecar mapping a top-only clear leaves at a cleared directory `d`:
its own entry is removed, and the sidecar disappears when nothing else was
recorded in it. -/
def clearedMeta (fs : FSNode) (d : FPath) : Option TagMeta :=
  if (metaErase ((dirMeta fs d).getD []) d).isEmpty then none
  else some (metaErase ((dirMeta fs d).getD []) d)

/-- Scoping of a sidecar entry is a decidable check. -/
instance (fs : FSNode) (d k : FPath) : Decidable (entryScoped fs d k) := by
  unfold entryScoped
  infer_instance

/-! ## Claim theorems -/

/-- C10: `add_tags` with zero tags returns the empty list and leaves the
state untouched (no sidecar record is read or written), even when the path
exists; the same empty-list result comes back whenever the path does not
exist, for any tag list, so the two cases cannot be told apart from the
return value. -/
theorem c10_add_tags_empty_result {S : Type} (impl : TaggerImpl S) (s : S)
    (p : FPath) :
    Tagger.add_tags impl s p [] = (s, Sum.inl []) ∧
    (existsFS (impl.getFs s) p = false →
      ∀ tags, Tagger.add_tags impl s p tags = (s, Sum.inl [])) := by
  constructor
  · simp [Tagger.add_tags]
  · intro h tags
    simp [Tagger.add_tags, h]

theorem c10_witness :
    Tagger.add_tags fileImpl scenarioFS ["tmp0"] [] = (scenarioFS, Sum.inl []) ∧
      (existsFS scenarioFS ["nope"] = false ∧
        Tagger.add_tags fileImpl scenarioFS ["nope"] ["t"] =
          (scenarioFS, Sum.inl [])) :=
  ⟨(c10_add_tags_empty_result fileImpl scenarioFS ["tmp0"]).1,
    by decide,
    (c10_add_tags_empty_result fileImpl scenarioFS ["nope"]).2 (by decide) ["t"]⟩

/-- C9: recursive `clear_tags` on an existing directory returns True for
every implementation of the overridable hooks, in particular however the
individual `_write_tags` calls of the walk behave (their boolean results are
discarded). -/
theorem c9_clear_recursive_returns_true {S : Type} (impl : TaggerImpl S)
    (s : S) (p : FPath) (depth : Option Nat) (top_only : Bool)
    (hex : existsFS (impl.getFs s) p = true)
    (hdir : isDirFS (impl.getFs s) p = true) :
    (Tagger.clear_tags impl s p true depth top_only).2 = true := by
  simp [Tagger.clear_tags, hex, hdir]

theorem c9_witness :
    existsFS scenarioFS ["tmp0"] = true ∧ isDirFS scenarioFS ["tmp0"] = true ∧
      (Tagger.clear_tags fileImpl scenarioFS ["tmp0"] true none true).2 = true :=
  ⟨by decide, by decide,
    c9_clear_recursive_returns_true fileImpl scenarioFS ["tmp0"] none true
      (by decide) (by decide)⟩

/-- C2: `merge_tags` never produces a truthy overall success indicator.  The
three failure sites return `False`, but the success path falls off the end of
the Python function and returns `None` (falsy).  Concretely, a fully
successful merge of the test scenario (root is a directory, the destination
is created, the match is copied and the destination is tagged) still returns
`None`, contradicting the documented boolean success indicator. -/
theorem c2_merge_returns_none :
    (∀ fs p d tags depth, (merge_tags fs p d tags depth).2 ≠ some true) ∧
    (merge_tags scenarioFS ["tmp0"] ["test2_dir"] ["test2", "test3"] none).2 =
      none ∧
    existsFS
        (merge_tags scenarioFS ["tmp0"] ["test2_dir"] ["test2", "test3"]
            none).1
        ["test2_dir", "tmp0"] = true ∧
    Tagger.get_tags fileImpl
        (merge_tags scenarioFS ["tmp0"] ["test2_dir"] ["test2", "test3"]
            none).1
        ["test2_dir"] = ["test2", "test3"] := by
  refine ⟨?_, by decide, by decide, by decide⟩
  intro fs p d tags depth
  unfold merge_tags
  split
  · simp
  · split
    · split <;> simp
    · cases mkdirFS fs d <;> simp

/-! ## Order and sorting lemmas -/

theorem strLeAux_cons (a b : Char) (as bs : List Char) :
    strLeAux (a :: as) (b :: bs) =
      if a.toNat < b.toNat then true
      else if b.toNat < a.toNat then false
      else strLeAux as bs := rfl

theorem char_eq_of_toNat_eq {a b : Char} (h : a.toNat = b.toNat) : a = b := by
  apply Char.eq_of_val_eq
  apply UInt32.ext
  simpa [Char.toNat, UInt32.toNat] using h

theorem strLeAux_total : ∀ as bs, strLeAux as bs = true ∨ strLeAux bs as = true
  | [], _ => Or.inl rfl
  | _ :: _, [] => Or.inr rfl
  | a :: as, b :: bs => by
    rw [strLeAux_cons, strLeAux_cons]
    rcases Nat.lt_trichotomy a.toNat b.toNat with h | h | h
    · left; rw [if_pos h]
    · have h1 : ¬ a.toNat < b.toNat := by omega
      have h2 : ¬ b.toNat < a.toNat := by omega
      rw [if_neg h1, if_neg h2, if_neg h2, if_neg h1]
      exact strLeAux_total as bs
    · right; rw [if_pos h]

theorem strLeAux_trans : ∀ as bs cs, strLeAux as bs = true →
    strLeAux bs cs = true → strLeAux as cs = true
  | [], _, _ => fun _ _ => rfl
  | a :: as, [], _ => fun h _ => absurd h (by simp [strLeAux])
  | _ :: _, _ :: _, [] => fun _ h => absurd h (by simp [strLeAux])
  | a :: as, b :: bs, c :: cs => by
    rw [strLeAux_cons, strLeAux_cons, strLeAux_cons]
    intro h1 h2
    rcases Nat.lt_trichotomy a.toNat b.toNat with hab | hab | hab <;>
      rcases Nat.lt_trichotomy b.toNat c.toNat with hbc | hbc | hbc
    · rw [if_pos (by omega)]
    · rw [if_pos (by omega)]
    · rw [if_neg (by omega : ¬ b.toNat < c.toNat), if_pos hbc] at h2
      exact absurd h2 (by simp)
    · rw [if_pos (by omega)]
    · have h1' : ¬ a.toNat < b.toNat := by omega
      have h2' : ¬ b.toNat < a.toNat := by omega
      rw [if_neg h1', if_neg h2'] at h1
      have h3' : ¬ b.toNat < c.toNat := by omega
      have h4' : ¬ c.toNat < b.toNat := by omega
      rw [if_neg h3', if_neg h4'] at h2
      rw [if_neg (by omega : ¬ a.toNat < c.toNat),
        if_neg (by omega : ¬ c.toNat < a.toNat)]
      exact strLeAux_trans as bs cs h1 h2
    · rw [if_neg (by omega : ¬ b.toNat < c.toNat), if_pos hbc] at h2
      exact absurd h2 (by simp)
    · rw [if_neg (by omega : ¬ a.toNat < b.toNat), if_pos hab] at h1
      exact absurd h1 (by simp)
    · rw [if_neg (by omega : ¬ a.toNat < b.toNat), if_pos hab] at h1
      exact absurd h1 (by simp)
    · rw [if_neg (by omega : ¬ a.toNat < b.toNat), if_pos hab] at h1
      exact absurd h1 (by simp)

theorem strLeAux_antisymm : ∀ as bs, strLeAux as bs = true →
    strLeAux bs as = true → as = bs
  | [], [] => fun _ _ => rfl
  | [], _ :: _ => fun _ h => absurd h (by simp [strLeAux])
  | _ :: _, [] => fun h _ => absurd h (by simp [strLeAux])
  | a :: as, b :: bs => by
    rw [strLeAux_cons, strLeAux_cons]
    intro h1 h2
    rcases Nat.lt_trichotomy a.toNat b.toNat with hab | hab | hab
    · rw [if_neg (by omega : ¬ b.toNat < a.toNat), if_pos hab] at h2
      exact absurd h2 (by simp)
    · have h1' : ¬ a.toNat < b.toNat := by omega
      have h2' : ¬ b.toNat < a.toNat := by omega
      rw [if_neg h1', if_neg h2'] at h1
      rw [if_neg h2', if_neg h1'] at h2
      rw [char_eq_of_toNat_eq hab, strLeAux_antisymm as bs h1 h2]
    · rw [if_neg (by omega : ¬ a.toNat < b.toNat), if_pos hab] at h1
      exact absurd h1 (by simp)

theorem string_data_eq {a b : String} (h : a.data = b.data) : a = b := by
  cases a; cases b; simp_all

instance : IsTotal String (fun a b => strLe a b = true) :=
  ⟨fun a b => strLeAux_total a.data b.data⟩

instance : IsTrans String (fun a b => strLe a b = true) :=
  ⟨fun a b c => strLeAux_trans a.data b.data c.data⟩

instance : IsAntisymm String (fun a b => strLe a b = true) :=
  ⟨fun a b h1 h2 => string_data_eq (strLeAux_antisymm a.data b.data h1 h2)⟩

theorem sortTags_perm (l : List String) : List.Perm (sortTags l) l :=
  List.perm_insertionSort _ l

theorem sortTags_sorted (l : List String) :
    List.Sorted (fun a b => strLe a b = true) (sortTags l) :=
  List.sorted_insertionSort _ l

theorem sortTags_mem {x : String} {l : List String} :
    x ∈ sortTags l ↔ x ∈ l :=
  (sortTags_perm l).mem_iff

theorem sortTags_nodup {l : List String} (h : l.Nodup) : (sortTags l).Nodup :=
  (sortTags_perm l).nodup_iff.mpr h

theorem sortTags_eq_of_perm {l₁ l₂ : List String} (h : List.Perm l₁ l₂) :
    sortTags l₁ = sortTags l₂ :=
  List.eq_of_perm_of_sorted
    ((sortTags_perm l₁).trans (h.trans (sortTags_perm l₂).symm))
    (sortTags_sorted l₁) (sortTags_sorted l₂)

theorem sortTags_idem (l : List String) : sortTags (sortTags l) = sortTags l :=
  sortTags_eq_of_perm (sortTags_perm l)

theorem sortTags_eq_nil {l : List String} (h : sortTags l = []) : l = [] :=
  List.Perm.eq_nil (by rw [← h]; exact (sortTags_perm l).symm)

/-! ## setMetaNode preservation kit -/

theorem setMetaNode_name (fs : FSNode) (td : FPath) (m : Option TagMeta) :
    (setMetaNode fs td m).name = fs.name := by
  cases fs <;> cases td <;> rfl

theorem setMetaNode_isDirNode (fs : FSNode) (td : FPath) (m : Option TagMeta) :
    (setMetaNode fs td m).isDirNode = fs.isDirNode := by
  cases fs <;> cases td <;> rfl

theorem lookupNode_dir_cons (n : String) (m : Option TagMeta) (cs : List FSNode)
    (c : String) (r : FPath) :
    lookupNode (.dir n m cs) (c :: r) =
      if c = ".tag" && m.isSome && r.isEmpty then some (.file ".tag")
      else
        match cs.find? (fun ch => ch.name = c) with
        | some ch => lookupNode ch r
        | none => none := rfl

theorem find?_map_upd (cs : List FSNode) (c : String) (f : FSNode → FSNode)
    (hf : ∀ ch, (f ch).name = ch.name) :
    (cs.map f).find? (fun ch => ch.name = c) =
      (cs.find? (fun ch => ch.name = c)).map f := by
  rw [List.find?_map]
  have hpred : ((fun ch : FSNode => decide (ch.name = c)) ∘ f) =
      (fun ch : FSNode => decide (ch.name = c)) := by
    funext ch
    simp [Function.comp, hf]
  rw [hpred]

theorem existsFS_eq_kind (fs : FSNode) (q : FPath) :
    existsFS fs q = (kindAt fs q).isSome := by
  unfold existsFS kindAt
  cases lookupNode fs q <;> rfl

theorem isDirFS_eq_kind (fs : FSNode) (q : FPath) :
    isDirFS fs q = ((kindAt fs q).getD false) := by
  unfold isDirFS kindAt
  cases h : lookupNode fs q with
  | none => rfl
  | some nd => cases nd <;> rfl

theorem isFileFS_eq_kind (fs : FSNode) (q : FPath) :
    isFileFS fs q = (kindAt fs q = some false) := by
  unfold isFileFS kindAt
  cases h : lookupNode fs q with
  | none => simp
  | some nd => cases nd <;> simp [FSNode.isDirNode]

theorem kindAt_setMetaNode (m : Option TagMeta) :
    ∀ (td : FPath) (fs : FSNode) (q : FPath), q ≠ td ++ [".tag"] →
      kindAt (setMetaNode fs td m) q = kindAt fs q
  | [], fs, q, hq => by
    cases fs with
    | file n => rfl
    | dir n m0 cs =>
      cases q with
      | nil => rfl
      | cons c r =>
        show kindAt (.dir n m cs) (c :: r) = kindAt (.dir n m0 cs) (c :: r)
        unfold kindAt
        rw [lookupNode_dir_cons, lookupNode_dir_cons]
        by_cases hc : c = ".tag"
        · have hr : r ≠ [] := fun h => hq (by simp [hc, h])
          have hre : r.isEmpty = false := by
            cases r with
            | nil => exact absurd rfl hr
            | cons _ _ => rfl
          simp [hre]
        · simp [hc]
  | d :: tdr, fs, q, hq => by
    cases fs with
    | file n => rfl
    | dir n m0 cs =>
      cases q with
      | nil => rfl
      | cons c r =>
        show kindAt (.dir n m0
            (cs.map fun ch => if ch.name = d then setMetaNode ch tdr m else ch))
            (c :: r) = kindAt (.dir n m0 cs) (c :: r)
        unfold kindAt
        rw [lookupNode_dir_cons, lookupNode_dir_cons]
        cases hcond : (decide (c = ".tag") && m0.isSome && r.isEmpty) with
        | true => simp [hcond]
        | false =>
          simp only [hcond, if_false, Bool.false_eq_true]
          rw [find?_map_upd cs c _
            (fun ch => by
              by_cases hch : ch.name = d <;> simp [hch, setMetaNode_name])]
          cases hf : cs.find? (fun ch => ch.name = c) with
          | none => rfl
          | some ch =>
            simp only [Option.map_some']
            have hname : ch.name = c := by
              have := List.find?_some hf
              simpa using this
            by_cases hch : ch.name = d
            · simp only [hch, if_pos rfl]
              have hcd : c = d := by rw [← hname, hch]
              have hr : r ≠ tdr ++ [".tag"] := by
                intro h
                exact hq (by simp [hcd, h])
              exact kindAt_setMetaNode m tdr ch r hr
            · rw [if_neg hch]

theorem dirMeta_setMetaNode_self (m : Option TagMeta) :
    ∀ (td : FPath) (fs : FSNode), isDirFS fs td = true →
      dirMeta (setMetaNode fs td m) td = m
  | [], fs, hdir => by
    cases fs with
    | file n => simp [isDirFS, lookupNode] at hdir
    | dir n m0 cs => rfl
  | d :: tdr, fs, hdir => by
    cases fs with
    | file n => simp [isDirFS, lookupNode] at hdir
    | dir n m0 cs =>
      unfold isDirFS at hdir
      rw [lookupNode_dir_cons] at hdir
      cases hcond : (decide (d = ".tag") && m0.isSome && tdr.isEmpty) with
      | true => simp [hcond] at hdir
      | false =>
        simp only [hcond, Bool.false_eq_true, if_false] at hdir
        cases hf : cs.find? (fun ch => ch.name = d) with
        | none => rw [hf] at hdir; simp at hdir
        | some ch =>
          rw [hf] at hdir
          have hdir' : isDirFS ch tdr = true := hdir
          have hname : ch.name = d := by
            have := List.find?_some hf
            simpa using this
          show dirMeta (.dir n m0
              (cs.map fun x => if x.name = d then setMetaNode x tdr m else x))
              (d :: tdr) = m
          unfold dirMeta
          rw [lookupNode_dir_cons]
          simp only [hcond, Bool.false_eq_true, if_false]
          rw [find?_map_upd cs d _
            (fun x => by
              by_cases hx : x.name = d <;> simp [hx, setMetaNode_name])]
          rw [hf]
          simp only [Option.map_some']
          rw [if_pos hname]
          exact dirMeta_setMetaNode_self m tdr ch hdir'

theorem dirMeta_setMetaNode_other (m : Option TagMeta) :
    ∀ (td : FPath) (fs : FSNode) (q : FPath), q ≠ td → q ≠ td ++ [".tag"] →
      dirMeta (setMetaNode fs td m) q = dirMeta fs q
  | [], fs, q, hq1, hq2 => by
    cases fs with
    | file n => rfl
    | dir n m0 cs =>
      cases q with
      | nil => exact absurd rfl hq1
      | cons c r =>
        show dirMeta (.dir n m cs) (c :: r) = dirMeta (.dir n m0 cs) (c :: r)
        unfold dirMeta
        rw [lookupNode_dir_cons, lookupNode_dir_cons]
        by_cases hc : c = ".tag"
        · have hr : r ≠ [] := fun h => hq2 (by simp [hc, h])
          have hre : r.isEmpty = false := by
            cases r with
            | nil => exact absurd rfl hr
            | cons _ _ => rfl
          simp [hre]
        · simp [hc]
  | d :: tdr, fs, q, hq1, hq2 => by
    cases fs with
    | file n => rfl
    | dir n m0 cs =>
      cases q with
      | nil => rfl
      | cons c r =>
        show dirMeta (.dir n m0
            (cs.map fun ch => if ch.name = d then setMetaNode ch tdr m else ch))
            (c :: r) = dirMeta (.dir n m0 cs) (c :: r)
        unfold dirMeta
        rw [lookupNode_dir_cons, lookupNode_dir_cons]
        cases hcond : (decide (c = ".tag") && m0.isSome && r.isEmpty) with
        | true => simp [hcond]
        | false =>
          simp only [hcond, Bool.false_eq_true, if_false]
          rw [find?_map_upd cs c _
            (fun ch => by
              by_cases hch : ch.name = d <;> simp [hch, setMetaNode_name])]
          cases hf : cs.find? (fun ch => ch.name = c) with
          | none => rfl
          | some ch =>
            simp only [Option.map_some']
            have hname : ch.name = c := by
              have := List.find?_some hf
              simpa using this
            by_cases hch : ch.name = d
            · simp only [hch, if_pos rfl]
              have hcd : c = d := by rw [← hname, hch]
              have hr1 : r ≠ tdr := fun h => hq1 (by simp [hcd, h])
              have hr2 : r ≠ tdr ++ [".tag"] := fun h => hq2 (by simp [hcd, h])
              exact dirMeta_setMetaNode_other m tdr ch r hr1 hr2
            · rw [if_neg hch]

theorem forestNamesOK_mem : ∀ (cs : List FSNode), forestNamesOK cs = true →
    ∀ ch ∈ cs, namesOK ch = true
  | [], _, ch, h => by cases h
  | c :: cs, hok, ch, h => by
    rw [forestNamesOK] at hok
    rcases List.mem_cons.mp h with rfl | h'
    · exact (Bool.and_eq_true_iff.mp hok).1
    · exact forestNamesOK_mem cs (Bool.and_eq_true_iff.mp hok).2 ch h'

theorem namesOK_no_tag_child {n : String} {m0 : Option TagMeta}
    {cs : List FSNode} (h : namesOK (.dir n m0 cs) = true) :
    cs.find? (fun ch => ch.name = ".tag") = none := by
  rw [namesOK] at h
  have hno : ((List.map FSNode.name cs).contains ".tag") = false := by
    rcases Bool.and_eq_true_iff.mp h with ⟨h1, _⟩
    rcases Bool.and_eq_true_iff.mp h1 with ⟨_, h3⟩
    simpa using h3
  rw [List.find?_eq_none]
  intro ch hch
  simp only [decide_eq_true_eq]
  intro hname
  have : ".tag" ∈ List.map FSNode.name cs :=
    List.mem_map.mpr ⟨ch, hch, hname⟩
  simp_all

theorem namesOK_child {n : String} {m0 : Option TagMeta} {cs : List FSNode}
    (h : namesOK (.dir n m0 cs) = true) {ch : FSNode} (hch : ch ∈ cs) :
    namesOK ch = true := by
  rw [namesOK] at h
  rcases Bool.and_eq_true_iff.mp h with ⟨_, h2⟩
  exact forestNamesOK_mem cs h2 ch hch

theorem kindAt_setMetaNode_tag (m : Option TagMeta) :
    ∀ (td : FPath) (fs : FSNode), namesOK fs = true → isDirFS fs td = true →
      kindAt (setMetaNode fs td m) (td ++ [".tag"]) =
        (if m.isSome then some false else none)
  | [], fs, hwf, hdir => by
    cases fs with
    | file n => simp [isDirFS, lookupNode] at hdir
    | dir n m0 cs =>
      show kindAt (.dir n m cs) [".tag"] = _
      unfold kindAt
      rw [lookupNode_dir_cons]
      cases hm : m.isSome with
      | true => simp [hm, FSNode.isDirNode]
      | false =>
        simp only [hm, Bool.and_false, Bool.false_and, if_false,
          Bool.false_eq_true]
        rw [namesOK_no_tag_child hwf]
        rfl
  | d :: tdr, fs, hwf, hdir => by
    cases fs with
    | file n => simp [isDirFS, lookupNode] at hdir
    | dir n m0 cs =>
      unfold isDirFS at hdir
      rw [lookupNode_dir_cons] at hdir
      cases hcond : (decide (d = ".tag") && m0.isSome && tdr.isEmpty) with
      | true => simp [hcond] at hdir
      | false =>
        simp only [hcond, Bool.false_eq_true, if_false] at hdir
        cases hf : cs.find? (fun ch => ch.name = d) with
        | none => rw [hf] at hdir; simp at hdir
        | some ch =>
          rw [hf] at hdir
          have hdir' : isDirFS ch tdr = true := hdir
          have hname : ch.name = d := by
            have := List.find?_some hf
            simpa using this
          have hch : ch ∈ cs := List.mem_of_find?_eq_some hf
          show kindAt (.dir n m0
              (cs.map fun x => if x.name = d then setMetaNode x tdr m else x))
              ((d :: tdr) ++ [".tag"]) = _
          unfold kindAt
          have : (d :: tdr) ++ [".tag"] = d :: (tdr ++ [".tag"]) := rfl
          rw [this, lookupNode_dir_cons]
          have hcond2 : (decide (d = ".tag") && m0.isSome &&
              (tdr ++ [".tag"]).isEmpty) = false := by
            have : (tdr ++ [".tag"]).isEmpty = false := by
              cases tdr <;> rfl
            simp [this]
          simp only [hcond2, Bool.false_eq_true, if_false]
          rw [find?_map_upd cs d _
            (fun x => by
              by_cases hx : x.name = d <;> simp [hx, setMetaNode_name])]
          rw [hf]
          simp only [Option.map_some']
          rw [if_pos hname]
          exact kindAt_setMetaNode_tag m tdr ch (namesOK_child hwf hch) hdir'

theorem namesOK_setMetaNode (m : Option TagMeta) :
    ∀ (td : FPath) (fs : FSNode),
      namesOK (setMetaNode fs td m) = namesOK fs
  | [], fs => by cases fs <;> rfl
  | d :: tdr, fs => by
    cases fs with
    | file n => rfl
    | dir n m0 cs =>
      show namesOK (.dir n m0
          (cs.map fun ch => if ch.name = d then setMetaNode ch tdr m else ch)) =
        namesOK (.dir n m0 cs)
      rw [namesOK, namesOK]
      have hnames : List.map FSNode.name
          (cs.map fun ch => if ch.name = d then setMetaNode ch tdr m else ch) =
          List.map FSNode.name cs := by
        rw [List.map_map]
        apply List.map_congr_left
        intro ch _
        by_cases hch : ch.name = d <;> simp [hch, setMetaNode_name]
      have hforest : ∀ cs' : List FSNode,
          forestNamesOK
            (cs'.map fun ch => if ch.name = d then setMetaNode ch tdr m else ch) =
            forestNamesOK cs' := by
        intro cs'
        induction cs' with
        | nil => rfl
        | cons c cs'' ih =>
          simp only [List.map_cons, forestNamesOK]
          rw [ih]
          by_cases hc : c.name = d
          · rw [if_pos hc, namesOK_setMetaNode m tdr c]
          · rw [if_neg hc]
      rw [hnames, hforest]

theorem childSig_setMetaNode (m : Option TagMeta) :
    ∀ (td : FPath) (fs : FSNode) (q : FPath), q ≠ td ++ [".tag"] →
      childSig (lookupNode (setMetaNode fs td m) q) =
        childSig (lookupNode fs q)
  | [], fs, q, hq => by
    cases fs with
    | file n => rfl
    | dir n m0 cs =>
      cases q with
      | nil =>
        show childSig (some (.dir n m cs)) = childSig (some (.dir n m0 cs))
        rfl
      | cons c r =>
        show childSig (lookupNode (.dir n m cs) (c :: r)) =
          childSig (lookupNode (.dir n m0 cs) (c :: r))
        rw [lookupNode_dir_cons, lookupNode_dir_cons]
        by_cases hc : c = ".tag"
        · have hr : r ≠ [] := fun h => hq (by simp [hc, h])
          have hre : r.isEmpty = false := by
            cases r with
            | nil => exact absurd rfl hr
            | cons _ _ => rfl
          simp [hre]
        · simp [hc]
  | d :: tdr, fs, q, hq => by
    cases fs with
    | file n => rfl
    | dir n m0 cs =>
      cases q with
      | nil =>
        show childSig (some (.dir n m0
            (cs.map fun ch => if ch.name = d then setMetaNode ch tdr m else ch))) =
          childSig (some (.dir n m0 cs))
        simp only [childSig]
        rw [List.map_map]
        apply List.map_congr_left
        intro ch _
        by_cases hch : ch.name = d <;>
          simp [hch, setMetaNode_name, setMetaNode_isDirNode]
      | cons c r =>
        show childSig (lookupNode (.dir n m0
            (cs.map fun ch => if ch.name = d then setMetaNode ch tdr m else ch))
            (c :: r)) = childSig (lookupNode (.dir n m0 cs) (c :: r))
        rw [lookupNode_dir_cons, lookupNode_dir_cons]
        cases hcond : (decide (c = ".tag") && m0.isSome && r.isEmpty) with
        | true => simp [hcond]
        | false =>
          simp only [hcond, Bool.false_eq_true, if_false]
          rw [find?_map_upd cs c _
            (fun ch => by
              by_cases hch : ch.name = d <;> simp [hch, setMetaNode_name])]
          cases hf : cs.find? (fun ch => ch.name = c) with
          | none => rfl
          | some ch =>
            simp only [Option.map_some']
            have hname : ch.name = c := by
              have := List.find?_some hf
              simpa using this
            by_cases hch : ch.name = d
            · simp only [hch, if_pos rfl]
              have hcd : c = d := by rw [← hname, hch]
              have hr : r ≠ tdr ++ [".tag"] := fun h => hq (by simp [hcd, h])
              exact childSig_setMetaNode m tdr ch r hr
            · rw [if_neg hch]

theorem childEntries_eq_childSig (fs : FSNode) (q : FPath) :
    childEntries fs q =
      (childSig (lookupNode fs q)).map (fun e => (q ++ [e.1], e.2)) := by
  unfold childEntries childSig
  cases h : lookupNode fs q with
  | none => rfl
  | some nd => cases nd <;> simp

theorem childEntries_setMetaNode (m : Option TagMeta) (td : FPath)
    (fs : FSNode) (q : FPath) (hq : q ≠ td ++ [".tag"]) :
    childEntries (setMetaNode fs td m) q = childEntries fs q := by
  rw [childEntries_eq_childSig, childEntries_eq_childSig,
    childSig_setMetaNode m td fs q hq]

theorem scandirFS_decomp (fs : FSNode) (p : FPath) :
    scandirFS fs p =
      (if (dirMeta fs p).isSome then [(p ++ [".tag"], false)] else []) ++
        childEntries fs p := by
  unfold scandirFS childEntries dirMeta
  cases h : lookupNode fs p with
  | none => rfl
  | some nd => cases nd <;> rfl

theorem dirChildPaths_eq_childEntries (fs : FSNode) (p : FPath) :
    dirChildPaths fs p = ((childEntries fs p).filter (fun e => e.2)).map
      (fun e => e.1) := by
  unfold dirChildPaths
  rw [scandirFS_decomp]
  rw [List.filter_append]
  cases h : (dirMeta fs p).isSome <;> simp

theorem dirChildPaths_setMetaNode (m : Option TagMeta) (td : FPath)
    (fs : FSNode) (q : FPath) (hq : q ≠ td ++ [".tag"]) :
    dirChildPaths (setMetaNode fs td m) q = dirChildPaths fs q := by
  rw [dirChildPaths_eq_childEntries, dirChildPaths_eq_childEntries,
    childEntries_setMetaNode m td fs q hq]

/-! ## Record-level lemmas for FileTagger writes -/

theorem metaLookup_metaInsert (m : TagMeta) (k : FPath) (v : List String) :
    metaLookup (metaInsert m k v) k = some v := by
  unfold metaInsert metaLookup
  by_cases hany : m.any (fun e => e.1 = k)
  · rw [if_pos hany]
    rw [List.find?_map]
    have hpred : ((fun e : FPath × List String => decide (e.1 = k)) ∘
        (fun e => if e.1 = k then (k, v) else e)) =
        (fun e : FPath × List String => decide (e.1 = k)) := by
      funext e
      by_cases he : e.1 = k <;> simp [Function.comp, he]
    rw [hpred]
    rcases List.any_eq_true.mp hany with ⟨e, hem, hek⟩
    have hsome : (m.find? (fun e => e.1 = k)).isSome = true := by
      rw [List.find?_isSome]
      exact ⟨e, hem, hek⟩
    cases hf : m.find? (fun e => e.1 = k) with
    | none => rw [hf] at hsome; simp at hsome
    | some e0 =>
      have he0 : e0.1 = k := by
        have := List.find?_some hf
        simpa using this
      simp [he0]
  · rw [if_neg hany]
    have hnone : m.find? (fun e => e.1 = k) = none := by
      rw [List.find?_eq_none]
      intro e hem
      simp only [decide_eq_true_eq]
      intro hek
      exact hany (List.any_eq_true.mpr ⟨e, hem, by simp [hek]⟩)
    rw [List.find?_append, hnone]
    simp

theorem metaLookup_metaErase (m : TagMeta) (k : FPath) :
    metaLookup (metaErase m k) k = none := by
  unfold metaErase metaLookup
  have : (m.filter (fun e => ¬ e.1 = k)).find? (fun e => e.1 = k) = none := by
    rw [List.find?_eq_none]
    intro e hem
    have := List.of_mem_filter hem
    simpa using this
  rw [this]
  rfl

theorem metaInsert_ne_nil (m : TagMeta) (k : FPath) (v : List String) :
    metaInsert m k v ≠ [] := by
  unfold metaInsert
  by_cases hany : m.any (fun e => e.1 = k)
  · rw [if_pos hany]
    intro h
    rw [List.map_eq_nil_iff] at h
    subst h
    simp at hany
  · rw [if_neg hany]
    simp

theorem dirMeta_isSome_isDir {fs : FSNode} {q : FPath}
    (h : (dirMeta fs q).isSome = true) : isDirFS fs q = true := by
  unfold dirMeta at h
  unfold isDirFS
  cases hl : lookupNode fs q with
  | none => rw [hl] at h; simp at h
  | some nd => cases nd with
    | file n => rw [hl] at h; simp at h
    | dir n m cs => rfl

theorem read_tag_meta_ne_nil {fs : FSNode} {p : FPath}
    (h : FileTagger.read_tag_meta fs p ≠ []) :
    (dirMeta fs (FileTagger.tag_dir_of fs p)).isSome = true := by
  unfold FileTagger.read_tag_meta at h
  cases hm : dirMeta fs (FileTagger.tag_dir_of fs p) with
  | none => rw [hm] at h; simp at h
  | some m => rfl

theorem read_tags_ne_nil {fs : FSNode} {p : FPath}
    (h : FileTagger.read_tags fs p ≠ []) :
    FileTagger.read_tag_meta fs p ≠ [] := by
  intro hm
  unfold FileTagger.read_tags at h
  rw [hm] at h
  simp [metaLookup] at h

theorem write_tags_cases (fs : FSNode) (p : FPath) (tags : List String) :
    (FileTagger.write_tags fs p tags).1 = fs ∨
    (∃ m', (FileTagger.write_tags fs p tags).1 =
        setMetaNode fs (FileTagger.tag_dir_of fs p) m' ∧
        isDirFS fs (FileTagger.tag_dir_of fs p) = true) := by
  unfold FileTagger.write_tags FileTagger.write_tag_meta
  by_cases h1 : (if tags.isEmpty then
      metaErase (FileTagger.read_tag_meta fs p) p
    else metaInsert (FileTagger.read_tag_meta fs p) p tags.dedup).isEmpty
  · rw [if_pos h1]
    by_cases h2 : (dirMeta fs (FileTagger.tag_dir_of fs p)).isSome
    · right
      exact ⟨none, by rw [if_pos h2], dirMeta_isSome_isDir h2⟩
    · left
      rw [if_neg h2]
  · rw [if_neg h1]
    by_cases h2 : isDirFS fs (FileTagger.tag_dir_of fs p)
    · right
      exact ⟨_, by rw [if_pos h2], h2⟩
    · left
      rw [if_neg h2]

theorem write_tags_kindAt (fs : FSNode) (p : FPath) (tags : List String)
    (q : FPath) (hq : q ≠ (FileTagger.tag_dir_of fs p) ++ [".tag"]) :
    kindAt ((FileTagger.write_tags fs p tags).1) q = kindAt fs q := by
  rcases write_tags_cases fs p tags with h | ⟨m', h, _⟩
  · rw [h]
  · rw [h]
    exact kindAt_setMetaNode m' _ fs q hq

theorem write_tags_namesOK (fs : FSNode) (p : FPath) (tags : List String) :
    namesOK ((FileTagger.write_tags fs p tags).1) = namesOK fs := by
  rcases write_tags_cases fs p tags with h | ⟨m', h, _⟩
  · rw [h]
  · rw [h]
    exact namesOK_setMetaNode m' _ fs

theorem write_tags_dirMeta_other (fs : FSNode) (p : FPath) (tags : List String)
    (q : FPath) (hq1 : q ≠ FileTagger.tag_dir_of fs p)
    (hq2 : q ≠ (FileTagger.tag_dir_of fs p) ++ [".tag"]) :
    dirMeta ((FileTagger.write_tags fs p tags).1) q = dirMeta fs q := by
  rcases write_tags_cases fs p tags with h | ⟨m', h, _⟩
  · rw [h]
  · rw [h]
    exact dirMeta_setMetaNode_other m' _ fs q hq1 hq2

theorem write_tags_dirChildPaths (fs : FSNode) (p : FPath)
    (tags : List String) (q : FPath)
    (hq : q ≠ (FileTagger.tag_dir_of fs p) ++ [".tag"]) :
    dirChildPaths ((FileTagger.write_tags fs p tags).1) q =
      dirChildPaths fs q := by
  rcases write_tags_cases fs p tags with h | ⟨m', h, _⟩
  · rw [h]
  · rw [h]
    exact dirChildPaths_setMetaNode m' _ fs q hq

theorem ne_append_tag (td : FPath) : td ≠ td ++ [".tag"] := by
  intro h
  have := congrArg List.length h
  simp at this

theorem write_tags_noop {fs : FSNode} {p : FPath} (tags : List String)
    (h : isDirFS fs (FileTagger.tag_dir_of fs p) = false) :
    (FileTagger.write_tags fs p tags).1 = fs := by
  unfold FileTagger.write_tags FileTagger.write_tag_meta
  by_cases h1 : (if tags.isEmpty then
      metaErase (FileTagger.read_tag_meta fs p) p
    else metaInsert (FileTagger.read_tag_meta fs p) p tags.dedup).isEmpty
  · rw [if_pos h1]
    by_cases h2 : (dirMeta fs (FileTagger.tag_dir_of fs p)).isSome
    · exact absurd (dirMeta_isSome_isDir h2) (by simp [h])
    · rw [if_neg h2]
  · rw [if_neg h1]
    rw [if_neg (by simp [h])]

theorem get_tags_fileImpl {fs : FSNode} {p : FPath}
    (hex : existsFS fs p = true) :
    Tagger.get_tags fileImpl fs p = sortTags (FileTagger.read_tags fs p) := by
  unfold Tagger.get_tags
  rw [if_neg (by simp [fileImpl, hex])]
  rfl

theorem isFileFS_eq_match (fs : FSNode) (q : FPath) :
    isFileFS fs q = (match kindAt fs q with
      | some false => true
      | _ => false) := by
  unfold isFileFS kindAt
  cases h : lookupNode fs q with
  | none => rfl
  | some nd => cases nd <;> rfl

theorem isDirFS_eq_match (fs : FSNode) (q : FPath) :
    isDirFS fs q = (match kindAt fs q with
      | some true => true
      | _ => false) := by
  unfold isDirFS kindAt
  cases h : lookupNode fs q with
  | none => rfl
  | some nd => cases nd <;> rfl

theorem isFileFS_congr {fs fs' : FSNode} {q q' : FPath}
    (h : kindAt fs q = kindAt fs' q') : isFileFS fs q = isFileFS fs' q' := by
  rw [isFileFS_eq_match, isFileFS_eq_match, h]

theorem isDirFS_congr {fs fs' : FSNode} {q q' : FPath}
    (h : kindAt fs q = kindAt fs' q') : isDirFS fs q = isDirFS fs' q' := by
  rw [isDirFS_eq_match, isDirFS_eq_match, h]

theorem existsFS_congr {fs fs' : FSNode} {q q' : FPath}
    (h : kindAt fs q = kindAt fs' q') : existsFS fs q = existsFS fs' q' := by
  rw [existsFS_eq_kind, existsFS_eq_kind, h]

theorem isFileFS_of_kind_false {fs : FSNode} {q : FPath}
    (h : kindAt fs q = some false) : isFileFS fs q = true := by
  rw [isFileFS_eq_match, h]

theorem isDirFS_of_kind_true {fs : FSNode} {q : FPath}
    (h : kindAt fs q = some true) : isDirFS fs q = true := by
  rw [isDirFS_eq_match, h]

theorem kind_true_of_isDirFS {fs : FSNode} {q : FPath}
    (h : isDirFS fs q = true) : kindAt fs q = some true := by
  rw [isDirFS_eq_match] at h
  cases hk : kindAt fs q with
  | none => rw [hk] at h; simp at h
  | some b => cases b with
    | false => rw [hk] at h; simp at h
    | true => rfl

theorem exists_of_kind_some {fs : FSNode} {q : FPath} {b : Bool}
    (h : kindAt fs q = some b) : existsFS fs q = true := by
  rw [existsFS_eq_kind, h]
  rfl

theorem write_tags_eq_insert (fs : FSNode) (p : FPath) (v : List String)
    (hv : ¬ v.isEmpty = true) :
    FileTagger.write_tags fs p v =
      FileTagger.write_tag_meta fs p
        (metaInsert (FileTagger.read_tag_meta fs p) p v.dedup) := by
  unfold FileTagger.write_tags
  dsimp only
  rw [if_neg hv]

theorem write_tags_eq_erase (fs : FSNode) (p : FPath) :
    FileTagger.write_tags fs p [] =
      FileTagger.write_tag_meta fs p
        (metaErase (FileTagger.read_tag_meta fs p) p) := rfl

theorem write_tag_meta_eq_set (fs : FSNode) (p : FPath) (meta : TagMeta)
    (hm : ¬ meta.isEmpty = true)
    (hdir : isDirFS fs (FileTagger.tag_dir_of fs p) = true) :
    FileTagger.write_tag_meta fs p meta =
      (setMetaNode fs (FileTagger.tag_dir_of fs p) (some meta), true) := by
  unfold FileTagger.write_tag_meta
  dsimp only
  rw [if_neg hm, if_pos hdir]

theorem write_tag_meta_eq_del (fs : FSNode) (p : FPath) (meta : TagMeta)
    (hm : meta.isEmpty = true)
    (hs : (dirMeta fs (FileTagger.tag_dir_of fs p)).isSome = true) :
    FileTagger.write_tag_meta fs p meta =
      (setMetaNode fs (FileTagger.tag_dir_of fs p) none, true) := by
  unfold FileTagger.write_tag_meta
  dsimp only
  rw [if_pos hm, if_pos hs]

theorem write_tag_meta_eq_keep (fs : FSNode) (p : FPath) (meta : TagMeta)
    (hm : meta.isEmpty = true)
    (hs : ¬ (dirMeta fs (FileTagger.tag_dir_of fs p)).isSome = true) :
    FileTagger.write_tag_meta fs p meta = (fs, true) := by
  unfold FileTagger.write_tag_meta
  dsimp only
  rw [if_pos hm, if_neg hs]

/-- Effect of a non-empty `_write_tags` on its own record: the path still
exists with the same record directory, and reading it back returns exactly
the written (duplicate-free) tag list. -/
theorem write_read_back {fs : FSNode} {p : FPath} {v : List String}
    (hv : v ≠ []) (hnd : v.Nodup) (hwf : namesOK fs = true)
    (hex : existsFS fs p = true)
    (hdir : isDirFS fs (FileTagger.tag_dir_of fs p) = true) :
    existsFS (FileTagger.write_tags fs p v).1 p = true ∧
    FileTagger.tag_dir_of (FileTagger.write_tags fs p v).1 p =
      FileTagger.tag_dir_of fs p ∧
    FileTagger.read_tags (FileTagger.write_tags fs p v).1 p = v ∧
    namesOK (FileTagger.write_tags fs p v).1 = true ∧
    isDirFS (FileTagger.write_tags fs p v).1
      (FileTagger.tag_dir_of (FileTagger.write_tags fs p v).1 p) = true := by
  obtain ⟨td, htd⟩ : ∃ td, FileTagger.tag_dir_of fs p = td := ⟨_, rfl⟩
  obtain ⟨meta₀, hmeta₀⟩ : ∃ m, FileTagger.read_tag_meta fs p = m := ⟨_, rfl⟩
  rw [htd] at hdir
  have hve : ¬ v.isEmpty = true := by simp [hv]
  have hfs' : (FileTagger.write_tags fs p v).1 =
      setMetaNode fs td (some (metaInsert meta₀ p v)) := by
    rw [write_tags_eq_insert fs p v hve, hnd.dedup,
      write_tag_meta_eq_set fs p _ (by
        simp only [List.isEmpty_eq_true]
        exact metaInsert_ne_nil _ _ _) (by rw [htd]; exact hdir)]
    rw [htd, hmeta₀]
  have hmeta : dirMeta (FileTagger.write_tags fs p v).1 td =
      some (metaInsert meta₀ p v) := by
    rw [hfs']
    exact dirMeta_setMetaNode_self _ _ fs hdir
  have hkindp : kindAt (FileTagger.write_tags fs p v).1 p = kindAt fs p ∨
      kindAt (FileTagger.write_tags fs p v).1 p = some false := by
    by_cases hp : p = td ++ [".tag"]
    · right
      rw [hfs', hp, kindAt_setMetaNode_tag _ _ fs hwf hdir]
      simp
    · left
      rw [hfs']
      exact kindAt_setMetaNode _ _ fs p hp
  have hex' : existsFS (FileTagger.write_tags fs p v).1 p = true := by
    rcases hkindp with h | h
    · rw [existsFS_congr h]
      exact hex
    · exact exists_of_kind_some h
  have htd' : FileTagger.tag_dir_of (FileTagger.write_tags fs p v).1 p = td := by
    by_cases hp : p = td ++ [".tag"]
    · have hkind : kindAt (FileTagger.write_tags fs p v).1 p = some false := by
        rw [hfs', hp, kindAt_setMetaNode_tag _ _ fs hwf hdir]
        simp
      have hfile := isFileFS_of_kind_false hkind
      unfold FileTagger.tag_dir_of
      rw [hfile]
      simp only [if_true]
      rw [hp]
      exact List.dropLast_concat
    · have hkind : kindAt (FileTagger.write_tags fs p v).1 p = kindAt fs p := by
        rw [hfs']
        exact kindAt_setMetaNode _ _ fs p hp
      unfold FileTagger.tag_dir_of
      rw [isFileFS_congr hkind, ← htd]
      rfl
  have hread : FileTagger.read_tags (FileTagger.write_tags fs p v).1 p = v := by
    unfold FileTagger.read_tags FileTagger.read_tag_meta
    rw [htd', hmeta]
    simp [metaLookup_metaInsert]
  have hwf' : namesOK (FileTagger.write_tags fs p v).1 = true := by
    rw [write_tags_namesOK]
    exact hwf
  have hdir' : isDirFS (FileTagger.write_tags fs p v).1
      (FileTagger.tag_dir_of (FileTagger.write_tags fs p v).1 p) = true := by
    rw [htd']
    have hkind : kindAt (FileTagger.write_tags fs p v).1 td = kindAt fs td := by
      rw [hfs']
      exact kindAt_setMetaNode _ _ fs td (ne_append_tag td)
    rw [isDirFS_congr hkind]
    exact hdir
  rw [htd]
  exact ⟨hex', htd', hread, hwf', hdir'⟩

theorem setMeta_keep_path {fs : FSNode} {td p : FPath} (m' : TagMeta)
    (htd : FileTagger.tag_dir_of fs p = td) (hwf : namesOK fs = true)
    (hdir : isDirFS fs td = true) (hex : existsFS fs p = true) :
    existsFS (setMetaNode fs td (some m')) p = true ∧
    FileTagger.tag_dir_of (setMetaNode fs td (some m')) p = td := by
  by_cases hp : p = td ++ [".tag"]
  · have hkind : kindAt (setMetaNode fs td (some m')) p = some false := by
      rw [hp, kindAt_setMetaNode_tag _ _ fs hwf hdir]
      simp
    refine ⟨exists_of_kind_some hkind, ?_⟩
    unfold FileTagger.tag_dir_of
    rw [isFileFS_of_kind_false hkind]
    simp only [if_true]
    rw [hp]
    exact List.dropLast_concat
  · have hkind : kindAt (setMetaNode fs td (some m')) p = kindAt fs p :=
      kindAt_setMetaNode _ _ fs p hp
    refine ⟨by rw [existsFS_congr hkind]; exact hex, ?_⟩
    unfold FileTagger.tag_dir_of
    rw [isFileFS_congr hkind, ← htd]
    rfl

theorem setMeta_del_path {fs : FSNode} {td p : FPath}
    (htd : FileTagger.tag_dir_of fs p = td) (hwf : namesOK fs = true)
    (hdir : isDirFS fs td = true) :
    (existsFS (setMetaNode fs td none) p = existsFS fs p ∧
      FileTagger.tag_dir_of (setMetaNode fs td none) p = td) ∨
    (p = td ++ [".tag"] ∧ existsFS (setMetaNode fs td none) p = false) := by
  by_cases hp : p = td ++ [".tag"]
  · right
    refine ⟨hp, ?_⟩
    have hkind : kindAt (setMetaNode fs td none) p = none := by
      rw [hp, kindAt_setMetaNode_tag _ _ fs hwf hdir]
      simp
    rw [existsFS_eq_kind, hkind]
    rfl
  · left
    have hkind : kindAt (setMetaNode fs td none) p = kindAt fs p :=
      kindAt_setMetaNode _ _ fs p hp
    refine ⟨existsFS_congr hkind, ?_⟩
    unfold FileTagger.tag_dir_of
    rw [isFileFS_congr hkind, ← htd]
    rfl

theorem add_tags_fileImpl_eq (fs : FSNode) (p : FPath) (tags : List String)
    (hts : tags ≠ []) (hex : existsFS fs p = true) :
    Tagger.add_tags fileImpl fs p tags =
      ((FileTagger.write_tags fs p
          ((Tagger.get_tags fileImpl fs p ++ tags).dedup)).1,
        Sum.inr (FileTagger.write_tags fs p
          ((Tagger.get_tags fileImpl fs p ++ tags).dedup)).2) := by
  unfold Tagger.add_tags
  rw [if_neg]
  · rfl
  · simp [hts, hex, fileImpl]

theorem add_tags_noop (fs : FSNode) (p : FPath) (tags : List String)
    (hts : tags ≠ []) (hex : existsFS fs p = true)
    (hdir : isDirFS fs (FileTagger.tag_dir_of fs p) = false) :
    (Tagger.add_tags fileImpl fs p tags).1 = fs := by
  rw [add_tags_fileImpl_eq fs p tags hts hex]
  exact write_tags_noop _ (by simp [hdir])

/-- One successful `add_tags`: the path keeps existing, well-formedness is
kept, and the stored tag set becomes the sorted deduplication of the old
sorted tags plus the new ones. -/
theorem add_tags_step (fs : FSNode) (p : FPath) (tags : List String)
    (hwf : namesOK fs = true) (hex : existsFS fs p = true) (hts : tags ≠ [])
    (hdir : isDirFS fs (FileTagger.tag_dir_of fs p) = true) :
    existsFS (Tagger.add_tags fileImpl fs p tags).1 p = true ∧
    namesOK (Tagger.add_tags fileImpl fs p tags).1 = true ∧
    isDirFS (Tagger.add_tags fileImpl fs p tags).1
      (FileTagger.tag_dir_of (Tagger.add_tags fileImpl fs p tags).1 p) = true ∧
    Tagger.get_tags fileImpl (Tagger.add_tags fileImpl fs p tags).1 p =
      sortTags ((Tagger.get_tags fileImpl fs p ++ tags).dedup) := by
  have hnew : ((Tagger.get_tags fileImpl fs p ++ tags).dedup) ≠ [] := by
    intro h
    rw [List.dedup_eq_nil] at h
    exact hts (by simpa using (List.append_eq_nil.mp h).2)
  have hnd : ((Tagger.get_tags fileImpl fs p ++ tags).dedup).Nodup :=
    List.nodup_dedup _
  obtain ⟨hex', _, hread, hwf', hdir'⟩ :=
    write_read_back hnew hnd hwf hex hdir
  rw [add_tags_fileImpl_eq fs p tags hts hex]
  exact ⟨hex', hwf', hdir', by rw [get_tags_fileImpl hex', hread]⟩

/-- C7: adding the same tags twice leaves the same TagSet as adding them
once, and removing tags that are not present leaves the TagSet unchanged and
still reports success. -/
theorem c7_add_idempotent_rm_noop (fs : FSNode) (p : FPath)
    (hwf : namesOK fs = true) (hex : existsFS fs p = true) :
    (∀ tags : List String, tags ≠ [] →
      Tagger.get_tags fileImpl
          (Tagger.add_tags fileImpl
            (Tagger.add_tags fileImpl fs p tags).1 p tags).1 p =
        Tagger.get_tags fileImpl (Tagger.add_tags fileImpl fs p tags).1 p) ∧
    (∀ tags : List String,
      (∀ t ∈ tags, t ∉ Tagger.get_tags fileImpl fs p) →
      (FileTagger.read_tags fs p).Nodup →
      Tagger.get_tags fileImpl (Tagger.rm_tags fileImpl fs p tags).1 p =
        Tagger.get_tags fileImpl fs p ∧
      (Tagger.rm_tags fileImpl fs p tags).2 = true) := by
  constructor
  · -- idempotence of add
    intro tags hts
    by_cases hdir : isDirFS fs (FileTagger.tag_dir_of fs p) = true
    · obtain ⟨hex1, hwf1, hdir1, hget1⟩ :=
        add_tags_step fs p tags hwf hex hts hdir
      obtain ⟨_, _, _, hget2⟩ :=
        add_tags_step _ p tags hwf1 hex1 hts hdir1
      rw [hget2, hget1]
      apply sortTags_eq_of_perm
      rw [List.perm_ext_iff_of_nodup (List.nodup_dedup _) (List.nodup_dedup _)]
      intro x
      simp only [List.mem_dedup, List.mem_append, sortTags_mem]
      tauto
    · have h1 : (Tagger.add_tags fileImpl fs p tags).1 = fs :=
        add_tags_noop fs p tags hts hex (by simpa using hdir)
      rw [h1, h1]
  · -- removal of absent tags
    intro tags hdisj hnodup
    have hrm : Tagger.rm_tags fileImpl fs p tags =
        FileTagger.write_tags fs p
          (((Tagger.get_tags fileImpl fs p).dedup).filter
            (fun t => ¬ tags.contains t)) := by
      unfold Tagger.rm_tags
      rw [if_neg]
      · rfl
      · simp [hex, fileImpl]
    have hgetnd : (Tagger.get_tags fileImpl fs p).Nodup := by
      rw [get_tags_fileImpl hex]
      exact sortTags_nodup hnodup
    have hfilter : ((Tagger.get_tags fileImpl fs p).dedup).filter
        (fun t => ¬ tags.contains t) = Tagger.get_tags fileImpl fs p := by
      rw [hgetnd.dedup]
      rw [List.filter_eq_self]
      intro a ha
      simp only [decide_eq_true_eq]
      intro hcon
      exact hdisj a (by simpa using hcon) ha
    rw [hrm, hfilter]
    by_cases hget : Tagger.get_tags fileImpl fs p = []
    · -- writing the empty set: the entry for p is popped (it was absent)
      rw [hget]
      rw [write_tags_eq_erase]
      obtain ⟨td, htd⟩ : ∃ td, FileTagger.tag_dir_of fs p = td := ⟨_, rfl⟩
      obtain ⟨meta₀, hmeta₀⟩ : ∃ m, FileTagger.read_tag_meta fs p = m := ⟨_, rfl⟩
      by_cases hm : (metaErase meta₀ p).isEmpty = true
      · by_cases hs : (dirMeta fs td).isSome = true
        · rw [hmeta₀, write_tag_meta_eq_del fs p _ hm (by rw [htd]; exact hs),
            htd]
          have hdir : isDirFS fs td = true := dirMeta_isSome_isDir hs
          rcases setMeta_del_path htd hwf hdir with ⟨hex2, htd2⟩ | ⟨hp, hex2⟩
          · constructor
            · unfold Tagger.get_tags
              rw [if_neg (by simp [fileImpl, hex2, hex])]
              simp only [fileImpl]
              unfold FileTagger.read_tags FileTagger.read_tag_meta
              rw [htd2]
              rw [dirMeta_setMetaNode_self _ _ fs hdir]
              simp [metaLookup, sortTags, List.insertionSort]
            · rfl
          · constructor
            · unfold Tagger.get_tags
              rw [if_pos (by simp [fileImpl, hex2])]
            · rfl
        · rw [hmeta₀, write_tag_meta_eq_keep fs p _ hm (by rw [htd]; exact hs)]
          exact ⟨hget, rfl⟩
      · -- the mapping keeps other entries; it is written back without p
        have hmne : meta₀ ≠ [] := by
          intro h
          rw [h] at hm
          simp [metaErase] at hm
        have hs : (dirMeta fs td).isSome = true := by
          rw [← htd]
          exact read_tag_meta_ne_nil (by rw [hmeta₀]; exact hmne)
        have hdir : isDirFS fs td = true := dirMeta_isSome_isDir hs
        rw [hmeta₀, write_tag_meta_eq_set fs p _ hm (by rw [htd]; exact dirMeta_isSome_isDir hs), htd]
        obtain ⟨hex2, htd2⟩ :=
          setMeta_keep_path (metaErase meta₀ p) htd hwf hdir hex
        constructor
        · unfold Tagger.get_tags
          rw [if_neg (by simp [fileImpl, hex2])]
          simp only [fileImpl]
          unfold FileTagger.read_tags FileTagger.read_tag_meta
          rw [htd2]
          rw [dirMeta_setMetaNode_self _ _ fs hdir]
          simp [metaLookup_metaErase, sortTags, List.insertionSort]
        · rfl
    · -- non-empty set: rewrite the entry with the same tags
      have hrdne : FileTagger.read_tags fs p ≠ [] := by
        intro h
        rw [get_tags_fileImpl hex, h] at hget
        exact hget rfl
      have hdir : isDirFS fs (FileTagger.tag_dir_of fs p) = true :=
        dirMeta_isSome_isDir (read_tag_meta_ne_nil (read_tags_ne_nil hrdne))
      obtain ⟨hex', _, hread, _, _⟩ :=
        write_read_back hget hgetnd hwf hex hdir
      constructor
      · rw [get_tags_fileImpl hex', hread, get_tags_fileImpl hex,
          sortTags_idem]
      · rw [write_tags_eq_insert fs p _ (by simp [hget]),
          write_tag_meta_eq_set fs p _ (by
            simp only [List.isEmpty_eq_true]
            exact metaInsert_ne_nil _ _ _) hdir]

theorem c7_witness :
    namesOK scenarioFS = true ∧ existsFS scenarioFS ["tmp0"] = true ∧
    Tagger.get_tags fileImpl
        (Tagger.add_tags fileImpl
          (Tagger.add_tags fileImpl scenarioFS ["tmp0"] ["x"]).1 ["tmp0"]
          ["x"]).1 ["tmp0"] =
      Tagger.get_tags fileImpl
        (Tagger.add_tags fileImpl scenarioFS ["tmp0"] ["x"]).1 ["tmp0"] ∧
    Tagger.get_tags fileImpl
        (Tagger.rm_tags fileImpl scenarioFS ["tmp0"] ["zz"]).1 ["tmp0"] =
      Tagger.get_tags fileImpl scenarioFS ["tmp0"] ∧
    (Tagger.rm_tags fileImpl scenarioFS ["tmp0"] ["zz"]).2 = true := by
  refine ⟨by decide, by decide, ?_, ?_, ?_⟩
  · exact (c7_add_idempotent_rm_noop scenarioFS ["tmp0"] (by decide)
      (by decide)).1 ["x"] (by decide)
  · exact ((c7_add_idempotent_rm_noop scenarioFS ["tmp0"] (by decide)
      (by decide)).2 ["zz"] (by decide) (by decide)).1
  · exact ((c7_add_idempotent_rm_noop scenarioFS ["tmp0"] (by decide)
      (by decide)).2 ["zz"] (by decide) (by decide)).2

/-! ## Decimal suffix machinery for _handle_dup_path -/

theorem digitVal_digitChar (m : Nat) (h : m < 10) :
    digitVal (Nat.digitChar m) = m := by
  interval_cases m <;> rfl

theorem toDigitsCore_append (fuel : Nat) :
    ∀ (n : Nat) (ds : List Char),
      Nat.toDigitsCore 10 fuel n ds = Nat.toDigitsCore 10 fuel n [] ++ ds := by
  induction fuel with
  | zero => intro n ds; rfl
  | succ fuel ih =>
    intro n ds
    show Nat.toDigitsCore 10 (fuel + 1) n ds = _
    unfold Nat.toDigitsCore
    by_cases h : n / 10 = 0
    · simp [h]
    · simp only [h, if_false]
      rw [ih (n / 10) (Nat.digitChar (n % 10) :: ds),
        ih (n / 10) [Nat.digitChar (n % 10)]]
      simp

theorem digitsVal_toDigitsCore (fuel : Nat) :
    ∀ n : Nat, n < 10 ^ fuel →
      digitsVal 10 (Nat.toDigitsCore 10 fuel n []) = n := by
  induction fuel with
  | zero =>
    intro n hn
    interval_cases n
    rfl
  | succ fuel ih =>
    intro n hn
    show digitsVal 10 (Nat.toDigitsCore 10 (fuel + 1) n []) = n
    unfold Nat.toDigitsCore
    by_cases h : n / 10 = 0
    · simp only [h, if_pos rfl]
      have hlt : n < 10 := by omega
      show digitsVal 10 [Nat.digitChar (n % 10)] = n
      unfold digitsVal
      simp only [List.foldl_cons, List.foldl_nil]
      rw [Nat.mod_eq_of_lt hlt, digitVal_digitChar n hlt]
      omega
    · simp only [h, if_false]
      rw [toDigitsCore_append]
      unfold digitsVal
      rw [List.foldl_append]
      have hdiv : n / 10 < 10 ^ fuel := by
        rw [Nat.div_lt_iff_lt_mul (by omega)]
        have := hn
        rw [pow_succ] at this
        omega
      have := ih (n / 10) hdiv
      unfold digitsVal at this
      rw [this]
      simp only [List.foldl_cons, List.foldl_nil]
      rw [digitVal_digitChar (n % 10) (Nat.mod_lt n (by omega))]
      omega

theorem nat_repr_inj {n m : Nat} (h : Nat.repr n = Nat.repr m) : n = m := by
  have hdig : Nat.toDigits 10 n = Nat.toDigits 10 m := by
    unfold Nat.repr at h
    have := congrArg String.data h
    simpa [List.asString] using this
  have hn : n < 10 ^ (n + 1) := by
    calc n < 10 ^ n := Nat.lt_pow_self (by omega) n
    _ ≤ 10 ^ (n + 1) := Nat.pow_le_pow_right (by omega) (by omega)
  have hm : m < 10 ^ (m + 1) := by
    calc m < 10 ^ m := Nat.lt_pow_self (by omega) m
    _ ≤ 10 ^ (m + 1) := Nat.pow_le_pow_right (by omega) (by omega)
  have h1 := digitsVal_toDigitsCore (n + 1) n hn
  have h2 := digitsVal_toDigitsCore (m + 1) m hm
  unfold Nat.toDigits at hdig
  rw [← h1, ← h2, hdig]

theorem toString_nat_eq_repr (n : Nat) : toString n = Nat.repr n := rfl

theorem string_append_cancel_left {a b c : String} (h : a ++ b = a ++ c) :
    b = c := by
  apply string_data_eq
  have := congrArg String.data h
  rw [String.data_append, String.data_append] at this
  exact List.append_cancel_left this

theorem dupName_inj {target : FPath} {n m : Nat}
    (h : dupName target n = dupName target m) : n = m := by
  unfold dupName at h
  have htail := List.append_cancel_left h
  have hname : target.getLastD "" ++ "_" ++ toString n =
      target.getLastD "" ++ "_" ++ toString m := by
    simpa using htail
  have := string_append_cancel_left hname
  rw [toString_nat_eq_repr, toString_nat_eq_repr] at this
  exact nat_repr_inj this

theorem exists_name_mem {nm : String} :
    ∀ (q : FPath) (fs : FSNode), namesOK fs = true →
      existsFS fs (q ++ [nm]) = true → nm ∈ sibNames fs q
  | [], fs, hwf, hex => by
    cases fs with
    | file n => simp [existsFS, lookupNode] at hex
    | dir n m0 cs =>
      unfold existsFS at hex
      rw [List.nil_append, lookupNode_dir_cons] at hex
      cases hcond : (decide (nm = ".tag") && m0.isSome && ([] : FPath).isEmpty) with
      | true =>
        have h1 : nm = ".tag" := by
          rcases Bool.and_eq_true_iff.mp hcond with ⟨h', _⟩
          rcases Bool.and_eq_true_iff.mp h' with ⟨h'', _⟩
          simpa using h''
        have h2 : m0.isSome = true := by
          rcases Bool.and_eq_true_iff.mp hcond with ⟨h', _⟩
          rcases Bool.and_eq_true_iff.mp h' with ⟨_, h''⟩
          exact h''
        unfold sibNames
        rw [show dirMeta (.dir n m0 cs) [] = m0 from rfl]
        rw [h1]
        simp [h2]
      | false =>
        rw [hcond] at hex
        simp only [Bool.false_eq_true, if_false] at hex
        cases hf : cs.find? (fun ch => ch.name = nm) with
        | none => rw [hf] at hex; simp at hex
        | some ch =>
          have hname : ch.name = nm := by
            have := List.find?_some hf
            simpa using this
          have hch : ch ∈ cs := List.mem_of_find?_eq_some hf
          unfold sibNames
          apply List.mem_append_right
          rw [show lookupNode (.dir n m0 cs) [] = some (.dir n m0 cs) from rfl]
          simp only [childSig]
          rw [List.map_map]
          exact List.mem_map.mpr ⟨ch, hch, hname⟩
  | c :: q', fs, hwf, hex => by
    cases fs with
    | file n => simp [existsFS, lookupNode] at hex
    | dir n m0 cs =>
      unfold existsFS at hex
      rw [List.cons_append, lookupNode_dir_cons] at hex
      have hne : (q' ++ [nm]).isEmpty = false := by
        cases q' <;> rfl
      rw [hne] at hex
      simp only [Bool.and_false, Bool.false_eq_true, if_false] at hex
      cases hf : cs.find? (fun ch => ch.name = c) with
      | none => rw [hf] at hex; simp at hex
      | some ch =>
        rw [hf] at hex
        have hname : ch.name = c := by
          have := List.find?_some hf
          simpa using this
        have hch : ch ∈ cs := List.mem_of_find?_eq_some hf
        have hwf' : namesOK ch = true := namesOK_child hwf hch
        have ih := exists_name_mem q' ch hwf' hex
        cases hcond : (decide (c = ".tag") && m0.isSome && q'.isEmpty) with
        | true =>
          have h1 : c = ".tag" := by
            rcases Bool.and_eq_true_iff.mp hcond with ⟨h', _⟩
            rcases Bool.and_eq_true_iff.mp h' with ⟨h'', _⟩
            simpa using h''
          have := namesOK_no_tag_child hwf
          rw [← h1, hf] at this
          cases this
        | false =>
          have hlk : lookupNode (.dir n m0 cs) (c :: q') = lookupNode ch q' := by
            rw [lookupNode_dir_cons, hcond]
            simp only [Bool.false_eq_true, if_false]
            rw [hf]
          have hsib : sibNames (.dir n m0 cs) (c :: q') = sibNames ch q' := by
            unfold sibNames
            rw [show dirMeta (.dir n m0 cs) (c :: q') =
                (match lookupNode (.dir n m0 cs) (c :: q') with
                  | some (.dir _ m _) => m
                  | _ => none) from rfl, hlk]
            rfl
          rw [hsib]
          exact ih

theorem siblingBound_eq (fs : FSNode) (p : FPath) :
    siblingBound fs p = (sibNames fs p.dropLast).length := by
  unfold siblingBound sibNames
  cases h : lookupNode fs p.dropLast with
  | none =>
    unfold dirMeta
    rw [h]
    simp [childSig]
  | some nd =>
    cases nd with
    | file n =>
      unfold dirMeta
      rw [h]
      simp [childSig]
    | dir n m cs =>
      unfold dirMeta
      rw [h]
      simp only [childSig, List.length_append, List.length_map]
      cases m <;> simp [Nat.add_comm]

theorem suffix_name_inj (s : String) : Function.Injective
    (fun k : Nat => s ++ "_" ++ toString (1 + k)) := by
  intro k k' h
  simp only at h
  have := string_append_cancel_left h
  rw [toString_nat_eq_repr, toString_nat_eq_repr] at this
  have := nat_repr_inj this
  omega

theorem exists_free_suffix (fs : FSNode) (target : FPath)
    (hwf : namesOK fs = true) :
    ∃ k, k < siblingBound fs target + 1 ∧
      existsFS fs (dupName target (1 + k)) = false := by
  by_contra hcon
  push_neg at hcon
  have hall : ∀ k, k < siblingBound fs target + 1 →
      existsFS fs (dupName target (1 + k)) = true := by
    intro k hk
    have := hcon k hk
    cases h : existsFS fs (dupName target (1 + k)) with
    | false => exact absurd h this
    | true => rfl
  have hmem : ∀ k, k < siblingBound fs target + 1 →
      (target.getLastD "" ++ "_" ++ toString (1 + k)) ∈
        sibNames fs target.dropLast := by
    intro k hk
    have hex : existsFS fs
        (target.dropLast ++ [target.getLastD "" ++ "_" ++ toString (1 + k)]) =
        true := hall k hk
    exact exists_name_mem target.dropLast fs hwf hex
  have hnd : ((List.range (siblingBound fs target + 1)).map
      (fun k => target.getLastD "" ++ "_" ++ toString (1 + k))).Nodup :=
    (List.nodup_range _).map (suffix_name_inj _)
  have hsub : ((List.range (siblingBound fs target + 1)).map
      (fun k => target.getLastD "" ++ "_" ++ toString (1 + k))) ⊆
      sibNames fs target.dropLast := by
    intro x hx
    rcases List.mem_map.mp hx with ⟨k, hk, rfl⟩
    exact hmem k (List.mem_range.mp hk)
  have hlen : ((List.range (siblingBound fs target + 1)).map
      (fun k => target.getLastD "" ++ "_" ++ toString (1 + k))).length =
      siblingBound fs target + 1 := by
    simp
  have hle : siblingBound fs target + 1 ≤
      (sibNames fs target.dropLast).length := by
    calc siblingBound fs target + 1
        = ((List.range (siblingBound fs target + 1)).map
            (fun k => target.getLastD "" ++ "_" ++ toString (1 + k))).length :=
          hlen.symm
      _ = ((List.range (siblingBound fs target + 1)).map
            (fun k => target.getLastD "" ++ "_" ++ toString (1 + k))).toFinset.card := by
          rw [List.toFinset_card_of_nodup hnd]
      _ ≤ (sibNames fs target.dropLast).toFinset.card := by
          apply Finset.card_le_card
          intro x hx
          rw [List.mem_toFinset] at hx ⊢
          exact hsub hx
      _ ≤ (sibNames fs target.dropLast).length := List.toFinset_card_le _
  rw [← siblingBound_eq] at hle
  omega

theorem dupProbe_succ (fs : FSNode) (target : FPath) (fuel n : Nat) :
    dupProbe fs target (fuel + 1) n =
      if existsFS fs (dupName target n) = true then
        dupProbe fs target fuel (n + 1)
      else dupName target n := rfl

theorem dupProbe_spec (fs : FSNode) (target : FPath) :
    ∀ (fuel n : Nat),
      (∃ k, k < fuel ∧ existsFS fs (dupName target (n + k)) = false) →
      ∃ j, dupProbe fs target fuel n = dupName target (n + j) ∧
        existsFS fs (dupName target (n + j)) = false ∧
        ∀ i, i < j → existsFS fs (dupName target (n + i)) = true := by
  intro fuel
  induction fuel with
  | zero =>
    intro n h
    rcases h with ⟨k, hk, _⟩
    omega
  | succ fuel ih =>
    intro n h
    by_cases hex : existsFS fs (dupName target n) = true
    · rcases h with ⟨k, hk, hfree⟩
      have hkpos : k ≠ 0 := by
        intro h0
        rw [h0] at hfree
        simp only [Nat.add_zero] at hfree
        rw [hex] at hfree
        cases hfree
      obtain ⟨k', rfl⟩ : ∃ k', k = k' + 1 := ⟨k - 1, by omega⟩
      have hrec := ih (n + 1) ⟨k', by omega, by
        have : n + 1 + k' = n + (k' + 1) := by omega
        rw [this]
        exact hfree⟩
      rcases hrec with ⟨j', hj1, hj2, hj3⟩
      refine ⟨j' + 1, ?_, ?_, ?_⟩
      · rw [dupProbe_succ, if_pos hex, hj1]
        congr 1
        omega
      · have : n + (j' + 1) = n + 1 + j' := by omega
        rw [this]
        exact hj2
      · intro i hi
        cases i with
        | zero => simpa using hex
        | succ i' =>
          have : n + (i' + 1) = n + 1 + i' := by omega
          rw [this]
          exact hj3 i' (by omega)
    · refine ⟨0, ?_, ?_, ?_⟩
      · rw [dupProbe_succ, if_neg hex]
        simp
      · simp only [Nat.add_zero]
        cases h' : existsFS fs (dupName target n) with
        | false => rfl
        | true => exact absurd h' hex
      · intro i hi
        omega

/-- C8: collision resolution of `_handle_dup_path`.  A target that does not
exist is used unchanged; an existing target is renamed to `target_n` where
`n` is the first suffix integer, probed in increasing order from 1, whose
name does not exist.  Being a function of the destination state, the outcome
is deterministic. -/
theorem c8_handle_dup_first_free (fs : FSNode) (target : FPath)
    (hwf : namesOK fs = true) :
    (existsFS fs target = false → handle_dup_path fs target = target) ∧
    (existsFS fs target = true →
      ∃ n, 1 ≤ n ∧ handle_dup_path fs target = dupName target n ∧
        existsFS fs (dupName target n) = false ∧
        ∀ m, 1 ≤ m → m < n → existsFS fs (dupName target m) = true) := by
  constructor
  · intro h
    unfold handle_dup_path
    rw [if_neg (by simp [h])]
  · intro h
    unfold handle_dup_path
    rw [if_pos h]
    obtain ⟨k, hk, hfree⟩ := exists_free_suffix fs target hwf
    obtain ⟨j, hj1, hj2, hj3⟩ :=
      dupProbe_spec fs target (siblingBound fs target + 1) 1 ⟨k, hk, hfree⟩
    refine ⟨1 + j, by omega, hj1, hj2, ?_⟩
    intro m h1m hmj
    obtain ⟨i, rfl⟩ : ∃ i, m = 1 + i := ⟨m - 1, by omega⟩
    exact hj3 i (by omega)

theorem c8_witness :
    namesOK scenarioFS = true ∧
    existsFS scenarioFS ["tmp0", "tmp1"] = true ∧
    (∃ n, 1 ≤ n ∧
      handle_dup_path scenarioFS ["tmp0", "tmp1"] = dupName ["tmp0", "tmp1"] n ∧
      existsFS scenarioFS (dupName ["tmp0", "tmp1"] n) = false ∧
      ∀ m, 1 ≤ m → m < n →
        existsFS scenarioFS (dupName ["tmp0", "tmp1"] m) = true) ∧
    handle_dup_path scenarioFS ["zzz"] = ["zzz"] :=
  ⟨by decide, by decide,
    (c8_handle_dup_first_free scenarioFS ["tmp0", "tmp1"] (by decide)).2
      (by decide),
    (c8_handle_dup_first_free scenarioFS ["zzz"] (by decide)).1 (by decide)⟩

/-! ## Accumulator lemmas for the find consumers -/

section FindAcc

variable {S : Type} (impl : TaggerImpl S) (tags : List String) (stopOn : Bool)

theorem findA_parts : ∀ (roots : List FPath) (s : S) (acc : List FPath)
    (subRoots tmpRoots : List FPath),
    (phaseA (Tagger.findDriver impl tags stopOn) roots (s, acc) subRoots
      tmpRoots).1.1 = s ∧
    (phaseA (Tagger.findDriver impl tags stopOn) roots (s, acc) subRoots
      tmpRoots).1.2 =
      acc ++ (phaseA (Tagger.findDriver impl tags stopOn) roots (s, [])
        subRoots tmpRoots).1.2 ∧
    (phaseA (Tagger.findDriver impl tags stopOn) roots (s, acc) subRoots
      tmpRoots).2 =
      (phaseA (Tagger.findDriver impl tags stopOn) roots (s, []) subRoots
        tmpRoots).2 := by
  intro roots
  induction roots with
  | nil =>
    intro s acc subRoots tmpRoots
    refine ⟨rfl, by simp [phaseA], rfl⟩
  | cons top rest ih =>
    intro s acc subRoots tmpRoots
    unfold phaseA
    by_cases hpr : Tagger.contain_tags impl s top tags = true
    all_goals by_cases hp2 : impl.probeH s top = true
    all_goals simp only [show ∀ a : List FPath,
        (Tagger.findDriver impl tags stopOn).probeD (s, a) top =
        impl.probeH s top from fun _ => rfl, hp2]
    · -- probe positive, match
      simp only [if_true,
        show (Tagger.findDriver impl tags stopOn).onDir (s, acc) top =
          ((s, acc ++ [top]), stopOn) by simp [Tagger.findDriver, hpr],
        show (Tagger.findDriver impl tags stopOn).onDir (s, []) top =
          ((s, [top]), stopOn) by simp [Tagger.findDriver, hpr]]
      obtain ⟨h1, h2, h3⟩ := ih s (acc ++ [top]) subRoots
        (if stopOn then tmpRoots else tmpRoots ++ [top])
      obtain ⟨h1', h2', h3'⟩ := ih s [top] subRoots
        (if stopOn then tmpRoots else tmpRoots ++ [top])
      obtain ⟨h1'', h2'', h3''⟩ := ih s [] subRoots
        (if stopOn then tmpRoots else tmpRoots ++ [top])
      refine ⟨h1, ?_, by rw [h3, h3']⟩
      rw [h2, h2']
      simp
    · -- probe negative, (match irrelevant)
      simp only [Bool.false_eq_true, if_false,
        show (Tagger.findDriver impl tags stopOn).getFs (s, acc) =
          impl.getFs s from rfl,
        show (Tagger.findDriver impl tags stopOn).getFs (s, []) =
          impl.getFs s from rfl]
      exact ih s acc _ tmpRoots
    · -- probe positive, no match
      simp only [if_true,
        show (Tagger.findDriver impl tags stopOn).onDir (s, acc) top =
          ((s, acc), false) by simp [Tagger.findDriver, hpr],
        show (Tagger.findDriver impl tags stopOn).onDir (s, []) top =
          ((s, []), false) by simp [Tagger.findDriver, hpr],
        Bool.false_eq_true, if_false]
      exact ih s acc subRoots (tmpRoots ++ [top])
    · simp only [Bool.false_eq_true, if_false,
        show (Tagger.findDriver impl tags stopOn).getFs (s, acc) =
          impl.getFs s from rfl,
        show (Tagger.findDriver impl tags stopOn).getFs (s, []) =
          impl.getFs s from rfl]
      exact ih s acc _ tmpRoots

theorem findBE_parts : ∀ (entries : List (FPath × Bool)) (s : S)
    (acc : List FPath) (roots : List FPath),
    (phaseBEntries (Tagger.findDriver impl tags stopOn) entries (s, acc)
      roots).1.1 = s ∧
    (phaseBEntries (Tagger.findDriver impl tags stopOn) entries (s, acc)
      roots).1.2 =
      acc ++ (phaseBEntries (Tagger.findDriver impl tags stopOn) entries
        (s, []) roots).1.2 ∧
    (phaseBEntries (Tagger.findDriver impl tags stopOn) entries (s, acc)
      roots).2 =
      (phaseBEntries (Tagger.findDriver impl tags stopOn) entries (s, [])
        roots).2 := by
  intro entries
  induction entries with
  | nil =>
    intro s acc roots
    refine ⟨rfl, by simp [phaseBEntries], rfl⟩
  | cons e rest ih =>
    intro s acc roots
    unfold phaseBEntries
    by_cases he : e.2 = true
    · simp only [he, if_true]
      exact ih s acc (roots ++ [e.1])
    · simp only [he, Bool.false_eq_true, if_false]
      by_cases hct : Tagger.contain_tags impl s e.1 tags = true
      · simp only [
          show (Tagger.findDriver impl tags stopOn).onFile (s, acc) e.1 =
            (s, acc ++ [e.1]) by simp [Tagger.findDriver, hct],
          show (Tagger.findDriver impl tags stopOn).onFile (s, []) e.1 =
            (s, [e.1]) by simp [Tagger.findDriver, hct]]
        obtain ⟨h1, h2, h3⟩ := ih s (acc ++ [e.1]) roots
        obtain ⟨h1', h2', h3'⟩ := ih s [e.1] roots
        refine ⟨h1, ?_, by rw [h3, h3']⟩
        rw [h2, h2']
        simp
      · simp only [
          show (Tagger.findDriver impl tags stopOn).onFile (s, acc) e.1 =
            (s, acc) by simp [Tagger.findDriver, hct],
          show (Tagger.findDriver impl tags stopOn).onFile (s, []) e.1 =
            (s, []) by simp [Tagger.findDriver, hct]]
        exact ih s acc roots

theorem findB_parts : ∀ (tmpRoots : List FPath) (s : S) (acc : List FPath)
    (roots : List FPath),
    (phaseB (Tagger.findDriver impl tags stopOn) tmpRoots (s, acc)
      roots).1.1 = s ∧
    (phaseB (Tagger.findDriver impl tags stopOn) tmpRoots (s, acc)
      roots).1.2 =
      acc ++ (phaseB (Tagger.findDriver impl tags stopOn) tmpRoots (s, [])
        roots).1.2 ∧
    (phaseB (Tagger.findDriver impl tags stopOn) tmpRoots (s, acc) roots).2 =
      (phaseB (Tagger.findDriver impl tags stopOn) tmpRoots (s, [])
        roots).2 := by
  intro tmpRoots
  induction tmpRoots with
  | nil =>
    intro s acc roots
    refine ⟨rfl, by simp [phaseB], rfl⟩
  | cons top rest ih =>
    intro s acc roots
    obtain ⟨hb1, hb2, hb3⟩ := findBE_parts impl tags stopOn
      (scandirFS (impl.getFs s) top) s acc roots
    obtain ⟨hb1', hb2', hb3'⟩ := findBE_parts impl tags stopOn
      (scandirFS (impl.getFs s) top) s [] roots
    have hP1 : (phaseBEntries (Tagger.findDriver impl tags stopOn)
        (scandirFS (impl.getFs s) top) (s, acc) roots).1 =
        (s, acc ++ (phaseBEntries (Tagger.findDriver impl tags stopOn)
          (scandirFS (impl.getFs s) top) (s, []) roots).1.2) := by
      simp only [Prod.ext_iff]
      exact ⟨hb1, hb2⟩
    have hQ1 : (phaseBEntries (Tagger.findDriver impl tags stopOn)
        (scandirFS (impl.getFs s) top) (s, []) roots).1 =
        (s, (phaseBEntries (Tagger.findDriver impl tags stopOn)
          (scandirFS (impl.getFs s) top) (s, []) roots).1.2) := by
      simp only [Prod.ext_iff]
      exact ⟨hb1', trivial⟩
    obtain ⟨k1, k2, k3⟩ := ih s
      (acc ++ (phaseBEntries (Tagger.findDriver impl tags stopOn)
        (scandirFS (impl.getFs s) top) (s, []) roots).1.2)
      (phaseBEntries (Tagger.findDriver impl tags stopOn)
        (scandirFS (impl.getFs s) top) (s, []) roots).2
    obtain ⟨k1', k2', k3'⟩ := ih s
      ((phaseBEntries (Tagger.findDriver impl tags stopOn)
        (scandirFS (impl.getFs s) top) (s, []) roots).1.2)
      (phaseBEntries (Tagger.findDriver impl tags stopOn)
        (scandirFS (impl.getFs s) top) (s, []) roots).2
    rw [← hQ1] at k1' k2' k3'
    unfold phaseB
    dsimp only
    simp only [show (Tagger.findDriver impl tags stopOn).getFs (s, acc) =
        impl.getFs s from rfl,
      show (Tagger.findDriver impl tags stopOn).getFs (s, []) =
        impl.getFs s from rfl]
    rw [hP1, hb3]
    refine ⟨k1, ?_, ?_⟩
    · rw [k2, k2']
      simp
    · rw [k3, k3']

theorem findRun_parts : ∀ (fuel : Nat) (s : S) (acc : List FPath)
    (roots tmpRoots : List FPath) (cd : Nat) (depth : Option Nat),
    (runLayers (Tagger.findDriver impl tags stopOn) fuel (s, acc) roots
      tmpRoots cd depth).1 = s ∧
    (runLayers (Tagger.findDriver impl tags stopOn) fuel (s, acc) roots
      tmpRoots cd depth).2 =
      acc ++ (runLayers (Tagger.findDriver impl tags stopOn) fuel (s, [])
        roots tmpRoots cd depth).2 := by
  intro fuel
  induction fuel with
  | zero =>
    intro s acc roots tmpRoots cd depth
    refine ⟨rfl, by simp [runLayers]⟩
  | succ fuel ih =>
    intro s acc roots tmpRoots cd depth
    cases roots with
    | nil => refine ⟨rfl, by simp [runLayers]⟩
    | cons r0 rest =>
      obtain ⟨ha1, ha2, ha3⟩ := findA_parts impl tags stopOn (r0 :: rest) s
        acc [] tmpRoots
      obtain ⟨ha1', ha2', ha3'⟩ := findA_parts impl tags stopOn (r0 :: rest)
        s [] [] tmpRoots
      have hA1 : (phaseA (Tagger.findDriver impl tags stopOn) (r0 :: rest)
          (s, acc) [] tmpRoots).1 =
          (s, acc ++ (phaseA (Tagger.findDriver impl tags stopOn)
            (r0 :: rest) (s, []) [] tmpRoots).1.2) := by
        simp only [Prod.ext_iff]
        exact ⟨ha1, ha2⟩
      have hA1n : (phaseA (Tagger.findDriver impl tags stopOn) (r0 :: rest)
          (s, []) [] tmpRoots).1 =
          (s, (phaseA (Tagger.findDriver impl tags stopOn) (r0 :: rest)
            (s, []) [] tmpRoots).1.2) := by
        simp only [Prod.ext_iff]
        exact ⟨ha1', trivial⟩
      obtain ⟨hb1a, hb2a, hb3a⟩ := findB_parts impl tags stopOn
        (phaseA (Tagger.findDriver impl tags stopOn) (r0 :: rest) (s, [])
          [] tmpRoots).2.2 s
        (acc ++ (phaseA (Tagger.findDriver impl tags stopOn) (r0 :: rest)
          (s, []) [] tmpRoots).1.2)
        (phaseA (Tagger.findDriver impl tags stopOn) (r0 :: rest) (s, [])
          [] tmpRoots).2.1
      obtain ⟨hb1n, hb2n, hb3n⟩ := findB_parts impl tags stopOn
        (phaseA (Tagger.findDriver impl tags stopOn) (r0 :: rest) (s, [])
          [] tmpRoots).2.2 s
        ((phaseA (Tagger.findDriver impl tags stopOn) (r0 :: rest) (s, [])
          [] tmpRoots).1.2)
        (phaseA (Tagger.findDriver impl tags stopOn) (r0 :: rest) (s, [])
          [] tmpRoots).2.1
      rw [← hA1n] at hb1n hb2n hb3n
      have hBa : (phaseB (Tagger.findDriver impl tags stopOn)
          (phaseA (Tagger.findDriver impl tags stopOn) (r0 :: rest) (s, [])
            [] tmpRoots).2.2
          (s, acc ++ (phaseA (Tagger.findDriver impl tags stopOn)
            (r0 :: rest) (s, []) [] tmpRoots).1.2)
          (phaseA (Tagger.findDriver impl tags stopOn) (r0 :: rest) (s, [])
            [] tmpRoots).2.1).1 =
          (s, (acc ++ (phaseA (Tagger.findDriver impl tags stopOn)
            (r0 :: rest) (s, []) [] tmpRoots).1.2) ++
            (phaseB (Tagger.findDriver impl tags stopOn)
              (phaseA (Tagger.findDriver impl tags stopOn) (r0 :: rest)
                (s, []) [] tmpRoots).2.2 (s, [])
              (phaseA (Tagger.findDriver impl tags stopOn) (r0 :: rest)
                (s, []) [] tmpRoots).2.1).1.2) := by
        simp only [Prod.ext_iff]
        exact ⟨hb1a, hb2a⟩
      have hBn : (phaseB (Tagger.findDriver impl tags stopOn)
          (phaseA (Tagger.findDriver impl tags stopOn) (r0 :: rest) (s, [])
            [] tmpRoots).2.2
          (phaseA (Tagger.findDriver impl tags stopOn) (r0 :: rest) (s, [])
            [] tmpRoots).1
          (phaseA (Tagger.findDriver impl tags stopOn) (r0 :: rest) (s, [])
            [] tmpRoots).2.1).1 =
          (s, (phaseA (Tagger.findDriver impl tags stopOn) (r0 :: rest)
            (s, []) [] tmpRoots).1.2 ++
            (phaseB (Tagger.findDriver impl tags stopOn)
              (phaseA (Tagger.findDriver impl tags stopOn) (r0 :: rest)
                (s, []) [] tmpRoots).2.2 (s, [])
              (phaseA (Tagger.findDriver impl tags stopOn) (r0 :: rest)
                (s, []) [] tmpRoots).2.1).1.2) := by
        simp only [Prod.ext_iff]
        exact ⟨hb1n, hb2n⟩
      obtain ⟨m1, m2⟩ := ih s
        ((acc ++ (phaseA (Tagger.findDriver impl tags stopOn) (r0 :: rest)
          (s, []) [] tmpRoots).1.2) ++
          (phaseB (Tagger.findDriver impl tags stopOn)
            (phaseA (Tagger.findDriver impl tags stopOn) (r0 :: rest)
              (s, []) [] tmpRoots).2.2 (s, [])
            (phaseA (Tagger.findDriver impl tags stopOn) (r0 :: rest)
              (s, []) [] tmpRoots).2.1).1.2)
        (phaseB (Tagger.findDriver impl tags stopOn)
          (phaseA (Tagger.findDriver impl tags stopOn) (r0 :: rest) (s, [])
            [] tmpRoots).2.2 (s, [])
          (phaseA (Tagger.findDriver impl tags stopOn) (r0 :: rest) (s, [])
            [] tmpRoots).2.1).2
        [] (cd + 1) depth
      obtain ⟨m1', m2'⟩ := ih s
        ((phaseA (Tagger.findDriver impl tags stopOn) (r0 :: rest) (s, [])
          [] tmpRoots).1.2 ++
          (phaseB (Tagger.findDriver impl tags stopOn)
            (phaseA (Tagger.findDriver impl tags stopOn) (r0 :: rest)
              (s, []) [] tmpRoots).2.2 (s, [])
            (phaseA (Tagger.findDriver impl tags stopOn) (r0 :: rest)
              (s, []) [] tmpRoots).2.1).1.2)
        (phaseB (Tagger.findDriver impl tags stopOn)
          (phaseA (Tagger.findDriver impl tags stopOn) (r0 :: rest) (s, [])
            [] tmpRoots).2.2 (s, [])
          (phaseA (Tagger.findDriver impl tags stopOn) (r0 :: rest) (s, [])
            [] tmpRoots).2.1).2
        [] (cd + 1) depth
      unfold runLayers
      dsimp only
      by_cases hd : depth = some cd
      · rw [if_pos hd, if_pos hd]
        exact ⟨ha1, ha2⟩
      · rw [if_neg hd, if_neg hd]
        rw [ha3, hA1, hBa, hb3a, hBn, hb3n]
        refine ⟨m1, ?_⟩
        rw [m2, m2']
        simp

end FindAcc

/-- With equal fuel, the paths collected by the find walk under depth bound
`k` form a prefix of those collected under depth bound `k + 1`: the walk
performs the same layers and the deeper bound only appends further layers. -/
theorem findRun_depth_grows {S : Type} (impl : TaggerImpl S)
    (tags : List String) (stopOn : Bool) :
    ∀ (fuel : Nat) (s : S) (roots tmpRoots : List FPath) (cd k : Nat),
    cd ≤ k →
    (runLayers (Tagger.findDriver impl tags stopOn) fuel (s, []) roots
      tmpRoots cd (some k)).2 <+:
    (runLayers (Tagger.findDriver impl tags stopOn) fuel (s, []) roots
      tmpRoots cd (some (k + 1))).2 := by
  intro fuel
  induction fuel with
  | zero =>
    intro s roots tmpRoots cd k hck
    simp [runLayers]
  | succ fuel ih =>
    intro s roots tmpRoots cd k hck
    cases roots with
    | nil => simp [runLayers]
    | cons r0 rest =>
      obtain ⟨ha1', ha2', ha3'⟩ := findA_parts impl tags stopOn (r0 :: rest)
        s [] [] tmpRoots
      have hA1n : (phaseA (Tagger.findDriver impl tags stopOn) (r0 :: rest)
          (s, []) [] tmpRoots).1 =
          (s, (phaseA (Tagger.findDriver impl tags stopOn) (r0 :: rest)
            (s, []) [] tmpRoots).1.2) := by
        simp only [Prod.ext_iff]
        exact ⟨ha1', trivial⟩
      obtain ⟨hb1n, hb2n, hb3n⟩ := findB_parts impl tags stopOn
        (phaseA (Tagger.findDriver impl tags stopOn) (r0 :: rest) (s, [])
          [] tmpRoots).2.2 s
        ((phaseA (Tagger.findDriver impl tags stopOn) (r0 :: rest) (s, [])
          [] tmpRoots).1.2)
        (phaseA (Tagger.findDriver impl tags stopOn) (r0 :: rest) (s, [])
          [] tmpRoots).2.1
      rw [← hA1n] at hb1n hb2n hb3n
      have hB1 : (phaseB (Tagger.findDriver impl tags stopOn)
          (phaseA (Tagger.findDriver impl tags stopOn) (r0 :: rest) (s, [])
            [] tmpRoots).2.2
          (phaseA (Tagger.findDriver impl tags stopOn) (r0 :: rest) (s, [])
            [] tmpRoots).1
          (phaseA (Tagger.findDriver impl tags stopOn) (r0 :: rest) (s, [])
            [] tmpRoots).2.1).1 =
          (s, (phaseA (Tagger.findDriver impl tags stopOn) (r0 :: rest)
            (s, []) [] tmpRoots).1.2 ++
            (phaseB (Tagger.findDriver impl tags stopOn)
              (phaseA (Tagger.findDriver impl tags stopOn) (r0 :: rest)
                (s, []) [] tmpRoots).2.2 (s, [])
              (phaseA (Tagger.findDriver impl tags stopOn) (r0 :: rest)
                (s, []) [] tmpRoots).2.1).1.2) := by
        simp only [Prod.ext_iff]
        exact ⟨hb1n, hb2n⟩
      unfold runLayers
      dsimp only
      by_cases hcd : cd = k
      · rw [if_pos (by rw [hcd]),
          if_neg (by intro hh; have := Option.some.inj hh; omega)]
        rw [hB1, hb3n]
        obtain ⟨-, r2⟩ := findRun_parts impl tags stopOn fuel s
          ((phaseA (Tagger.findDriver impl tags stopOn) (r0 :: rest) (s, [])
            [] tmpRoots).1.2 ++
            (phaseB (Tagger.findDriver impl tags stopOn)
              (phaseA (Tagger.findDriver impl tags stopOn) (r0 :: rest)
                (s, []) [] tmpRoots).2.2 (s, [])
              (phaseA (Tagger.findDriver impl tags stopOn) (r0 :: rest)
                (s, []) [] tmpRoots).2.1).1.2)
          (phaseB (Tagger.findDriver impl tags stopOn)
            (phaseA (Tagger.findDriver impl tags stopOn) (r0 :: rest)
              (s, []) [] tmpRoots).2.2 (s, [])
            (phaseA (Tagger.findDriver impl tags stopOn) (r0 :: rest)
              (s, []) [] tmpRoots).2.1).2
          [] (cd + 1) (some (k + 1))
        rw [r2]
        exact (List.prefix_append _ _).trans (List.prefix_append _ _)
      · rw [if_neg (by intro hh; exact hcd (Option.some.inj hh).symm),
          if_neg (by intro hh; have := Option.some.inj hh; omega)]
        rw [hB1, hb3n]
        obtain ⟨-, r2⟩ := findRun_parts impl tags stopOn fuel s
          ((phaseA (Tagger.findDriver impl tags stopOn) (r0 :: rest) (s, [])
            [] tmpRoots).1.2 ++
            (phaseB (Tagger.findDriver impl tags stopOn)
              (phaseA (Tagger.findDriver impl tags stopOn) (r0 :: rest)
                (s, []) [] tmpRoots).2.2 (s, [])
              (phaseA (Tagger.findDriver impl tags stopOn) (r0 :: rest)
                (s, []) [] tmpRoots).2.1).1.2)
          (phaseB (Tagger.findDriver impl tags stopOn)
            (phaseA (Tagger.findDriver impl tags stopOn) (r0 :: rest)
              (s, []) [] tmpRoots).2.2 (s, [])
            (phaseA (Tagger.findDriver impl tags stopOn) (r0 :: rest)
              (s, []) [] tmpRoots).2.1).2
          [] (cd + 1) (some k)
        obtain ⟨-, r2'⟩ := findRun_parts impl tags stopOn fuel s
          ((phaseA (Tagger.findDriver impl tags stopOn) (r0 :: rest) (s, [])
            [] tmpRoots).1.2 ++
            (phaseB (Tagger.findDriver impl tags stopOn)
              (phaseA (Tagger.findDriver impl tags stopOn) (r0 :: rest)
                (s, []) [] tmpRoots).2.2 (s, [])
              (phaseA (Tagger.findDriver impl tags stopOn) (r0 :: rest)
                (s, []) [] tmpRoots).2.1).1.2)
          (phaseB (Tagger.findDriver impl tags stopOn)
            (phaseA (Tagger.findDriver impl tags stopOn) (r0 :: rest)
              (s, []) [] tmpRoots).2.2 (s, [])
            (phaseA (Tagger.findDriver impl tags stopOn) (r0 :: rest)
              (s, []) [] tmpRoots).2.1).2
          [] (cd + 1) (some (k + 1))
        rw [r2, r2']
        obtain ⟨t, ht⟩ := ih s
          (phaseB (Tagger.findDriver impl tags stopOn)
            (phaseA (Tagger.findDriver impl tags stopOn) (r0 :: rest)
              (s, []) [] tmpRoots).2.2 (s, [])
            (phaseA (Tagger.findDriver impl tags stopOn) (r0 :: rest)
              (s, []) [] tmpRoots).2.1).2
          [] (cd + 1) k (by omega)
        exact ⟨t, by rw [List.append_assoc, ht]⟩

/-- C5: depth monotonicity of search — for every implementation, state, root,
tag query and bound `k`, every path returned by `find_tags` with
`depth = some k` is also returned with `depth = some (k + 1)`, for both
`top_only` modes. -/
theorem c5_depth_monotone {S : Type} (impl : TaggerImpl S) (s : S) (p : FPath)
    (tags : List String) (top_only : Bool) (k : Nat) (x : FPath)
    (h : x ∈ Tagger.find_tags impl s p tags top_only (some k)) :
    x ∈ Tagger.find_tags impl s p tags top_only (some (k + 1)) := by
  unfold Tagger.find_tags at h ⊢
  by_cases he : existsFS (impl.getFs s) p = true
  · rw [if_neg (not_not_intro he)] at h ⊢
    by_cases hd : isDirFS (impl.getFs s) p = true
    · rw [if_neg (not_not_intro hd)] at h ⊢
      cases top_only with
      | true =>
        rw [if_pos rfl] at h ⊢
        unfold Tagger.find_tags_top_only runTagged at h ⊢
        exact List.IsPrefix.subset
          (findRun_depth_grows impl tags true
            (travFuel (impl.getFs s)) s [p] [] 0 k (Nat.zero_le k)) h
      | false =>
        rw [if_neg (by simp)] at h ⊢
        unfold Tagger.find_tags_all runTagged at h ⊢
        exact List.IsPrefix.subset
          (findRun_depth_grows impl tags false
            (travFuel (impl.getFs s)) s [p] [] 0 k (Nat.zero_le k)) h
    · rw [if_pos hd] at h ⊢
      exact h
  · rw [if_pos he] at h
    simp at h

/-- Witness for C5 on the test scenario: `tmp0/tmp1` is found with
`depth = 1` and, by depth monotonicity, also with `depth = 2`. -/
theorem c5_witness :
    ["tmp0", "tmp1"] ∈ Tagger.find_tags fileImpl scenarioFS ["tmp0"]
      ["test1"] false (some 1) ∧
    ["tmp0", "tmp1"] ∈ Tagger.find_tags fileImpl scenarioFS ["tmp0"]
      ["test1"] false (some (1 + 1)) :=
  ⟨by decide,
    c5_depth_monotone fileImpl scenarioFS ["tmp0"] ["test1"] false 1
      ["tmp0", "tmp1"] (by decide)⟩

/-! ## Sidecar hygiene (claim C6) -/

theorem write_tag_meta_eq_fail (fs : FSNode) (p : FPath) (meta : TagMeta)
    (hm : ¬ meta.isEmpty = true)
    (hdir : ¬ isDirFS fs (FileTagger.tag_dir_of fs p) = true) :
    FileTagger.write_tag_meta fs p meta = (fs, false) := by
  unfold FileTagger.write_tag_meta
  dsimp only
  rw [if_neg hm, if_neg hdir]

theorem forestSidecarsOK_mem : ∀ (cs : List FSNode),
    forestSidecarsOK cs = true → ∀ c ∈ cs, sidecarsOK c = true := by
  intro cs
  induction cs with
  | nil =>
    intro _ c hc
    simp at hc
  | cons a cs' ih =>
    intro h c hc
    rw [forestSidecarsOK] at h
    simp only [Bool.and_eq_true] at h
    rcases List.mem_cons.mp hc with rfl | hc'
    · exact h.1
    · exact ih h.2 c hc'

theorem sidecarsOK_lookup : ∀ (q : FPath) (fs nd : FSNode),
    sidecarsOK fs = true → lookupNode fs q = some nd →
    sidecarsOK nd = true
  | [], fs, nd, h, hl => by
    simp only [lookupNode] at hl
    have := Option.some.inj hl
    rw [← this]
    exact h
  | c :: rest, .file n, nd, h, hl => by
    simp [lookupNode] at hl
  | c :: rest, .dir n m cs, nd, h, hl => by
    rw [lookupNode_dir_cons] at hl
    cases hcond : (decide (c = ".tag") && m.isSome && rest.isEmpty) with
    | true =>
      rw [hcond, if_pos rfl] at hl
      have := Option.some.inj hl
      rw [← this]
      rfl
    | false =>
      rw [hcond] at hl
      simp only [Bool.false_eq_true, if_false] at hl
      cases hf : cs.find? (fun ch => ch.name = c) with
      | none =>
        rw [hf] at hl
        exact absurd hl (by simp)
      | some ch =>
        rw [hf] at hl
        have hch : sidecarsOK ch = true := by
          rw [sidecarsOK] at h
          simp only [Bool.and_eq_true] at h
          exact forestSidecarsOK_mem cs h.2 ch (List.mem_of_find?_eq_some hf)
        exact sidecarsOK_lookup rest ch nd hch hl

theorem sidecarsOK_dirMeta (fs : FSNode) (q : FPath)
    (h : sidecarsOK fs = true) : metaEntriesOK (dirMeta fs q) = true := by
  unfold dirMeta
  cases hl : lookupNode fs q with
  | none => rfl
  | some nd =>
    cases nd with
    | file n => rfl
    | dir n m cs =>
      have hnd := sidecarsOK_lookup q fs _ h hl
      rw [sidecarsOK] at hnd
      simp only [Bool.and_eq_true] at hnd
      exact hnd.1

theorem sidecarsOK_setMetaNode (m : Option TagMeta)
    (hm : metaEntriesOK m = true) :
    ∀ (td : FPath) (fs : FSNode), sidecarsOK fs = true →
      sidecarsOK (setMetaNode fs td m) = true
  | [], .file n, h => h
  | [], .dir n m0 cs, h => by
    show sidecarsOK (.dir n m cs) = true
    rw [sidecarsOK] at h ⊢
    simp only [Bool.and_eq_true] at h ⊢
    exact ⟨hm, h.2⟩
  | _ :: _, .file n, h => h
  | d :: tdr, .dir n m0 cs, h => by
    show sidecarsOK (.dir n m0 (cs.map fun ch =>
        if ch.name = d then setMetaNode ch tdr m else ch)) = true
    rw [sidecarsOK] at h ⊢
    simp only [Bool.and_eq_true] at h ⊢
    refine ⟨h.1, ?_⟩
    have hf : ∀ cs' : List FSNode, forestSidecarsOK cs' = true →
        forestSidecarsOK (cs'.map fun ch =>
          if ch.name = d then setMetaNode ch tdr m else ch) = true := by
      intro cs'
      induction cs' with
      | nil => intro _; rfl
      | cons c cs'' ih =>
        intro hc
        rw [forestSidecarsOK] at hc
        simp only [Bool.and_eq_true] at hc
        simp only [List.map_cons]
        rw [forestSidecarsOK]
        simp only [Bool.and_eq_true]
        refine ⟨?_, ih hc.2⟩
        by_cases hcn : c.name = d
        · rw [if_pos hcn]
          exact sidecarsOK_setMetaNode m hm tdr c hc.1
        · rw [if_neg hcn]
          exact hc.1
    exact hf cs h.2

/-- C6 counterexample (to the scoping half of the claim): after a successful
`merge_tags` the destination holds a copied sidecar whose entries are keyed
by the stale source paths, so the sidecar exists although no entry scoped to
it exists at all. -/
theorem c6_counterexample :
    (dirMeta (merge_tags scenarioFS ["tmp0"] ["test2_dir"]
        ["test2", "test3"] none).1 ["test2_dir", "tmp0"]).isSome = true ∧
    ∀ e ∈ (dirMeta (merge_tags scenarioFS ["tmp0"] ["test2_dir"]
        ["test2", "test3"] none).1 ["test2_dir", "tmp0"]).getD [],
      ¬ entryScoped (merge_tags scenarioFS ["tmp0"] ["test2_dir"]
        ["test2", "test3"] none).1 ["test2_dir", "tmp0"] e.1 := by
  constructor
  · decide
  · decide

/-- C6 (amended): no write-back ever persists an empty sidecar mapping —
when the resulting mapping is empty, `__write_tag_meta` deletes the sidecar
(afterwards no sidecar covers `p`), and `_write_tags` preserves sidecar
hygiene (every sidecar in the tree is a non-empty mapping all of whose
entries carry a non-empty tag list). -/
theorem c6_write_back_hygiene (fs : FSNode) (p : FPath) (meta : TagMeta)
    (tags : List String) (h : sidecarsOK fs = true) :
    (meta.isEmpty = true →
      dirMeta (FileTagger.write_tag_meta fs p meta).1
        (FileTagger.tag_dir_of fs p) = none) ∧
    sidecarsOK (FileTagger.write_tags fs p tags).1 = true := by
  constructor
  · intro hme
    by_cases hs : (dirMeta fs (FileTagger.tag_dir_of fs p)).isSome = true
    · rw [write_tag_meta_eq_del fs p meta hme hs]
      exact dirMeta_setMetaNode_self none _ fs (dirMeta_isSome_isDir hs)
    · rw [write_tag_meta_eq_keep fs p meta hme hs]
      exact Option.not_isSome_iff_eq_none.mp hs
  · have hreadvals : ∀ e ∈ FileTagger.read_tag_meta fs p,
        e.2.isEmpty = false := by
      intro e he
      unfold FileTagger.read_tag_meta at he
      cases hm : dirMeta fs (FileTagger.tag_dir_of fs p) with
      | none =>
        rw [hm] at he
        simp at he
      | some l =>
        rw [hm] at he
        have h2 := sidecarsOK_dirMeta fs (FileTagger.tag_dir_of fs p) h
        rw [hm] at h2
        simp [metaEntriesOK] at h2
        have h3 : ¬ e.2 = [] := h2.2 e.1 e.2 (by simpa using he)
        cases hn : e.2 with
        | nil => exact absurd hn h3
        | cons _ _ => rfl
    have key : ∀ mt : TagMeta, (∀ e ∈ mt, e.2.isEmpty = false) →
        sidecarsOK (FileTagger.write_tag_meta fs p mt).1 = true := by
      intro mt hv
      by_cases hme : mt.isEmpty = true
      · by_cases hsome : (dirMeta fs (FileTagger.tag_dir_of fs p)).isSome = true
        · rw [write_tag_meta_eq_del fs p mt hme hsome]
          exact sidecarsOK_setMetaNode none rfl _ fs h
        · rw [write_tag_meta_eq_keep fs p mt hme hsome]
          exact h
      · by_cases hdir : isDirFS fs (FileTagger.tag_dir_of fs p) = true
        · rw [write_tag_meta_eq_set fs p mt hme hdir]
          refine sidecarsOK_setMetaNode (some mt) ?_ _ fs h
          simp only [metaEntriesOK, Bool.and_eq_true, Bool.not_eq_true',
            List.all_eq_true]
          refine ⟨by simpa using hme, ?_⟩
          intro e he
          simpa using hv e he
        · rw [write_tag_meta_eq_fail fs p mt hme hdir]
          exact h
    cases tags with
    | nil =>
      rw [write_tags_eq_erase]
      apply key
      intro e he
      unfold metaErase at he
      exact hreadvals e (List.mem_of_mem_filter he)
    | cons t ts =>
      rw [write_tags_eq_insert fs p (t :: ts) (by simp)]
      apply key
      intro e he
      have hdd : (t :: ts).dedup.isEmpty = false := by
        cases hdn : (t :: ts).dedup with
        | nil => exact absurd hdn (by simp)
        | cons _ _ => rfl
      unfold metaInsert at he
      by_cases hany : (FileTagger.read_tag_meta fs p).any
          (fun e => e.1 = p) = true
      · rw [if_pos hany] at he
        obtain ⟨e0, he0, heq⟩ := List.mem_map.mp he
        by_cases h0 : e0.1 = p
        · rw [if_pos h0] at heq
          rw [← heq]
          exact hdd
        · rw [if_neg h0] at heq
          rw [← heq]
          exact hreadvals e0 he0
      · rw [if_neg hany] at he
        rcases List.mem_append.mp he with h1 | h1
        · exact hreadvals e h1
        · have : e = (p, (t :: ts).dedup) := by simpa using h1
          rw [this]
          exact hdd

/-- Witness for C6 on the test scenario: the empty write-back on `tmp0`
removes its sidecar, and a `_write_tags` keeps sidecar hygiene intact. -/
theorem c6_witness :
    sidecarsOK scenarioFS = true ∧
    dirMeta (FileTagger.write_tag_meta scenarioFS ["tmp0"] []).1
      (FileTagger.tag_dir_of scenarioFS ["tmp0"]) = none ∧
    sidecarsOK (FileTagger.write_tags scenarioFS ["tmp0"] ["x"]).1 = true :=
  ⟨by decide,
    (c6_write_back_hygiene scenarioFS ["tmp0"] [] ["x"] (by decide)).1 rfl,
    (c6_write_back_hygiene scenarioFS ["tmp0"] [] ["x"] (by decide)).2⟩

/-! ## The yield trace as a pure layer recursion -/

theorem traceA_spec (fs : FSNode) (dec : FPath → Bool) :
    ∀ (roots : List FPath) (log : List (FPath × Bool)) (sub tmp : List FPath),
    phaseA (traceDriver fs dec) roots log sub tmp =
      (log ++ (roots.filter
          (fun r => FileTagger.possible_has_tag_entry fs r)).map
          (fun r => (r, true)),
       sub ++ (roots.filter
          (fun r => !FileTagger.possible_has_tag_entry fs r)).flatMap
          (dirChildPaths fs),
       tmp ++ roots.filter
          (fun r => FileTagger.possible_has_tag_entry fs r && !dec r)) := by
  intro roots
  induction roots with
  | nil =>
    intro log sub tmp
    simp [phaseA]
  | cons top rest ih =>
    intro log sub tmp
    unfold phaseA
    by_cases hp : FileTagger.possible_has_tag_entry fs top = true
    · simp only [show (traceDriver fs dec).probeD log top =
          FileTagger.possible_has_tag_entry fs top from rfl, hp, if_true,
        show (traceDriver fs dec).onDir log top =
          (log ++ [(top, true)], dec top) from rfl]
      rw [ih]
      by_cases hd : dec top = true
      · simp [List.filter_cons, hp, hd]
      · have hd' : dec top = false := by simpa using hd
        simp [List.filter_cons, hp, hd']
    · have hp' : FileTagger.possible_has_tag_entry fs top = false := by
        simpa using hp
      simp only [show (traceDriver fs dec).probeD log top =
          FileTagger.possible_has_tag_entry fs top from rfl,
        hp', Bool.false_eq_true, if_false,
        show (traceDriver fs dec).getFs log = fs from rfl]
      rw [ih]
      simp [List.filter_cons, hp']

theorem traceBE_spec (fs : FSNode) (dec : FPath → Bool) :
    ∀ (entries : List (FPath × Bool)) (log : List (FPath × Bool))
      (roots : List FPath),
    phaseBEntries (traceDriver fs dec) entries log roots =
      (log ++ (entries.filter (fun e => !e.2)).map (fun e => (e.1, false)),
       roots ++ (entries.filter (fun e => e.2)).map (fun e => e.1)) := by
  intro entries
  induction entries with
  | nil =>
    intro log roots
    simp [phaseBEntries]
  | cons e rest ih =>
    intro log roots
    unfold phaseBEntries
    by_cases he : e.2 = true
    · rw [if_pos he, ih]
      simp [List.filter_cons, he]
    · rw [if_neg he]
      simp only [show (traceDriver fs dec).onFile log e.1 =
        log ++ [(e.1, false)] from rfl]
      rw [ih]
      have he' : e.2 = false := by simpa using he
      simp [List.filter_cons, he']

theorem traceB_spec (fs : FSNode) (dec : FPath → Bool) :
    ∀ (tmps : List FPath) (log : List (FPath × Bool)) (roots : List FPath),
    phaseB (traceDriver fs dec) tmps log roots =
      (log ++ tmps.flatMap
        (fun t => (fileChildPaths fs t).map (fun q => (q, false))),
       roots ++ tmps.flatMap (dirChildPaths fs)) := by
  intro tmps
  induction tmps with
  | nil =>
    intro log roots
    simp [phaseB]
  | cons top rest ih =>
    intro log roots
    unfold phaseB
    simp only [show (traceDriver fs dec).getFs log = fs from rfl]
    rw [traceBE_spec fs dec (scandirFS fs top) log roots]
    dsimp only
    rw [ih]
    unfold fileChildPaths dirChildPaths
    simp [List.map_map, Function.comp]

theorem travTrace_eq_layers (fs : FSNode) (dec : FPath → Bool) :
    ∀ (fuel : Nat) (R : List FPath) (cd : Nat) (depth : Option Nat)
      (log : List (FPath × Bool)),
    runLayers (traceDriver fs dec) fuel log R [] cd depth =
      log ++ travLayers fs dec fuel R cd depth := by
  intro fuel
  induction fuel with
  | zero =>
    intro R cd depth log
    simp [runLayers, travLayers]
  | succ fuel ih =>
    intro R cd depth log
    cases R with
    | nil => simp [runLayers, travLayers]
    | cons r0 rest =>
      unfold runLayers travLayers
      rw [traceA_spec fs dec (r0 :: rest) log [] []]
      dsimp only
      by_cases hd : depth = some cd
      · rw [if_pos hd, if_pos hd]
      · rw [if_neg hd, if_neg hd]
        rw [traceB_spec fs dec]
        dsimp only
        rw [ih]
        simp

/-! ## Structural lemmas for the traversal characterisation -/

theorem namesOK_lookup : ∀ (q : FPath) (fs nd : FSNode),
    namesOK fs = true → lookupNode fs q = some nd → namesOK nd = true
  | [], fs, nd, h, hl => by
    simp only [lookupNode] at hl
    have := Option.some.inj hl
    rw [← this]
    exact h
  | c :: rest, .file n, nd, h, hl => by
    simp [lookupNode] at hl
  | c :: rest, .dir n m cs, nd, h, hl => by
    rw [lookupNode_dir_cons] at hl
    cases hcond : (decide (c = ".tag") && m.isSome && rest.isEmpty) with
    | true =>
      rw [hcond, if_pos rfl] at hl
      have := Option.some.inj hl
      rw [← this]
      rfl
    | false =>
      rw [hcond] at hl
      simp only [Bool.false_eq_true, if_false] at hl
      cases hf : cs.find? (fun ch => ch.name = c) with
      | none =>
        rw [hf] at hl
        exact absurd hl (by simp)
      | some ch =>
        rw [hf] at hl
        exact namesOK_lookup rest ch nd
          (namesOK_child h (List.mem_of_find?_eq_some hf)) hl

theorem lookupNode_append : ∀ (t : FPath) (fs : FSNode), namesOK fs = true →
    ∀ r, lookupNode fs (t ++ r) =
      (lookupNode fs t).bind (fun nd => lookupNode nd r)
  | [], fs, hw, r => by simp [lookupNode]
  | c :: t', .file n, hw, r => by simp [lookupNode]
  | c :: t', .dir n m cs, hw, r => by
    rw [List.cons_append, lookupNode_dir_cons, lookupNode_dir_cons]
    by_cases hc : c = ".tag"
    · by_cases hm : m.isSome = true
      · have hfind := namesOK_no_tag_child hw
        cases t' with
        | nil =>
          cases r with
          | nil => simp [hc, hm, lookupNode]
          | cons a r' => simp [hc, hm, hfind, lookupNode]
        | cons b t'' => simp [hc, hm, hfind]
      · have hm' : m.isSome = false := by simpa using hm
        cases hf : cs.find? (fun ch => ch.name = c) with
        | none => simp [hm', hf]
        | some ch =>
          simp only [hm', Bool.and_false, Bool.false_and, Bool.false_eq_true,
            if_false, hf]
          exact lookupNode_append t' ch
            (namesOK_child hw (List.mem_of_find?_eq_some hf)) r
    · cases hf : cs.find? (fun ch => ch.name = c) with
      | none => simp [hc, hf]
      | some ch =>
        simp only [hc, decide_False, Bool.false_and, Bool.and_false,
          Bool.false_eq_true, if_false, hf]
        exact lookupNode_append t' ch
          (namesOK_child hw (List.mem_of_find?_eq_some hf)) r

theorem ancestors_isDir {fs : FSNode} (hwf : namesOK fs = true) :
    ∀ (a q : FPath), a <+: q → a ≠ q → existsFS fs q = true →
    isDirFS fs a = true := by
  intro a q hpre hne hex
  obtain ⟨r, hr⟩ := hpre
  have hrne : r ≠ [] := by
    intro h
    rw [h, List.append_nil] at hr
    exact hne hr
  rw [← hr] at hex
  unfold existsFS at hex
  rw [lookupNode_append a fs hwf r] at hex
  unfold isDirFS
  cases hl : lookupNode fs a with
  | none =>
    rw [hl] at hex
    simp at hex
  | some nd =>
    rw [hl] at hex
    cases nd with
    | file n =>
      cases r with
      | nil => exact absurd rfl hrne
      | cons b r' => simp [lookupNode] at hex
    | dir n m cs => rfl

theorem heightForest_mem : ∀ (cs : List FSNode), ∀ c ∈ cs,
    heightFS c ≤ heightForest cs := by
  intro cs
  induction cs with
  | nil =>
    intro c h
    simp at h
  | cons a rest ih =>
    intro c h
    rw [heightForest]
    rcases List.mem_cons.mp h with rfl | h'
    · exact le_max_left _ _
    · exact le_trans (ih c h') (le_max_right _ _)

theorem heightFS_lookup : ∀ (q : FPath) (fs nd : FSNode),
    lookupNode fs q = some nd → q.length + heightFS nd ≤ heightFS fs
  | [], fs, nd, hl => by
    simp only [lookupNode] at hl
    rw [← Option.some.inj hl]
    simp
  | c :: rest, .file n, nd, hl => by
    simp [lookupNode] at hl
  | c :: rest, .dir n m cs, nd, hl => by
    rw [lookupNode_dir_cons] at hl
    cases hcond : (decide (c = ".tag") && m.isSome && rest.isEmpty) with
    | true =>
      rw [hcond, if_pos rfl] at hl
      have hre : rest = [] := by
        simp only [Bool.and_eq_true] at hcond
        cases rest with
        | nil => rfl
        | cons _ _ => simp at hcond
      subst hre
      rw [← Option.some.inj hl, heightFS]
      simp [heightFS]
    | false =>
      rw [hcond] at hl
      simp only [Bool.false_eq_true, if_false] at hl
      cases hf : cs.find? (fun ch => ch.name = c) with
      | none =>
        rw [hf] at hl
        exact absurd hl (by simp)
      | some ch =>
        rw [hf] at hl
        have h1 := heightFS_lookup rest ch nd hl
        have h2 := heightForest_mem cs ch (List.mem_of_find?_eq_some hf)
        rw [heightFS]
        simp only [List.length_cons]
        omega

theorem find?_name_nodup : ∀ (cs : List FSNode),
    namesNodup (cs.map FSNode.name) = true → ∀ ch ∈ cs,
    cs.find? (fun x => x.name = ch.name) = some ch := by
  intro cs
  induction cs with
  | nil =>
    intro _ ch hch
    simp at hch
  | cons a rest ih =>
    intro hn ch hch
    rw [List.map_cons, namesNodup] at hn
    simp only [Bool.and_eq_true] at hn
    have hnotin : a.name ∉ rest.map FSNode.name := by simpa using hn.1
    rcases List.mem_cons.mp hch with rfl | hch'
    · rw [List.find?_cons_of_pos _ (by simp)]
    · have hne : ¬ a.name = ch.name := by
        intro he
        exact hnotin (he ▸ List.mem_map_of_mem FSNode.name hch')
      rw [List.find?_cons_of_neg _ (by simp [hne])]
      exact ih hn.2 ch hch'

theorem scandir_mem {fs : FSNode} (hwf : namesOK fs = true) {t q : FPath}
    {b : Bool} (h : (q, b) ∈ scandirFS fs t) :
    (∃ c, q = t ++ [c]) ∧ kindAt fs q = some b := by
  unfold scandirFS at h
  cases hl : lookupNode fs t with
  | none =>
    rw [hl] at h
    simp at h
  | some nd =>
    rw [hl] at h
    cases nd with
    | file n => simp at h
    | dir n m cs =>
      have hnd : namesOK (.dir n m cs) = true := namesOK_lookup t fs _ hwf hl
      rcases List.mem_append.mp h with h1 | h1
      · by_cases hm : m.isSome = true
        · rw [if_pos hm] at h1
          simp at h1
          obtain ⟨hq, hb⟩ := h1
          subst hq
          subst hb
          refine ⟨⟨".tag", rfl⟩, ?_⟩
          unfold kindAt
          rw [lookupNode_append t fs hwf [".tag"], hl]
          simp [lookupNode_dir_cons, hm, FSNode.isDirNode]
        · rw [if_neg hm] at h1
          simp at h1
      · obtain ⟨ch, hch, he⟩ := List.mem_map.mp h1
        obtain ⟨hq, hb⟩ := Prod.mk.injEq _ _ _ _ ▸ he
        have hchtag : ¬ ch.name = ".tag" := by
          intro hce
          have h4 := List.find?_eq_none.mp (namesOK_no_tag_child hnd) ch hch
          simp [hce] at h4
        refine ⟨⟨ch.name, hq.symm⟩, ?_⟩
        unfold kindAt
        rw [← hq, lookupNode_append t fs hwf [ch.name], hl]
        have hnodup : namesNodup (cs.map FSNode.name) = true := by
          rw [namesOK] at hnd
          simp only [Bool.and_eq_true] at hnd
          exact hnd.1.1
        simp only [Option.some_bind, lookupNode_dir_cons, hchtag,
          decide_False, Bool.false_and, Bool.false_eq_true, if_false]
        rw [find?_name_nodup cs hnodup ch hch]
        simp [lookupNode, ← hb]

theorem dirChild_mem {fs : FSNode} (hwf : namesOK fs = true) (t : FPath)
    (c : String) (hk : kindAt fs (t ++ [c]) = some true) :
    (t ++ [c]) ∈ dirChildPaths fs t := by
  unfold kindAt at hk
  cases hl2 : lookupNode fs (t ++ [c]) with
  | none =>
    rw [hl2] at hk
    simp at hk
  | some nd =>
    rw [hl2] at hk
    simp only [Option.map_some'] at hk
    have hdirnode : nd.isDirNode = true := Option.some.inj hk
    rw [lookupNode_append t fs hwf [c]] at hl2
    cases hl : lookupNode fs t with
    | none =>
      rw [hl] at hl2
      simp at hl2
    | some ndt =>
      rw [hl] at hl2
      cases ndt with
      | file n' => simp [lookupNode] at hl2
      | dir n' m' cs' =>
        simp only [Option.some_bind, lookupNode_dir_cons] at hl2
        by_cases hcond : (decide (c = ".tag") && m'.isSome &&
            ([] : FPath).isEmpty) = true
        · rw [if_pos hcond] at hl2
          rw [← Option.some.inj hl2] at hdirnode
          simp [FSNode.isDirNode] at hdirnode
        · rw [if_neg hcond] at hl2
          cases hf : cs'.find? (fun x => x.name = c) with
          | none =>
            rw [hf] at hl2
            simp at hl2
          | some ch =>
            rw [hf] at hl2
            have hch : ch ∈ cs' := List.mem_of_find?_eq_some hf
            have hname : ch.name = c := by
              have := List.find?_some hf
              simpa using this
            simp only [lookupNode] at hl2
            have hnd : nd = ch := (Option.some.inj hl2).symm
            unfold dirChildPaths scandirFS
            rw [hl]
            apply List.mem_map.mpr
            refine ⟨(t ++ [c], true), ?_, rfl⟩
            apply List.mem_filter.mpr
            refine ⟨?_, rfl⟩
            apply List.mem_append.mpr
            right
            refine List.mem_map.mpr ⟨ch, hch, ?_⟩
            rw [hname]
            rw [hnd] at hdirnode
            rw [hdirnode]

theorem travLayers_sound (fs : FSNode) (dec : FPath → Bool) (root : FPath)
    (hwf : namesOK fs = true) :
    ∀ (fuel : Nat) (R : List FPath) (cd : Nat) (depth : Option Nat),
    (∀ r ∈ R, root <+: r ∧ isDirFS fs r = true ∧
      r.length = root.length + cd ∧ chainOK fs dec root r) →
    (∀ m, depth = some m → cd ≤ m) →
    ∀ e ∈ travLayers fs dec fuel R cd depth,
      (e.2 = true → dirYieldCond fs dec root e.1 depth) ∧
      (e.2 = false → fileYieldCond fs dec root e.1 depth) := by
  intro fuel
  induction fuel with
  | zero =>
    intro R cd depth hinv hdep e he
    simp [travLayers] at he
  | succ fuel ih =>
    intro R cd depth hinv hdep e he
    cases R with
    | nil => simp [travLayers] at he
    | cons r0 rest =>
      unfold travLayers at he
      dsimp only at he
      have hdirY : ∀ r ∈ (r0 :: rest).filter
          (fun r => FileTagger.possible_has_tag_entry fs r),
          dirYieldCond fs dec root r depth := by
        intro r hr
        obtain ⟨hrR, hrp⟩ := List.mem_filter.mp hr
        obtain ⟨hA, hB, hC, hD⟩ := hinv r hrR
        refine ⟨hA, hB, by simpa using hrp, hD, ?_⟩
        intro m hm
        rw [hC]
        exact Nat.add_le_add_left (hdep m hm) _
      by_cases hd : depth = some cd
      · rw [if_pos hd] at he
        obtain ⟨r, hr, hre⟩ := List.mem_map.mp he
        constructor
        · intro _
          rw [← hre]
          exact hdirY r hr
        · intro hfalse
          rw [← hre] at hfalse
          simp at hfalse
      · rw [if_neg hd] at he
        have hdep' : ∀ m, depth = some m → cd < m := by
          intro m hm
          rcases Nat.lt_or_ge cd m with h | h
          · exact h
          · have h1 := hdep m hm
            have h2 : cd = m := le_antisymm h h1 |>.symm
            exact absurd (by rw [hm, h2]) hd
        have hstep : ∀ t ∈ (r0 :: rest),
            (FileTagger.possible_has_tag_entry fs t = false ∨ dec t = false) →
            ∀ r' ∈ dirChildPaths fs t,
            root <+: r' ∧ isDirFS fs r' = true ∧
              r'.length = root.length + (cd + 1) ∧ chainOK fs dec root r' := by
          intro t htR hstat r' hr'
          unfold dirChildPaths at hr'
          obtain ⟨e', he', hee⟩ := List.mem_map.mp hr'
          obtain ⟨hmem, hflt⟩ := List.mem_filter.mp he'
          have he2 : e'.2 = true := by simpa using hflt
          have hee2 : e' = (r', true) := by
            calc e' = (e'.1, e'.2) := rfl
            _ = (r', true) := by rw [hee, he2]
          rw [hee2] at hmem
          obtain ⟨⟨c, hrc⟩, hkind⟩ := scandir_mem hwf hmem
          obtain ⟨hA, hB, hC, hD⟩ := hinv t htR
          have htr' : t <+: r' := by
            rw [hrc]
            exact List.prefix_append t [c]
          refine ⟨hA.trans htr', isDirFS_of_kind_true hkind, ?_, ?_⟩
          · rw [hrc]
            simp [hC]
            omega
          · intro a haroot hapre hane
            have hlen' : r'.length = t.length + 1 := by
              rw [hrc]
              simp
            have halen : a.length < r'.length :=
              lt_of_le_of_ne hapre.length_le
                (fun hh => hane (List.IsPrefix.eq_of_length hapre hh))
            have hat : a <+: t :=
              List.prefix_of_prefix_length_le hapre htr' (by omega)
            by_cases hat2 : a = t
            · subst hat2
              exact hstat
            · exact hD a haroot hat hat2
        rcases List.mem_append.mp he with heDF | heR
        rcases List.mem_append.mp heDF with heD | heF
        · obtain ⟨r, hr, hre⟩ := List.mem_map.mp heD
          constructor
          · intro _
            rw [← hre]
            exact hdirY r hr
          · intro hfalse
            rw [← hre] at hfalse
            simp at hfalse
        · obtain ⟨t, ht, he2⟩ := List.mem_flatMap.mp heF
          obtain ⟨q, hq, hqe⟩ := List.mem_map.mp he2
          obtain ⟨htR, htp⟩ := List.mem_filter.mp ht
          have htp' : FileTagger.possible_has_tag_entry fs t = true ∧
              dec t = false := by
            simp only [Bool.and_eq_true, Bool.not_eq_true'] at htp
            exact htp
          obtain ⟨hA, hB, hC, hD⟩ := hinv t htR
          have hqmem : (q, false) ∈ scandirFS fs t := by
            unfold fileChildPaths at hq
            obtain ⟨e', he', hee⟩ := List.mem_map.mp hq
            obtain ⟨hmem, hflt⟩ := List.mem_filter.mp he'
            have he2' : e'.2 = false := by simpa using hflt
            have hee2 : e' = (q, false) := by
              calc e' = (e'.1, e'.2) := rfl
              _ = (q, false) := by rw [hee, he2']
            rw [hee2] at hmem
            exact hmem
          obtain ⟨⟨c, hqc⟩, hkind⟩ := scandir_mem hwf hqmem
          have hdrop : q.dropLast = t := by
            rw [hqc]
            exact List.dropLast_concat
          constructor
          · intro htrue
            rw [← hqe] at htrue
            simp at htrue
          · intro _
            rw [← hqe]
            refine ⟨by rw [hdrop]; exact hA, by rw [hdrop]; exact hB,
              by rw [hdrop]; exact htp'.1, by rw [hdrop]; exact hD,
              by rw [hdrop]; exact htp'.2, by rw [hdrop]; exact hq, ?_⟩
            intro m hm
            have hql : q.length = root.length + cd + 1 := by
              rw [hqc]
              simp [hC]
            rw [hql]
            have := hdep' m hm
            omega
        · refine ih _ (cd + 1) depth ?_ ?_ e heR
          · intro r' hr'
            rcases List.mem_append.mp hr' with hn | hp
            · obtain ⟨tneg, htneg, hchild⟩ := List.mem_flatMap.mp hn
              obtain ⟨htR, htp⟩ := List.mem_filter.mp htneg
              have htp' : FileTagger.possible_has_tag_entry fs tneg = false := by
                simpa using htp
              exact hstep tneg htR (Or.inl htp') r' hchild
            · obtain ⟨tpos, htpos, hchild⟩ := List.mem_flatMap.mp hp
              obtain ⟨htR, htp⟩ := List.mem_filter.mp htpos
              have htp' : FileTagger.possible_has_tag_entry fs tpos = true ∧
                  dec tpos = false := by
                simp only [Bool.and_eq_true, Bool.not_eq_true'] at htp
                exact htp
              exact hstep tpos htR (Or.inr htp'.2) r' hchild
          · intro m hm
            exact hdep' m hm

theorem travLayers_complete (fs : FSNode) (dec : FPath → Bool) (root : FPath)
    (hwf : namesOK fs = true) :
    ∀ (n fuel : Nat) (R : List FPath) (cd : Nat) (depth : Option Nat)
      (a p : FPath),
    a ∈ R → a <+: p → p.length - a.length = n → n + 1 ≤ fuel →
    root <+: a → a.length = root.length + cd →
    isDirFS fs p = true → FileTagger.possible_has_tag_entry fs p = true →
    chainOK fs dec root p →
    (∀ m, depth = some m → p.length ≤ root.length + m) →
    (p, true) ∈ travLayers fs dec fuel R cd depth := by
  intro n
  induction n with
  | zero =>
    intro fuel R cd depth a p haR hap hlen hfuel hroota halen hpdir hppr hpch
      hpdep
    have hap' : a = p := by
      have h1 : p.length ≤ a.length := by omega
      exact List.IsPrefix.eq_of_length hap (le_antisymm hap.length_le h1)
    subst hap'
    obtain ⟨fuel', rfl⟩ : ∃ f, fuel = f + 1 := ⟨fuel - 1, by omega⟩
    cases R with
    | nil => simp at haR
    | cons r0 rest =>
      unfold travLayers
      dsimp only
      have hmem : (a, true) ∈ ((r0 :: rest).filter
          (fun r => FileTagger.possible_has_tag_entry fs r)).map
          (fun r => (r, true)) :=
        List.mem_map.mpr ⟨a, List.mem_filter.mpr ⟨haR, by simpa using hppr⟩,
          rfl⟩
      by_cases hd : depth = some cd
      · rw [if_pos hd]
        exact hmem
      · rw [if_neg hd]
        exact List.mem_append.mpr (Or.inl (List.mem_append.mpr (Or.inl hmem)))
  | succ n ih =>
    intro fuel R cd depth a p haR hap hlen hfuel hroota halen hpdir hppr hpch
      hpdep
    have hane : a ≠ p := by
      intro hh
      rw [hh] at hlen
      omega
    have haltp : a.length < p.length :=
      lt_of_le_of_ne hap.length_le
        (fun hh => hane (List.IsPrefix.eq_of_length hap hh))
    obtain ⟨fuel', rfl⟩ : ∃ f, fuel = f + 1 := ⟨fuel - 1, by omega⟩
    cases R with
    | nil => simp at haR
    | cons r0 rest =>
      unfold travLayers
      dsimp only
      have hd : ¬ depth = some cd := by
        intro hh
        have := hpdep cd hh
        omega
      rw [if_neg hd]
      -- the next component of the chain towards p
      have hget : p[a.length]?.toList = [p[a.length]] := by
        simp [List.getElem?_eq_getElem haltp]
      have ha' : a ++ [p[a.length]] <+: p := by
        have h1 : p.take (a.length + 1) <+: p := List.take_prefix _ p
        rw [List.take_succ, hget] at h1
        rw [← List.prefix_iff_eq_take.mp hap] at h1
        exact h1
      have ha'len : (a ++ [p[a.length]]).length = a.length + 1 := by simp
      have ha'dir : isDirFS fs (a ++ [p[a.length]]) = true := by
        by_cases hh : a ++ [p[a.length]] = p
        · rw [hh]
          exact hpdir
        · exact ancestors_isDir hwf _ p ha' hh
            (exists_of_kind_some (kind_true_of_isDirFS hpdir))
      have hchild : (a ++ [p[a.length]]) ∈ dirChildPaths fs a :=
        dirChild_mem hwf a _ (kind_true_of_isDirFS ha'dir)
      have hstat := hpch a hroota hap hane
      have hnext : (a ++ [p[a.length]]) ∈
          ((r0 :: rest).filter
            (fun r => !FileTagger.possible_has_tag_entry fs r)).flatMap
            (dirChildPaths fs) ++
          ((r0 :: rest).filter
            (fun r => FileTagger.possible_has_tag_entry fs r && !dec r)).flatMap
            (dirChildPaths fs) := by
        by_cases hpa : FileTagger.possible_has_tag_entry fs a = true
        · have hdeca : dec a = false := by
            rcases hstat with h1 | h1
            · rw [hpa] at h1
              simp at h1
            · exact h1
          apply List.mem_append.mpr
          right
          exact List.mem_flatMap.mpr ⟨a, List.mem_filter.mpr ⟨haR,
            by simp [hpa, hdeca]⟩, hchild⟩
        · have hpa' : FileTagger.possible_has_tag_entry fs a = false := by
            simpa using hpa
          apply List.mem_append.mpr
          left
          exact List.mem_flatMap.mpr ⟨a, List.mem_filter.mpr ⟨haR,
            by simp [hpa']⟩, hchild⟩
      apply List.mem_append.mpr
      right
      exact ih fuel' _ (cd + 1) depth (a ++ [p[a.length]]) p hnext ha'
        (by simp; omega) (by omega) (hroota.trans (List.prefix_append a _))
        (by simp; omega) hpdir hppr hpch hpdep

/-- C1: in the traversal engine, a directory whose pruning probe
(`_possible_has_tag_entry`) is negative is never yielded as a candidate, its
direct file children are never yielded, and the directory candidates are
exactly characterised by `dirYieldCond`, whose depth condition
`p.length ≤ root.length + m` charges every descent — through positive and
negative directories alike — exactly one unit of the configured maximum
depth: the subdirectories of a negative directory are explored at the same
layer as every other directory of their depth, with no extra unit consumed. -/
theorem c1_negative_probe (fs : FSNode) (dec : FPath → Bool) (root : FPath)
    (depth : Option Nat) (p : FPath) (hwf : namesOK fs = true)
    (hroot : isDirFS fs root = true)
    (hp : FileTagger.possible_has_tag_entry fs p = false) :
    (p, true) ∉ travTrace fs root depth dec ∧
    (∀ c : String, (p ++ [c], false) ∉ travTrace fs root depth dec) ∧
    (∀ q, (q, true) ∈ travTrace fs root depth dec ↔
      dirYieldCond fs dec root q depth) := by
  have heq : travTrace fs root depth dec =
      travLayers fs dec (travFuel fs) [root] 0 depth := by
    unfold travTrace runTagged
    rw [show (traceDriver fs dec).getFs [] = fs from rfl]
    simpa using travTrace_eq_layers fs dec (travFuel fs) [root] 0 depth []
  have hinv : ∀ r ∈ [root], root <+: r ∧ isDirFS fs r = true ∧
      r.length = root.length + 0 ∧ chainOK fs dec root r := by
    intro r hr
    simp at hr
    subst hr
    refine ⟨List.prefix_rfl, hroot, by simp, ?_⟩
    intro a h1 h2 h3
    exact absurd
      (List.IsPrefix.eq_of_length h2 (le_antisymm h2.length_le h1.length_le))
      h3
  have hchar : ∀ q, (q, true) ∈ travLayers fs dec (travFuel fs) [root] 0 depth
      ↔ dirYieldCond fs dec root q depth := by
    intro q
    constructor
    · intro hq
      exact (travLayers_sound fs dec root hwf _ [root] 0 depth hinv
        (fun m _ => Nat.zero_le m) (q, true) hq).1 rfl
    · rintro ⟨h1, h2, h3, h4, h5⟩
      have hql : q.length ≤ heightFS fs := by
        have hk := kind_true_of_isDirFS h2
        unfold kindAt at hk
        cases hl : lookupNode fs q with
        | none =>
          rw [hl] at hk
          simp at hk
        | some nd =>
          have := heightFS_lookup q fs nd hl
          omega
      exact travLayers_complete fs dec root hwf (q.length - root.length) _
        [root] 0 depth root q (by simp) h1 rfl
        (by unfold travFuel; omega) List.prefix_rfl (by simp) h2 h3 h4 h5
  refine ⟨?_, ?_, ?_⟩
  · intro hmem
    rw [heq] at hmem
    obtain ⟨_, _, hpr, _, _⟩ := (travLayers_sound fs dec root hwf _ [root] 0
      depth hinv (fun m _ => Nat.zero_le m) (p, true) hmem).1 rfl
    rw [hp] at hpr
    simp at hpr
  · intro c hmem
    rw [heq] at hmem
    obtain ⟨_, _, hpr, _⟩ := (travLayers_sound fs dec root hwf _ [root] 0
      depth hinv (fun m _ => Nat.zero_le m) (p ++ [c], false) hmem).2 rfl
    rw [List.dropLast_concat] at hpr
    rw [hp] at hpr
    simp at hpr
  · intro q
    rw [heq]
    exact hchar q

/-- Witness for C1 on the test scenario: `tmp0/tmp2` has no sidecar, so it is
never yielded, its files are never yielded, and the dir-candidate trace is
characterised by `dirYieldCond`. -/
theorem c1_witness :
    namesOK scenarioFS = true ∧ isDirFS scenarioFS ["tmp0"] = true ∧
    FileTagger.possible_has_tag_entry scenarioFS ["tmp0", "tmp2"] = false ∧
    ((["tmp0", "tmp2"], true) ∉
        travTrace scenarioFS ["tmp0"] none (fun _ => false) ∧
      (∀ c : String, (["tmp0", "tmp2"] ++ [c], false) ∉
        travTrace scenarioFS ["tmp0"] none (fun _ => false)) ∧
      (∀ q, (q, true) ∈ travTrace scenarioFS ["tmp0"] none (fun _ => false) ↔
        dirYieldCond scenarioFS (fun _ => false) ["tmp0"] q none)) :=
  ⟨by decide, by decide, by decide,
    c1_negative_probe scenarioFS (fun _ => false) ["tmp0"] none
      ["tmp0", "tmp2"] (by decide) (by decide) (by decide)⟩

/-! ## The find consumers as filtered traces -/

theorem filter_map_tag (l : List FPath) (b : Bool) (c : FPath → Bool) :
    ((l.map (fun r => (r, b))).filter (fun e => c e.1)).map Prod.fst =
      l.filter c := by
  induction l with
  | nil => simp
  | cons a rest ih =>
    simp only [List.map_cons, List.filter_cons]
    by_cases hc : c a = true
    · simp [hc, ih]
    · have hc' : c a = false := by simpa using hc
      simp [hc', ih]

theorem filter_map_files (ts : List FPath) (g : FPath → List FPath)
    (c : FPath → Bool) :
    ((ts.flatMap (fun t => (g t).map (fun q => (q, false)))).filter
      (fun e => c e.1)).map Prod.fst =
      ts.flatMap (fun t => (g t).filter c) := by
  induction ts with
  | nil => simp
  | cons a rest ih =>
    simp only [List.flatMap_cons, List.filter_append, List.map_append]
    rw [filter_map_tag (g a) false c, ih]

theorem findA_spec {S : Type} (impl : TaggerImpl S) (tags : List String)
    (stopOn : Bool) (s : S) :
    ∀ (roots : List FPath) (acc : List FPath) (sub tmp : List FPath),
    phaseA (Tagger.findDriver impl tags stopOn) roots (s, acc) sub tmp =
      ((s, acc ++ (roots.filter (fun r => impl.probeH s r)).filter
          (fun r => Tagger.contain_tags impl s r tags)),
       sub ++ (roots.filter (fun r => !impl.probeH s r)).flatMap
          (dirChildPaths (impl.getFs s)),
       tmp ++ roots.filter (fun r => impl.probeH s r &&
          !(stopOn && Tagger.contain_tags impl s r tags))) := by
  intro roots
  induction roots with
  | nil =>
    intro acc sub tmp
    simp [phaseA]
  | cons top rest ih =>
    intro acc sub tmp
    unfold phaseA
    by_cases hp : impl.probeH s top = true
    · simp only [show (Tagger.findDriver impl tags stopOn).probeD (s, acc)
          top = impl.probeH s top from rfl, hp, if_true]
      by_cases hc : Tagger.contain_tags impl s top tags = true
      · simp only [show (Tagger.findDriver impl tags stopOn).onDir (s, acc)
            top = ((s, acc ++ [top]), stopOn) by
              simp [Tagger.findDriver, hc]]
        rw [ih]
        by_cases hs : stopOn = true
        · simp [List.filter_cons, hp, hc, hs]
        · have hs' : stopOn = false := by simpa using hs
          simp [List.filter_cons, hp, hc, hs']
      · have hc' : Tagger.contain_tags impl s top tags = false := by
          simpa using hc
        simp only [show (Tagger.findDriver impl tags stopOn).onDir (s, acc)
            top = ((s, acc), false) by simp [Tagger.findDriver, hc']]
        rw [ih]
        simp [List.filter_cons, hp, hc']
    · have hp' : impl.probeH s top = false := by simpa using hp
      simp only [show (Tagger.findDriver impl tags stopOn).probeD (s, acc)
          top = impl.probeH s top from rfl, hp', Bool.false_eq_true, if_false,
        show (Tagger.findDriver impl tags stopOn).getFs (s, acc) =
          impl.getFs s from rfl]
      rw [ih]
      simp [List.filter_cons, hp']

theorem findBE_spec {S : Type} (impl : TaggerImpl S) (tags : List String)
    (stopOn : Bool) (s : S) :
    ∀ (entries : List (FPath × Bool)) (acc : List FPath) (roots : List FPath),
    phaseBEntries (Tagger.findDriver impl tags stopOn) entries (s, acc)
        roots =
      ((s, acc ++ ((entries.filter (fun e => !e.2)).map (fun e => e.1)).filter
          (fun q => Tagger.contain_tags impl s q tags)),
       roots ++ (entries.filter (fun e => e.2)).map (fun e => e.1)) := by
  intro entries
  induction entries with
  | nil =>
    intro acc roots
    simp [phaseBEntries]
  | cons e rest ih =>
    intro acc roots
    unfold phaseBEntries
    by_cases he : e.2 = true
    · rw [if_pos he, ih]
      simp [List.filter_cons, he]
    · have he' : e.2 = false := by simpa using he
      rw [if_neg he]
      by_cases hc : Tagger.contain_tags impl s e.1 tags = true
      · simp only [show (Tagger.findDriver impl tags stopOn).onFile (s, acc)
            e.1 = (s, acc ++ [e.1]) by simp [Tagger.findDriver, hc]]
        rw [ih]
        simp [List.filter_cons, he', hc]
      · have hc' : Tagger.contain_tags impl s e.1 tags = false := by
          simpa using hc
        simp only [show (Tagger.findDriver impl tags stopOn).onFile (s, acc)
            e.1 = (s, acc) by simp [Tagger.findDriver, hc']]
        rw [ih]
        simp [List.filter_cons, he', hc']

theorem findB_spec {S : Type} (impl : TaggerImpl S) (tags : List String)
    (stopOn : Bool) (s : S) :
    ∀ (tmps : List FPath) (acc : List FPath) (roots : List FPath),
    phaseB (Tagger.findDriver impl tags stopOn) tmps (s, acc) roots =
      ((s, acc ++ tmps.flatMap (fun t =>
          (fileChildPaths (impl.getFs s) t).filter
            (fun q => Tagger.contain_tags impl s q tags))),
       roots ++ tmps.flatMap (dirChildPaths (impl.getFs s))) := by
  intro tmps
  induction tmps with
  | nil =>
    intro acc roots
    simp [phaseB]
  | cons top rest ih =>
    intro acc roots
    unfold phaseB
    simp only [show (Tagger.findDriver impl tags stopOn).getFs (s, acc) =
      impl.getFs s from rfl]
    rw [findBE_spec impl tags stopOn s (scandirFS (impl.getFs s) top) acc
      roots]
    dsimp only
    rw [ih]
    unfold fileChildPaths dirChildPaths
    simp [List.map_map, Function.comp]

theorem findRun_spec {S : Type} (impl : TaggerImpl S) (tags : List String)
    (stopOn : Bool) (s : S)
    (hprobe : ∀ q, impl.probeH s q =
      FileTagger.possible_has_tag_entry (impl.getFs s) q) :
    ∀ (fuel : Nat) (R : List FPath) (cd : Nat) (depth : Option Nat)
      (acc : List FPath),
    (runLayers (Tagger.findDriver impl tags stopOn) fuel (s, acc) R [] cd
        depth).2 =
      acc ++ ((travLayers (impl.getFs s)
          (fun q => stopOn && Tagger.contain_tags impl s q tags) fuel R cd
          depth).filter
        (fun e => Tagger.contain_tags impl s e.1 tags)).map Prod.fst := by
  have hfun1 : (fun r => impl.probeH s r) =
      (fun r => FileTagger.possible_has_tag_entry (impl.getFs s) r) :=
    funext hprobe
  have hfun2 : (fun r => !impl.probeH s r) =
      (fun r => !FileTagger.possible_has_tag_entry (impl.getFs s) r) := by
    funext r
    rw [hprobe r]
  have hfun3 : (fun r => impl.probeH s r &&
        !(stopOn && Tagger.contain_tags impl s r tags)) =
      (fun r => FileTagger.possible_has_tag_entry (impl.getFs s) r &&
        !(stopOn && Tagger.contain_tags impl s r tags)) := by
    funext r
    rw [hprobe r]
  intro fuel
  induction fuel with
  | zero =>
    intro R cd depth acc
    simp [runLayers, travLayers]
  | succ fuel ih =>
    intro R cd depth acc
    cases R with
    | nil => simp [runLayers, travLayers]
    | cons r0 rest =>
      unfold runLayers travLayers
      rw [findA_spec impl tags stopOn s (r0 :: rest) acc [] []]
      dsimp only
      rw [hfun1, hfun2, hfun3]
      by_cases hd : depth = some cd
      · rw [if_pos hd, if_pos hd]
        rw [filter_map_tag ((r0 :: rest).filter
            (fun r => FileTagger.possible_has_tag_entry (impl.getFs s) r))
          true (fun q => Tagger.contain_tags impl s q tags)]
      · rw [if_neg hd, if_neg hd]
        rw [findB_spec impl tags stopOn s]
        dsimp only
        rw [ih]
        rw [List.filter_append, List.filter_append, List.map_append,
          List.map_append]
        rw [filter_map_tag ((r0 :: rest).filter
            (fun r => FileTagger.possible_has_tag_entry (impl.getFs s) r))
          true (fun q => Tagger.contain_tags impl s q tags)]
        rw [filter_map_files ((r0 :: rest).filter
            (fun r => FileTagger.possible_has_tag_entry (impl.getFs s) r &&
              !(stopOn && Tagger.contain_tags impl s r tags)))
          (fileChildPaths (impl.getFs s))
          (fun q => Tagger.contain_tags impl s q tags)]
        simp [List.append_assoc]

/-- C3: with `top_only = True`, no two results of `find_tags` stand in a
proper ancestor/descendant relation: a matching candidate answers the
generator with `stop = True`, so nothing below it is ever yielded. -/
theorem c3_top_only_no_ancestor (fs : FSNode) (p : FPath)
    (tags : List String) (depth : Option Nat) (hwf : namesOK fs = true)
    (x y : FPath)
    (hx : x ∈ Tagger.find_tags fileImpl fs p tags true depth)
    (hy : y ∈ Tagger.find_tags fileImpl fs p tags true depth)
    (hxy : x <+: y) : x = y := by
  unfold Tagger.find_tags at hx hy
  by_cases he : existsFS (fileImpl.getFs fs) p = true
  · rw [if_neg (not_not_intro he)] at hx hy
    by_cases hdir : isDirFS (fileImpl.getFs fs) p = true
    · rw [if_neg (not_not_intro hdir)] at hx hy
      rw [if_pos rfl] at hx hy
      unfold Tagger.find_tags_top_only runTagged at hx hy
      rw [findRun_spec fileImpl tags true fs (fun q => rfl)] at hx hy
      simp only [List.nil_append] at hx hy
      obtain ⟨ex, hex, hex1⟩ := List.mem_map.mp hx
      obtain ⟨hexm, hexc⟩ := List.mem_filter.mp hex
      obtain ⟨ey, hey, hey1⟩ := List.mem_map.mp hy
      obtain ⟨heym, heyc⟩ := List.mem_filter.mp hey
      by_cases hxyeq : x = y
      · exact hxyeq
      exfalso
      have hxl : x.length < y.length :=
        lt_of_le_of_ne hxy.length_le
          (fun hh => hxyeq (List.IsPrefix.eq_of_length hxy hh))
      have hinv : ∀ r ∈ [p], p <+: r ∧
          isDirFS (fileImpl.getFs fs) r = true ∧
          r.length = p.length + 0 ∧
          chainOK (fileImpl.getFs fs)
            (fun q => true && Tagger.contain_tags fileImpl fs q tags) p r := by
        intro r hr
        simp at hr
        subst hr
        refine ⟨List.prefix_rfl, hdir, by simp, ?_⟩
        intro a h1 h2 h3
        exact absurd (List.IsPrefix.eq_of_length h2
          (le_antisymm h2.length_le h1.length_le)) h3
      obtain ⟨hxd, hxf⟩ := travLayers_sound (fileImpl.getFs fs)
        (fun q => true && Tagger.contain_tags fileImpl fs q tags) p hwf _
        [p] 0 depth hinv (fun m _ => Nat.zero_le m) ex hexm
      obtain ⟨hyd, hyf⟩ := travLayers_sound (fileImpl.getFs fs)
        (fun q => true && Tagger.contain_tags fileImpl fs q tags) p hwf _
        [p] 0 depth hinv (fun m _ => Nat.zero_le m) ey heym
      rw [hex1] at hxd hxf
      rw [hey1] at hyd hyf
      have hcx : Tagger.contain_tags fileImpl fs x tags = true := by
        rw [← hex1]
        simpa using hexc
      have hrootx : p <+: x := by
        cases hex2 : ex.2 with
        | true => exact (hxd hex2).1
        | false => exact (hxf hex2).1.trans (List.dropLast_prefix x)
      have hxcontra :
          FileTagger.possible_has_tag_entry (fileImpl.getFs fs) x = false →
          isDirFS (fileImpl.getFs fs) x = true → False := by
        intro hpx hdxir
        cases hex2 : ex.2 with
        | true =>
          obtain ⟨_, _, hpr, _, _⟩ := hxd hex2
          rw [hpx] at hpr
          simp at hpr
        | false =>
          obtain ⟨_, _, _, _, _, hchf, _⟩ := hxf hex2
          unfold fileChildPaths at hchf
          obtain ⟨e', he', hee⟩ := List.mem_map.mp hchf
          obtain ⟨hmem, hflt⟩ := List.mem_filter.mp he'
          have he2' : e'.2 = false := by simpa using hflt
          have hee2 : e' = (x, false) := by
            calc e' = (e'.1, e'.2) := rfl
            _ = (x, false) := by rw [hee, he2']
          rw [hee2] at hmem
          obtain ⟨_, hkind⟩ := scandir_mem hwf hmem
          have hk2 : kindAt fs x = some true := kind_true_of_isDirFS hdxir
          rw [hk2] at hkind
          simp at hkind
      cases hey2 : ey.2 with
      | true =>
        obtain ⟨hy1, hy2, hy3, hy4, hy5⟩ := hyd hey2
        rcases hy4 x hrootx hxy hxyeq with hpx | hdx
        · exact hxcontra hpx (ancestors_isDir hwf x y hxy hxyeq
            (exists_of_kind_some (kind_true_of_isDirFS hy2)))
        · simp [hcx] at hdx
      | false =>
        obtain ⟨hy1, hy2, hy3, hy4, hy5, hy6, hy7⟩ := hyf hey2
        by_cases hxt : x = y.dropLast
        · rw [← hxt] at hy5
          simp [hcx] at hy5
        · have hty : y.dropLast <+: y := List.dropLast_prefix y
          have hdl : y.dropLast.length = y.length - 1 := by
            simp [List.length_dropLast]
          have hxt2 : x <+: y.dropLast :=
            List.prefix_of_prefix_length_le hxy hty (by omega)
          rcases hy4 x hrootx hxt2 hxt with hpx | hdx
          · exact hxcontra hpx (ancestors_isDir hwf x y.dropLast hxt2 hxt
              (exists_of_kind_some (kind_true_of_isDirFS hy2)))
          · simp [hcx] at hdx
    · rw [if_pos hdir] at hx hy
      by_cases hall : (tags.all
          (fun t => (Tagger.get_tags fileImpl fs p).contains t)) = true
      · rw [if_pos hall] at hx hy
        simp at hx hy
        rw [hx, hy]
      · rw [if_neg hall] at hx hy
        simp at hx
  · rw [if_pos he] at hx
    simp at hx

/-- Witness for C3 on the test scenario: both results of the top-only find
are related only reflexively. -/
theorem c3_witness :
    namesOK scenarioFS = true ∧
    ["tmp0", "tmpf"] ∈
      Tagger.find_tags fileImpl scenarioFS ["tmp0"] ["test1"] true none ∧
    (["tmp0", "tmpf"] : FPath) <+: ["tmp0", "tmpf"] ∧
    (["tmp0", "tmpf"] : FPath) = ["tmp0", "tmpf"] :=
  ⟨by decide, by decide, by decide,
    c3_top_only_no_ancestor scenarioFS ["tmp0"] ["test1"] none (by decide)
      ["tmp0", "tmpf"] ["tmp0", "tmpf"] (by decide) (by decide) (by decide)⟩

/-! ## The recursive top-only clear (claim C4) -/

theorem clearA_spec : ∀ (roots : List FPath) (g : FSNode) (sub : List FPath),
    phaseA (Tagger.clearDriver fileImpl true) roots g sub [] =
      ((clearTopPhase g roots).1, sub ++ (clearTopPhase g roots).2, []) := by
  intro roots
  induction roots with
  | nil =>
    intro g sub
    simp [phaseA, clearTopPhase]
  | cons top rest ih =>
    intro g sub
    unfold phaseA clearTopPhase
    by_cases hp : FileTagger.possible_has_tag_entry g top = true
    · simp only [show (Tagger.clearDriver fileImpl true).probeD g top =
          FileTagger.possible_has_tag_entry g top from rfl, hp, if_true,
        show (Tagger.clearDriver fileImpl true).onDir g top =
          ((FileTagger.write_tags g top []).1, true) from rfl]
      exact ih (FileTagger.write_tags g top []).1 sub
    · have hp' : FileTagger.possible_has_tag_entry g top = false := by
        simpa using hp
      simp only [show (Tagger.clearDriver fileImpl true).probeD g top =
          FileTagger.possible_has_tag_entry g top from rfl, hp',
        Bool.false_eq_true, if_false,
        show (Tagger.clearDriver fileImpl true).getFs g = g from rfl]
      rw [ih g (sub ++ dirChildPaths g top)]
      simp [List.append_assoc]

theorem clearRun_spec : ∀ (fuel : Nat) (g : FSNode) (R : List FPath)
    (cd : Nat),
    runLayers (Tagger.clearDriver fileImpl true) fuel g R [] cd none =
      clearTopRun fuel g R := by
  intro fuel
  induction fuel with
  | zero =>
    intro g R cd
    simp [runLayers, clearTopRun]
  | succ fuel ih =>
    intro g R cd
    cases R with
    | nil => simp [runLayers, clearTopRun]
    | cons r0 rest =>
      unfold runLayers clearTopRun
      rw [clearA_spec (r0 :: rest) g []]
      dsimp only
      rw [if_neg (by simp)]
      rw [show ∀ (s : FSNode) (roots : List FPath),
        phaseB (Tagger.clearDriver fileImpl true) [] s roots = (s, roots)
        from fun s roots => rfl]
      exact ih _ _ (cd + 1)

theorem tag_dir_of_dir {g : FSNode} {d : FPath}
    (hd : isDirFS g d = true) : FileTagger.tag_dir_of g d = d := by
  unfold FileTagger.tag_dir_of
  simp only [isFileFS_eq_kind, kind_true_of_isDirFS hd]
  simp

theorem isDir_not_tagpath {fs : FSNode} (hwf : namesOK fs = true)
    {r : FPath} (hr : isDirFS fs r = true) (d : FPath) :
    r ≠ d ++ [".tag"] := by
  intro heq
  rw [heq] at hr
  unfold isDirFS at hr
  rw [lookupNode_append d fs hwf [".tag"]] at hr
  cases hl : lookupNode fs d with
  | none =>
    rw [hl] at hr
    simp at hr
  | some nd =>
    rw [hl] at hr
    cases nd with
    | file n => simp [lookupNode] at hr
    | dir n m cs =>
      have hnd : namesOK (.dir n m cs) = true := namesOK_lookup d fs _ hwf hl
      simp only [Option.some_bind, lookupNode_dir_cons] at hr
      by_cases hm : m.isSome = true
      · simp [hm] at hr
      · have hm' : m.isSome = false := by simpa using hm
        rw [namesOK_no_tag_child hnd] at hr
        simp [hm'] at hr

theorem dirMeta_tagpath {g : FSNode} (hw : namesOK g = true) (e : FPath) :
    dirMeta g (e ++ [".tag"]) = none := by
  unfold dirMeta
  rw [lookupNode_append e g hw [".tag"]]
  cases hl : lookupNode g e with
  | none => rfl
  | some nd =>
    cases nd with
    | file n => simp [lookupNode]
    | dir n m cs =>
      have hnd : namesOK (.dir n m cs) = true := namesOK_lookup e g _ hw hl
      simp only [Option.some_bind, lookupNode_dir_cons]
      by_cases hm : m.isSome = true
      · simp [hm]
      · have hm' : m.isSome = false := by simpa using hm
        rw [namesOK_no_tag_child hnd]
        simp [hm']

theorem clear_own_meta {g : FSNode} {d : FPath} (hd : isDirFS g d = true) :
    dirMeta (FileTagger.write_tags g d []).1 d = clearedMeta g d := by
  rw [write_tags_eq_erase]
  have htd : FileTagger.tag_dir_of g d = d := tag_dir_of_dir hd
  have hread : FileTagger.read_tag_meta g d = (dirMeta g d).getD [] := by
    unfold FileTagger.read_tag_meta
    rw [htd]
  unfold clearedMeta
  by_cases hme : (metaErase ((dirMeta g d).getD []) d).isEmpty = true
  · rw [if_pos hme]
    by_cases hs : (dirMeta g (FileTagger.tag_dir_of g d)).isSome = true
    · rw [write_tag_meta_eq_del g d _ (by rw [hread]; exact hme) hs]
      rw [htd]
      exact dirMeta_setMetaNode_self none d g hd
    · rw [write_tag_meta_eq_keep g d _ (by rw [hread]; exact hme) hs]
      rw [htd] at hs
      exact Option.not_isSome_iff_eq_none.mp hs
  · rw [if_neg hme]
    rw [write_tag_meta_eq_set g d _ (by rw [hread]; exact hme)
      (by rw [htd]; exact hd)]
    rw [htd, hread]
    exact dirMeta_setMetaNode_self _ d g hd

theorem namesNodup_nodup : ∀ (l : List String),
    namesNodup l = true → l.Nodup := by
  intro l
  induction l with
  | nil => intro _; exact List.nodup_nil
  | cons a rest ih =>
    intro h
    rw [namesNodup] at h
    simp only [Bool.and_eq_true] at h
    refine List.nodup_cons.mpr ⟨?_, ih h.2⟩
    have := h.1
    simpa using this

theorem filter_snd_map_fst (cs : List FSNode) (t : FPath) :
    ((cs.map (fun c => (t ++ [c.name], c.isDirNode))).filter
      (fun e => e.2)).map (fun e => e.1) =
    (cs.filter (fun c => c.isDirNode)).map (fun c => t ++ [c.name]) := by
  induction cs with
  | nil => rfl
  | cons a rest ih =>
    simp only [List.map_cons, List.filter_cons]
    by_cases hd : a.isDirNode = true
    · simp [hd, ih]
    · have hd' : a.isDirNode = false := by simpa using hd
      simp [hd', ih]

theorem dirChildPaths_nodup {fs : FSNode} (hwf : namesOK fs = true)
    (t : FPath) : (dirChildPaths fs t).Nodup := by
  unfold dirChildPaths scandirFS
  cases hl : lookupNode fs t with
  | none => simp
  | some nd =>
    cases nd with
    | file n => simp
    | dir n m cs =>
      have hnd := namesOK_lookup t fs _ hwf hl
      rw [namesOK] at hnd
      simp only [Bool.and_eq_true] at hnd
      have hnames : (cs.map FSNode.name).Nodup := namesNodup_nodup _ hnd.1.1
      rw [List.filter_append]
      have hps : ((if m.isSome then [(t ++ [".tag"], false)] else []).filter
          (fun e => e.2)) = [] := by
        by_cases hm : m.isSome = true <;> simp [hm]
      rw [hps, List.nil_append, filter_snd_map_fst]
      have hsub : ((cs.filter (fun c => c.isDirNode)).map FSNode.name).Nodup :=
        List.Nodup.sublist
          (List.Sublist.map FSNode.name (List.filter_sublist cs)) hnames
      have : (cs.filter (fun c => c.isDirNode)).map
          (fun c => t ++ [c.name]) =
          ((cs.filter (fun c => c.isDirNode)).map FSNode.name).map
            (fun nm => t ++ [nm]) := by
        rw [List.map_map]
        rfl
      rw [this]
      refine List.Nodup.map ?_ hsub
      intro a b h
      have := List.append_cancel_left h
      simpa using this

theorem dirChildPaths_mem {fs : FSNode} (hwf : namesOK fs = true)
    {t s : FPath} (hs : s ∈ dirChildPaths fs t) :
    (∃ c, s = t ++ [c]) ∧ kindAt fs s = some true := by
  unfold dirChildPaths at hs
  obtain ⟨e', he', hee⟩ := List.mem_map.mp hs
  obtain ⟨hmem, hflt⟩ := List.mem_filter.mp he'
  have he2 : e'.2 = true := by simpa using hflt
  have hee2 : e' = (s, true) := by
    calc e' = (e'.1, e'.2) := rfl
    _ = (s, true) := by rw [hee, he2]
  rw [hee2] at hmem
  exact scandir_mem hwf hmem

theorem clearTopPhase_char (fs0 : FSNode) (hwf0 : namesOK fs0 = true) :
    ∀ (R : List FPath) (g : FSNode),
    namesOK g = true →
    (∀ r ∈ R, isDirFS g r = true ∧ isDirFS fs0 r = true) →
    (∀ r ∈ R, dirMeta g r = dirMeta fs0 r) →
    (∀ r ∈ R, dirChildPaths g r = dirChildPaths fs0 r) →
    R.Nodup →
    namesOK (clearTopPhase g R).1 = true ∧
    (∀ q, (∀ e : FPath, q ≠ e ++ [".tag"]) →
      kindAt (clearTopPhase g R).1 q = kindAt g q) ∧
    (∀ q, (∀ e : FPath, q ≠ e ++ [".tag"]) →
      dirChildPaths (clearTopPhase g R).1 q = dirChildPaths g q) ∧
    (∀ d, (∀ e : FPath, d ≠ e ++ [".tag"]) → d ∉ R →
      dirMeta (clearTopPhase g R).1 d = dirMeta g d) ∧
    (∀ d ∈ R, FileTagger.possible_has_tag_entry fs0 d = false →
      dirMeta (clearTopPhase g R).1 d = dirMeta g d) ∧
    (∀ d ∈ R, FileTagger.possible_has_tag_entry fs0 d = true →
      dirMeta (clearTopPhase g R).1 d = clearedMeta fs0 d) ∧
    (clearTopPhase g R).2 =
      (R.filter (fun r => !FileTagger.possible_has_tag_entry fs0 r)).flatMap
        (dirChildPaths fs0) := by
  intro R
  induction R with
  | nil =>
    intro g HW HKD HMQ HCQ HN
    refine ⟨HW, fun q _ => rfl, fun q _ => rfl, fun d _ _ => rfl,
      fun d hd => absurd hd (by simp), fun d hd => absurd hd (by simp), rfl⟩
  | cons top rest ih =>
    intro g HW HKD HMQ HCQ HN
    obtain ⟨htopg, htop0⟩ := HKD top (by simp)
    have htopmeta : dirMeta g top = dirMeta fs0 top := HMQ top (by simp)
    have hnotag : ∀ e : FPath, top ≠ e ++ [".tag"] :=
      fun e => isDir_not_tagpath hwf0 htop0 e
    have htopnotin : top ∉ rest := (List.nodup_cons.mp HN).1
    have hrestN : rest.Nodup := (List.nodup_cons.mp HN).2
    have hprobe_eq : FileTagger.possible_has_tag_entry g top =
        FileTagger.possible_has_tag_entry fs0 top := by
      unfold FileTagger.possible_has_tag_entry
      rw [tag_dir_of_dir htopg, tag_dir_of_dir htop0, htopmeta]
    unfold clearTopPhase
    by_cases hp : FileTagger.possible_has_tag_entry fs0 top = true
    · rw [if_pos (by rw [hprobe_eq]; exact hp)]
      dsimp only
      have htd : FileTagger.tag_dir_of g top = top := tag_dir_of_dir htopg
      have Wnames : namesOK (FileTagger.write_tags g top []).1 = true := by
        rw [write_tags_namesOK]
        exact HW
      have Wkind : ∀ q, (∀ e : FPath, q ≠ e ++ [".tag"]) →
          kindAt (FileTagger.write_tags g top []).1 q = kindAt g q := by
        intro q hq
        exact write_tags_kindAt g top [] q (by rw [htd]; exact hq top)
      have Wmeta : ∀ q, q ≠ top → (∀ e : FPath, q ≠ e ++ [".tag"]) →
          dirMeta (FileTagger.write_tags g top []).1 q = dirMeta g q := by
        intro q hq1 hq2
        exact write_tags_dirMeta_other g top [] q (by rw [htd]; exact hq1)
          (by rw [htd]; exact hq2 top)
      have Wchild : ∀ q, (∀ e : FPath, q ≠ e ++ [".tag"]) →
          dirChildPaths (FileTagger.write_tags g top []).1 q =
            dirChildPaths g q := by
        intro q hq
        exact write_tags_dirChildPaths g top [] q (by rw [htd]; exact hq top)
      have Wown : dirMeta (FileTagger.write_tags g top []).1 top =
          clearedMeta fs0 top := by
        rw [clear_own_meta htopg]
        unfold clearedMeta
        rw [htopmeta]
      obtain ⟨I1, I2, I3, I4, I5, I6, I7⟩ := ih (FileTagger.write_tags g top
          []).1 Wnames
        (fun r hr => ⟨by
            rw [isDirFS_eq_kind, Wkind r
              (fun e => isDir_not_tagpath hwf0 (HKD r (by simp [hr])).2 e),
              ← isDirFS_eq_kind]
            exact (HKD r (by simp [hr])).1,
          (HKD r (by simp [hr])).2⟩)
        (fun r hr => by
          rw [Wmeta r (fun hh => htopnotin (hh ▸ hr))
            (fun e => isDir_not_tagpath hwf0 (HKD r (by simp [hr])).2 e)]
          exact HMQ r (by simp [hr]))
        (fun r hr => by
          rw [Wchild r
            (fun e => isDir_not_tagpath hwf0 (HKD r (by simp [hr])).2 e)]
          exact HCQ r (by simp [hr]))
        hrestN
      refine ⟨I1, ?_, ?_, ?_, ?_, ?_, ?_⟩
      · intro q hq
        rw [I2 q hq]
        exact Wkind q hq
      · intro q hq
        rw [I3 q hq]
        exact Wchild q hq
      · intro d hd1 hd2
        have hd2' : d ≠ top ∧ d ∉ rest := by
          constructor
          · intro hh
            exact hd2 (by simp [hh])
          · intro hh
            exact hd2 (by simp [hh])
        rw [I4 d hd1 hd2'.2]
        exact Wmeta d hd2'.1 hd1
      · intro d hd hdp
        rcases List.mem_cons.mp hd with rfl | hd'
        · rw [hdp] at hp
          simp at hp
        · rw [I5 d hd' hdp]
          exact Wmeta d (fun hh => htopnotin (hh ▸ hd'))
            (fun e => isDir_not_tagpath hwf0 (HKD d (by simp [hd'])).2 e)
      · intro d hd hdp
        rcases List.mem_cons.mp hd with rfl | hd'
        · rw [I4 d hnotag htopnotin]
          exact Wown
        · exact I6 d hd' hdp
      · rw [I7]
        simp [List.filter_cons, hp]
    · have hp' : FileTagger.possible_has_tag_entry fs0 top = false := by
        simpa using hp
      rw [if_neg (by rw [hprobe_eq, hp']; simp)]
      dsimp only
      obtain ⟨I1, I2, I3, I4, I5, I6, I7⟩ := ih g HW
        (fun r hr => HKD r (by simp [hr]))
        (fun r hr => HMQ r (by simp [hr]))
        (fun r hr => HCQ r (by simp [hr]))
        hrestN
      refine ⟨I1, I2, I3, ?_, ?_, ?_, ?_⟩
      · intro d hd1 hd2
        exact I4 d hd1 (fun hh => hd2 (by simp [hh]))
      · intro d hd hdp
        rcases List.mem_cons.mp hd with rfl | hd'
        · exact I4 d hnotag htopnotin
        · exact I5 d hd' hdp
      · intro d hd hdp
        rcases List.mem_cons.mp hd with rfl | hd'
        · rw [hdp] at hp'
          simp at hp'
        · exact I6 d hd' hdp
      · rw [I7]
        rw [HCQ top (by simp)]
        simp [List.filter_cons, hp']

theorem flatMap_children_nodup {fs0 : FSNode} (hwf0 : namesOK fs0 = true) :
    ∀ (L : List FPath), L.Nodup → (L.flatMap (dirChildPaths fs0)).Nodup := by
  intro L
  induction L with
  | nil =>
    intro _
    simp
  | cons a L' ih =>
    intro hN
    rw [List.flatMap_cons]
    refine List.Nodup.append (dirChildPaths_nodup hwf0 a)
      (ih (List.nodup_cons.mp hN).2) ?_
    intro x hxa hxL
    obtain ⟨b, hb, hxb⟩ := List.mem_flatMap.mp hxL
    obtain ⟨⟨c1, hc1⟩, -⟩ := dirChildPaths_mem hwf0 hxa
    obtain ⟨⟨c2, hc2⟩, -⟩ := dirChildPaths_mem hwf0 hxb
    have hab : a = b := by
      have h1 : x.dropLast = a := by
        rw [hc1]
        exact List.dropLast_concat
      have h2 : x.dropLast = b := by
        rw [hc2]
        exact List.dropLast_concat
      rw [← h1, h2]
    exact (List.nodup_cons.mp hN).1 (hab ▸ hb)

theorem step_toward {fs0 : FSNode} (hwf0 : namesOK fs0 = true) {r d : FPath}
    (hrd : r <+: d) (hne : r ≠ d) (hddir : isDirFS fs0 d = true) :
    ∃ s, s ∈ dirChildPaths fs0 r ∧ s <+: d ∧ s.length = r.length + 1 := by
  have hlt : r.length < d.length :=
    lt_of_le_of_ne hrd.length_le
      (fun hh => hne (List.IsPrefix.eq_of_length hrd hh))
  have hget : d[r.length]?.toList = [d[r.length]] := by
    simp [List.getElem?_eq_getElem hlt]
  have hs' : r ++ [d[r.length]] <+: d := by
    have h1 : d.take (r.length + 1) <+: d := List.take_prefix _ d
    rw [List.take_succ, hget] at h1
    rw [← List.prefix_iff_eq_take.mp hrd] at h1
    exact h1
  have hsdir : isDirFS fs0 (r ++ [d[r.length]]) = true := by
    by_cases hh : r ++ [d[r.length]] = d
    · rw [hh]
      exact hddir
    · exact ancestors_isDir hwf0 _ d hs' hh
        (exists_of_kind_some (kind_true_of_isDirFS hddir))
  exact ⟨r ++ [d[r.length]],
    dirChild_mem hwf0 r _ (kind_true_of_isDirFS hsdir), hs', by simp⟩

theorem clearTopRun_char (fs0 : FSNode) (root : FPath)
    (hwf0 : namesOK fs0 = true) :
    ∀ (fuel : Nat) (g : FSNode) (R : List FPath) (cd : Nat),
    namesOK g = true →
    (∀ q, (∀ e : FPath, q ≠ e ++ [".tag"]) → kindAt g q = kindAt fs0 q) →
    (∀ q, (∀ e : FPath, q ≠ e ++ [".tag"]) →
      dirChildPaths g q = dirChildPaths fs0 q) →
    (∀ r ∈ R, root <+: r ∧ isDirFS fs0 r = true ∧
      r.length = root.length + cd ∧
      (∀ a, root <+: a → a <+: r → a ≠ r →
        FileTagger.possible_has_tag_entry fs0 a = false)) →
    R.Nodup →
    heightFS fs0 + 1 ≤ fuel + cd →
    (∀ d, firstPositive fs0 root d → (∃ r ∈ R, r <+: d) →
      dirMeta g d = dirMeta fs0 d) →
    (∀ d, firstPositive fs0 root d → (¬ ∃ r ∈ R, r <+: d) →
      dirMeta g d = clearedMeta fs0 d) →
    (∀ d, ¬ firstPositive fs0 root d → dirMeta g d = dirMeta fs0 d) →
    (∀ q, (∀ e : FPath, q ≠ e ++ [".tag"]) →
      kindAt (clearTopRun fuel g R) q = kindAt fs0 q) ∧
    (∀ d, firstPositive fs0 root d →
      dirMeta (clearTopRun fuel g R) d = clearedMeta fs0 d) ∧
    (∀ d, ¬ firstPositive fs0 root d →
      dirMeta (clearTopRun fuel g R) d = dirMeta fs0 d) := by
  intro fuel
  induction fuel with
  | zero =>
    intro g R cd HW HK HC HR HN HF H4 H5 H6
    have hRnil : R = [] := by
      cases R with
      | nil => rfl
      | cons r0 rest =>
        obtain ⟨-, hdir, hlen, -⟩ := HR r0 (by simp)
        have hk := kind_true_of_isDirFS hdir
        unfold kindAt at hk
        cases hl : lookupNode fs0 r0 with
        | none =>
          rw [hl] at hk
          simp at hk
        | some nd =>
          have := heightFS_lookup r0 fs0 nd hl
          omega
    subst hRnil
    refine ⟨fun q hq => HK q hq, ?_, fun d hd => H6 d hd⟩
    intro d hd
    exact H5 d hd (by simp)
  | succ fuel ih =>
    intro g R cd HW HK HC HR HN HF H4 H5 H6
    cases R with
    | nil =>
      refine ⟨fun q hq => HK q hq, ?_, fun d hd => H6 d hd⟩
      intro d hd
      exact H5 d hd (by simp)
    | cons r0 rest =>
      have hfp_of_queue : ∀ r ∈ (r0 :: rest),
          FileTagger.possible_has_tag_entry fs0 r = true →
          firstPositive fs0 root r := by
        intro r hr hp
        obtain ⟨h1, h2, h3, h4⟩ := HR r hr
        exact ⟨h1, h2, hp, h4⟩
      have hmetaq : ∀ r ∈ (r0 :: rest), dirMeta g r = dirMeta fs0 r := by
        intro r hr
        by_cases hp : FileTagger.possible_has_tag_entry fs0 r = true
        · exact H4 r (hfp_of_queue r hr hp) ⟨r, hr, List.prefix_rfl⟩
        · refine H6 r ?_
          intro hfp
          exact hp hfp.2.2.1
      obtain ⟨P1, P2, P3, P4, P5, P6, P7⟩ := clearTopPhase_char fs0 hwf0
        (r0 :: rest) g HW
        (fun r hr => ⟨by
            rw [isDirFS_eq_kind, HK r
              (fun e => isDir_not_tagpath hwf0 (HR r hr).2.1 e),
              ← isDirFS_eq_kind]
            exact (HR r hr).2.1,
          (HR r hr).2.1⟩)
        hmetaq
        (fun r hr => HC r
          (fun e => isDir_not_tagpath hwf0 (HR r hr).2.1 e))
        HN
      unfold clearTopRun
      dsimp only
      rw [P7]
      refine ih (clearTopPhase g (r0 :: rest)).1 _ (cd + 1) P1 ?_ ?_ ?_ ?_
        (by omega) ?_ ?_ ?_
      · intro q hq
        rw [P2 q hq]
        exact HK q hq
      · intro q hq
        rw [P3 q hq]
        exact HC q hq
      · intro s hs
        obtain ⟨r, hrF, hsr⟩ := List.mem_flatMap.mp hs
        obtain ⟨hrR, hrneg⟩ := List.mem_filter.mp hrF
        have hrneg' : FileTagger.possible_has_tag_entry fs0 r = false := by
          simpa using hrneg
        obtain ⟨h1, h2, h3, h4⟩ := HR r hrR
        obtain ⟨⟨c, hsc⟩, hskind⟩ := dirChildPaths_mem hwf0 hsr
        have hrs : r <+: s := by
          rw [hsc]
          exact List.prefix_append r [c]
        refine ⟨h1.trans hrs, isDirFS_of_kind_true hskind, ?_, ?_⟩
        · rw [hsc]
          simp [h3]
          omega
        · intro a haroot has hane
          have hslen : s.length = r.length + 1 := by
            rw [hsc]
            simp
          have halen : a.length < s.length :=
            lt_of_le_of_ne has.length_le
              (fun hh => hane (List.IsPrefix.eq_of_length has hh))
          have har : a <+: r :=
            List.prefix_of_prefix_length_le has hrs (by omega)
          by_cases hareq : a = r
          · rw [hareq]
            exact hrneg'
          · exact h4 a haroot har hareq
      · exact flatMap_children_nodup hwf0 _
          (List.Nodup.filter _ HN)
      · intro d hfp ⟨s, hsS, hsd⟩
        obtain ⟨r, hrF, hsr⟩ := List.mem_flatMap.mp hsS
        obtain ⟨hrR, -⟩ := List.mem_filter.mp hrF
        obtain ⟨⟨c, hsc⟩, -⟩ := dirChildPaths_mem hwf0 hsr
        have hrs : r <+: s := by
          rw [hsc]
          exact List.prefix_append r [c]
        have hdnotR : d ∉ (r0 :: rest) := by
          intro hdR
          obtain ⟨-, -, hdlen, -⟩ := HR d hdR
          obtain ⟨-, -, hrlen, -⟩ := HR r hrR
          have h1 : s.length = r.length + 1 := by
            rw [hsc]
            simp
          have := hsd.length_le
          omega
        rw [P4 d (fun e => isDir_not_tagpath hwf0 hfp.2.1 e) hdnotR]
        exact H4 d hfp ⟨r, hrR, hrs.trans hsd⟩
      · intro d hfp hnos
        by_cases hdR : ∃ r ∈ (r0 :: rest), r <+: d
        · obtain ⟨r, hrR, hrd⟩ := hdR
          by_cases hreq : r = d
          · subst hreq
            exact P6 r hrR hfp.2.2.1
          · -- r is a proper ancestor of d: negative, so a child of r
            -- towards d is pending in the next layer, contradiction
            exfalso
            have hrneg : FileTagger.possible_has_tag_entry fs0 r = false :=
              hfp.2.2.2 r (HR r hrR).1 hrd hreq
            obtain ⟨s, hsch, hsd, -⟩ := step_toward hwf0 hrd hreq hfp.2.1
            exact hnos ⟨s, List.mem_flatMap.mpr ⟨r,
              List.mem_filter.mpr ⟨hrR, by simp [hrneg]⟩, hsch⟩, hsd⟩
        · rw [P4 d (fun e => isDir_not_tagpath hwf0 hfp.2.1 e)
            (fun hh => hdR ⟨d, hh, List.prefix_rfl⟩)]
          exact H5 d hfp hdR
      · intro d hdfp
        by_cases htag : ∀ e : FPath, d ≠ e ++ [".tag"]
        · by_cases hdR : d ∈ (r0 :: rest)
          · have hdneg : FileTagger.possible_has_tag_entry fs0 d = false := by
              by_cases hp : FileTagger.possible_has_tag_entry fs0 d = true
              · exact absurd (hfp_of_queue d hdR hp) hdfp
              · simpa using hp
            rw [P5 d hdR hdneg]
            exact H6 d hdfp
          · rw [P4 d htag hdR]
            exact H6 d hdfp
        · push_neg at htag
          obtain ⟨e, he⟩ := htag
          subst he
          rw [dirMeta_tagpath P1 e, dirMeta_tagpath hwf0 e]

/-- C4 counterexample: in `c4FS` the root `r` is untagged (its sidecar only
records the file `f`), so the shallowest tagged node of the branch is
`r/a`; yet the recursive top-only clear stops at `r` — whose sidecar probe
is positive — and leaves the tags of `r/a` untouched. -/
theorem c4_counterexample :
    Tagger.get_tags fileImpl c4FS ["r"] = [] ∧
    Tagger.get_tags fileImpl c4FS ["r", "a"] = ["t"] ∧
    (Tagger.clear_tags fileImpl c4FS ["r"] true none true).2 = true ∧
    Tagger.get_tags fileImpl
      (Tagger.clear_tags fileImpl c4FS ["r"] true none true).1
      ["r", "a"] = ["t"] :=
  ⟨by decide, by decide, by decide, by decide⟩

/-- With `recursive = True`, `top_only = True` and no depth bound,
`clear_tags` clears exactly the shallowest *sidecar-bearing* directory of
each branch — the walk keys on `_possible_has_tag_entry`, not on the node's
own tags: such a directory has its own entry removed from its sidecar (the
sidecar file disappearing when nothing else was recorded), and every other
sidecar, in particular those holding the tags of deeper tagged descendants,
is unchanged. -/
theorem clear_top_only_exact (fs : FSNode) (root : FPath)
    (hwf : namesOK fs = true) (hroot : isDirFS fs root = true) :
    (Tagger.clear_tags fileImpl fs root true none true).2 = true ∧
    (∀ d, firstPositive fs root d →
      dirMeta (Tagger.clear_tags fileImpl fs root true none true).1 d =
        clearedMeta fs d) ∧
    (∀ d, ¬ firstPositive fs root d →
      dirMeta (Tagger.clear_tags fileImpl fs root true none true).1 d =
        dirMeta fs d) := by
  have hex : existsFS (fileImpl.getFs fs) root = true :=
    exists_of_kind_some (kind_true_of_isDirFS hroot)
  have heq : Tagger.clear_tags fileImpl fs root true none true =
      (clearTopRun (travFuel fs) fs [root], true) := by
    unfold Tagger.clear_tags
    rw [if_neg (not_not_intro hex),
      if_neg (not_not_intro
        (show isDirFS (fileImpl.getFs fs) root = true from hroot)),
      if_neg (by simp)]
    unfold runTagged
    rw [show (Tagger.clearDriver fileImpl true).getFs fs = fs from rfl]
    rw [clearRun_spec (travFuel fs) fs [root] 0]
  obtain ⟨-, K2, K3⟩ := clearTopRun_char fs root hwf (travFuel fs) fs [root]
    0 hwf (fun q _ => rfl) (fun q _ => rfl)
    (by
      intro r hr
      simp at hr
      subst hr
      refine ⟨List.prefix_rfl, hroot, by simp, ?_⟩
      intro a h1 h2 h3
      exact absurd (List.IsPrefix.eq_of_length h2
        (le_antisymm h2.length_le h1.length_le)) h3)
    (by simp)
    (by unfold travFuel; omega)
    (fun d _ _ => rfl)
    (fun d hfp hno => absurd ⟨root, by simp, hfp.1⟩ hno)
    (fun d _ => rfl)
  refine ⟨by rw [heq], ?_, ?_⟩
  · intro d hfp
    rw [heq]
    exact K2 d hfp
  · intro d hfp
    rw [heq]
    exact K3 d hfp

/-! ## The recursive full clear (`top_only = False`) -/

theorem tagfile_iff {g : FSNode} (hw : namesOK g = true) {t : FPath}
    (ht : isDirFS g t = true) :
    isFileFS g (t ++ [".tag"]) = (dirMeta g t).isSome := by
  have hk := kind_true_of_isDirFS ht
  unfold kindAt at hk
  cases hl : lookupNode g t with
  | none =>
    rw [hl] at hk
    simp at hk
  | some nd =>
    rw [hl] at hk
    cases nd with
    | file n => simp [FSNode.isDirNode] at hk
    | dir n m cs =>
      have hnd : namesOK (.dir n m cs) = true := namesOK_lookup t g _ hw hl
      unfold isFileFS dirMeta
      rw [lookupNode_append t g hw [".tag"], hl]
      simp only [Option.some_bind, lookupNode_dir_cons]
      by_cases hm : m.isSome = true
      · simp [hm]
      · have hm' : m.isSome = false := by simpa using hm
        rw [namesOK_no_tag_child hnd]
        simp [hm']

theorem fileChild_mem {fs : FSNode} (hwf : namesOK fs = true) (t : FPath)
    (c : String) (hc : c ≠ ".tag")
    (hk : kindAt fs (t ++ [c]) = some false) :
    (t ++ [c], false) ∈ scandirFS fs t := by
  unfold kindAt at hk
  cases hl2 : lookupNode fs (t ++ [c]) with
  | none =>
    rw [hl2] at hk
    simp at hk
  | some nd =>
    rw [hl2] at hk
    simp only [Option.map_some'] at hk
    have hfilenode : nd.isDirNode = false := Option.some.inj hk
    rw [lookupNode_append t fs hwf [c]] at hl2
    cases hl : lookupNode fs t with
    | none =>
      rw [hl] at hl2
      simp at hl2
    | some ndt =>
      rw [hl] at hl2
      cases ndt with
      | file n' => simp [lookupNode] at hl2
      | dir n' m' cs' =>
        simp only [Option.some_bind, lookupNode_dir_cons] at hl2
        rw [if_neg (by simp [hc])] at hl2
        cases hf : cs'.find? (fun x => x.name = c) with
        | none =>
          rw [hf] at hl2
          simp at hl2
        | some ch =>
          rw [hf] at hl2
          have hch : ch ∈ cs' := List.mem_of_find?_eq_some hf
          have hname : ch.name = c := by
            have := List.find?_some hf
            simpa using this
          simp only [lookupNode] at hl2
          have hnd : nd = ch := (Option.some.inj hl2).symm
          unfold scandirFS
          rw [hl]
          apply List.mem_append.mpr
          right
          refine List.mem_map.mpr ⟨ch, hch, ?_⟩
          rw [hname, ← hnd, hfilenode]

theorem clear_file_meta {g : FSNode} {f : FPath}
    (hf : isFileFS g f = true) (hd : isDirFS g f.dropLast = true) :
    dirMeta (FileTagger.write_tags g f []).1 f.dropLast =
      (if (metaErase ((dirMeta g f.dropLast).getD []) f).isEmpty then none
       else some (metaErase ((dirMeta g f.dropLast).getD []) f)) := by
  rw [write_tags_eq_erase]
  have htd : FileTagger.tag_dir_of g f = f.dropLast := by
    unfold FileTagger.tag_dir_of
    rw [if_pos hf]
  have hread : FileTagger.read_tag_meta g f = (dirMeta g f.dropLast).getD []
      := by
    unfold FileTagger.read_tag_meta
    rw [htd]
  by_cases hme : (metaErase ((dirMeta g f.dropLast).getD []) f).isEmpty = true
  · rw [if_pos hme]
    by_cases hs : (dirMeta g (FileTagger.tag_dir_of g f)).isSome = true
    · rw [write_tag_meta_eq_del g f _ (by rw [hread]; exact hme) hs]
      rw [htd]
      exact dirMeta_setMetaNode_self none _ g hd
    · rw [write_tag_meta_eq_keep g f _ (by rw [hread]; exact hme) hs]
      rw [htd] at hs
      exact Option.not_isSome_iff_eq_none.mp hs
  · rw [if_neg hme]
    rw [write_tag_meta_eq_set g f _ (by rw [hread]; exact hme)
      (by rw [htd]; exact hd)]
    rw [htd, hread]
    exact dirMeta_setMetaNode_self _ _ g hd

theorem write_noop_stale_tag {g : FSNode} (hw : namesOK g = true)
    {e : FPath} (hnf : isFileFS g (e ++ [".tag"]) = false) :
    (FileTagger.write_tags g (e ++ [".tag"]) []).1 = g := by
  apply write_tags_noop
  have htd : FileTagger.tag_dir_of g (e ++ [".tag"]) = e ++ [".tag"] := by
    unfold FileTagger.tag_dir_of
    rw [hnf]
    simp
  rw [htd]
  by_cases hdir : isDirFS g (e ++ [".tag"]) = true
  · exact absurd rfl (isDir_not_tagpath hw hdir e)
  · simpa using hdir

theorem metaErase_mem {m : TagMeta} {p k : FPath} {v : List String}
    (h : (k, v) ∈ metaErase m p) : (k, v) ∈ m ∧ k ≠ p := by
  unfold metaErase at h
  refine ⟨List.mem_of_mem_filter h, ?_⟩
  have := List.of_mem_filter h
  simpa using this

theorem tag_entry_mem {g : FSNode} {t : FPath} (ht : isDirFS g t = true)
    (hm : (dirMeta g t).isSome = true) :
    (t ++ [".tag"], false) ∈ scandirFS g t := by
  have hk := kind_true_of_isDirFS ht
  unfold kindAt at hk
  cases hl : lookupNode g t with
  | none =>
    rw [hl] at hk
    simp at hk
  | some nd =>
    rw [hl] at hk
    cases nd with
    | file n => simp [FSNode.isDirNode] at hk
    | dir n m cs =>
      unfold dirMeta at hm
      rw [hl] at hm
      dsimp only at hm
      unfold scandirFS
      rw [hl]
      dsimp only
      rw [if_pos hm]
      simp

theorem clearBE_char (t : FPath) :
    ∀ (L : List (FPath × Bool)) (g : FSNode) (roots : List FPath),
    namesOK g = true →
    isDirFS g t = true →
    (∀ e ∈ L, e.2 = false → e.1.dropLast = t ∧
      (isFileFS g e.1 = true ∨ e.1 = t ++ [".tag"])) →
    (dirMeta g t = none ∨ ∃ m, dirMeta g t = some m ∧ m ≠ []) →
    namesOK (phaseBEntries (Tagger.clearDriver fileImpl false) L g
      roots).1 = true ∧
    (∀ q, (∀ e : FPath, q ≠ e ++ [".tag"]) →
      kindAt (phaseBEntries (Tagger.clearDriver fileImpl false) L g
        roots).1 q = kindAt g q) ∧
    (∀ q, (∀ e : FPath, q ≠ e ++ [".tag"]) →
      dirChildPaths (phaseBEntries (Tagger.clearDriver fileImpl false) L g
        roots).1 q = dirChildPaths g q) ∧
    (∀ q, q ≠ t → (∀ e : FPath, q ≠ e ++ [".tag"]) →
      dirMeta (phaseBEntries (Tagger.clearDriver fileImpl false) L g
        roots).1 q = dirMeta g q) ∧
    ((∀ k : FPath, ∀ v : List String, (k, v) ∈ (dirMeta g t).getD [] →
        (k, false) ∈ L) →
      dirMeta (phaseBEntries (Tagger.clearDriver fileImpl false) L g
        roots).1 t = none) ∧
    (phaseBEntries (Tagger.clearDriver fileImpl false) L g roots).2 =
      roots ++ (L.filter (fun e => e.2)).map (fun e => e.1) := by
  intro L
  induction L with
  | nil =>
    intro g roots HW HT HL HNE
    refine ⟨HW, fun q _ => rfl, fun q _ => rfl, fun q _ _ => rfl, ?_,
      by simp [phaseBEntries]⟩
    intro hcov
    rcases HNE with h | ⟨m, hm, hne⟩
    · exact h
    · cases m with
      | nil => exact absurd rfl hne
      | cons a rest =>
        have := hcov a.1 a.2 (by rw [hm]; simp)
        simp at this
  | cons e rest ih =>
    intro g roots HW HT HL HNE
    unfold phaseBEntries
    by_cases he : e.2 = true
    · rw [if_pos he]
      obtain ⟨I1, I2, I3, I4, I5, I6⟩ := ih g (roots ++ [e.1]) HW HT
        (fun e' he' hf => HL e' (by simp [he']) hf) HNE
      refine ⟨I1, I2, I3, I4, ?_, ?_⟩
      · intro hcov
        apply I5
        intro k v hkv
        rcases List.mem_cons.mp (hcov k v hkv) with heq | hmem
        · rw [← heq] at he
          simp at he
        · exact hmem
      · rw [I6]
        simp [List.filter_cons, he]
    · have he' : e.2 = false := by simpa using he
      rw [if_neg he]
      simp only [show (Tagger.clearDriver fileImpl false).onFile g e.1 =
        (FileTagger.write_tags g e.1 []).1 from rfl]
      obtain ⟨hdrop, hfe⟩ := HL e (by simp) he'
      have hnotag : ∀ e'' : FPath, t ≠ e'' ++ [".tag"] :=
        fun e'' => isDir_not_tagpath HW HT e''
      by_cases hfile : isFileFS g e.1 = true
      · -- a genuine file entry: its key is erased from t's record
        have htd : FileTagger.tag_dir_of g e.1 = t := by
          unfold FileTagger.tag_dir_of
          rw [if_pos hfile, hdrop]
        have hddir : isDirFS g e.1.dropLast = true := by
          rw [hdrop]
          exact HT
        have Wnames : namesOK (FileTagger.write_tags g e.1 []).1 = true := by
          rw [write_tags_namesOK]
          exact HW
        have Wkind : ∀ q, (∀ e'' : FPath, q ≠ e'' ++ [".tag"]) →
            kindAt (FileTagger.write_tags g e.1 []).1 q = kindAt g q :=
          fun q hq => write_tags_kindAt g e.1 [] q (by rw [htd]; exact hq t)
        have Wchild : ∀ q, (∀ e'' : FPath, q ≠ e'' ++ [".tag"]) →
            dirChildPaths (FileTagger.write_tags g e.1 []).1 q =
              dirChildPaths g q :=
          fun q hq =>
            write_tags_dirChildPaths g e.1 [] q (by rw [htd]; exact hq t)
        have Wother : ∀ q, q ≠ t → (∀ e'' : FPath, q ≠ e'' ++ [".tag"]) →
            dirMeta (FileTagger.write_tags g e.1 []).1 q = dirMeta g q :=
          fun q hq1 hq2 => write_tags_dirMeta_other g e.1 [] q
            (by rw [htd]; exact hq1) (by rw [htd]; exact hq2 t)
        have Wt : dirMeta (FileTagger.write_tags g e.1 []).1 t =
            (if (metaErase ((dirMeta g t).getD []) e.1).isEmpty then none
             else some (metaErase ((dirMeta g t).getD []) e.1)) := by
          have := clear_file_meta hfile hddir
          rw [hdrop] at this
          exact this
        have HT1 : isDirFS (FileTagger.write_tags g e.1 []).1 t = true := by
          rw [isDirFS_eq_kind, Wkind t hnotag, ← isDirFS_eq_kind]
          exact HT
        have HL1 : ∀ e' ∈ rest, e'.2 = false → e'.1.dropLast = t ∧
            (isFileFS (FileTagger.write_tags g e.1 []).1 e'.1 = true ∨
              e'.1 = t ++ [".tag"]) := by
          intro e' he'' hf
          obtain ⟨hd', hfe'⟩ := HL e' (by simp [he'']) hf
          refine ⟨hd', ?_⟩
          by_cases htag : e'.1 = t ++ [".tag"]
          · exact Or.inr htag
          · rcases hfe' with hfl | hcontra
            · left
              have hguard : ∀ e'' : FPath, e'.1 ≠ e'' ++ [".tag"] := by
                intro e'' heq
                apply htag
                have : e'.1.dropLast = e'' := by
                  rw [heq]
                  exact List.dropLast_concat
                rw [heq, ← this, hd']
              rw [isFileFS_eq_kind, Wkind e'.1 hguard, ← isFileFS_eq_kind]
              exact hfl
            · exact absurd hcontra htag
        have HNE1 : dirMeta (FileTagger.write_tags g e.1 []).1 t = none ∨
            ∃ m, dirMeta (FileTagger.write_tags g e.1 []).1 t = some m ∧
              m ≠ [] := by
          rw [Wt]
          by_cases hme : (metaErase ((dirMeta g t).getD []) e.1).isEmpty =
              true
          · rw [if_pos hme]
            exact Or.inl rfl
          · rw [if_neg hme]
            refine Or.inr ⟨_, rfl, ?_⟩
            intro hh
            rw [hh] at hme
            simp at hme
        obtain ⟨I1, I2, I3, I4, I5, I6⟩ := ih (FileTagger.write_tags g e.1
          []).1 roots Wnames HT1 HL1 HNE1
        refine ⟨I1, ?_, ?_, ?_, ?_, ?_⟩
        · intro q hq
          rw [I2 q hq]
          exact Wkind q hq
        · intro q hq
          rw [I3 q hq]
          exact Wchild q hq
        · intro q hq1 hq2
          rw [I4 q hq1 hq2]
          exact Wother q hq1 hq2
        · intro hcov
          apply I5
          intro k v hkv
          rw [Wt] at hkv
          by_cases hme : (metaErase ((dirMeta g t).getD []) e.1).isEmpty =
              true
          · rw [if_pos hme] at hkv
            simp at hkv
          · rw [if_neg hme] at hkv
            simp only [Option.getD_some] at hkv
            obtain ⟨hkm, hkne⟩ := metaErase_mem hkv
            rcases List.mem_cons.mp (hcov k v hkm) with heq | hmem
            · have : k = e.1 := by
                have := congrArg Prod.fst heq
                simpa using this
              exact absurd this hkne
            · exact hmem
        · rw [I6]
          simp [List.filter_cons, he']
      · -- stale `.tag` entry: the write is a no-op
        have htag : e.1 = t ++ [".tag"] := by
          rcases hfe with hfl | h
          · exact absurd hfl hfile
          · exact h
        have hnoop : (FileTagger.write_tags g e.1 []).1 = g := by
          rw [htag]
          exact write_noop_stale_tag HW (htag ▸ (by simpa using hfile))
        rw [hnoop]
        obtain ⟨I1, I2, I3, I4, I5, I6⟩ := ih g roots HW HT
          (fun e' he'' hf => HL e' (by simp [he'']) hf) HNE
        refine ⟨I1, I2, I3, I4, ?_, ?_⟩
        · intro hcov
          apply I5
          intro k v hkv
          rcases List.mem_cons.mp (hcov k v hkv) with heq | hmem
          · -- the key would be the live `.tag` pseudo file, but then the
            -- sidecar exists and the entry is not stale
            exfalso
            have hk : k = t ++ [".tag"] := by
              have := congrArg Prod.fst heq
              simpa [htag] using this
            have hsome : (dirMeta g t).isSome = true := by
              cases hmg : dirMeta g t with
              | none =>
                rw [hmg] at hkv
                simp at hkv
              | some m => rfl
            have := tagfile_iff HW HT
            rw [hsome] at this
            rw [htag] at hfile
            exact hfile this
          · exact hmem
        · rw [I6]
          simp [List.filter_cons, he']

theorem clearB_char (fs0 : FSNode) (hwf0 : namesOK fs0 = true) :
    ∀ (T : List FPath) (g : FSNode) (roots : List FPath),
    namesOK g = true →
    (∀ q, (∀ e : FPath, q ≠ e ++ [".tag"]) → kindAt g q = kindAt fs0 q) →
    (∀ t ∈ T, isDirFS fs0 t = true) →
    (∀ t ∈ T, dirChildPaths g t = dirChildPaths fs0 t) →
    (∀ t ∈ T, ∀ k : FPath, ∀ v : List String,
      (k, v) ∈ (dirMeta g t).getD [] →
      k.dropLast = t ∧ k ≠ [] ∧ isFileFS fs0 k = true) →
    (∀ t ∈ T, dirMeta g t = none ∨
      ∃ m, dirMeta g t = some m ∧ m ≠ []) →
    T.Nodup →
    namesOK (phaseB (Tagger.clearDriver fileImpl false) T g roots).1 = true ∧
    (∀ q, (∀ e : FPath, q ≠ e ++ [".tag"]) →
      kindAt (phaseB (Tagger.clearDriver fileImpl false) T g roots).1 q =
        kindAt g q) ∧
    (∀ q, (∀ e : FPath, q ≠ e ++ [".tag"]) →
      dirChildPaths (phaseB (Tagger.clearDriver fileImpl false) T g
        roots).1 q = dirChildPaths g q) ∧
    (∀ q, q ∉ T → (∀ e : FPath, q ≠ e ++ [".tag"]) →
      dirMeta (phaseB (Tagger.clearDriver fileImpl false) T g roots).1 q =
        dirMeta g q) ∧
    (∀ t ∈ T,
      dirMeta (phaseB (Tagger.clearDriver fileImpl false) T g roots).1 t =
        none) ∧
    (phaseB (Tagger.clearDriver fileImpl false) T g roots).2 =
      roots ++ T.flatMap (dirChildPaths fs0) := by
  intro T
  induction T with
  | nil =>
    intro g roots HW HK HD HC HKEY HNE HN
    refine ⟨HW, fun q _ => rfl, fun q _ => rfl, fun q _ _ => rfl,
      fun t ht => absurd ht (by simp), by simp [phaseB]⟩
  | cons t0 rest ih =>
    intro g roots HW HK HD HC HKEY HNE HN
    have htodir0 : isDirFS fs0 t0 = true := HD t0 (by simp)
    have hnotag : ∀ e : FPath, t0 ≠ e ++ [".tag"] :=
      fun e => isDir_not_tagpath hwf0 htodir0 e
    have htodir : isDirFS g t0 = true := by
      rw [isDirFS_eq_kind, HK t0 hnotag, ← isDirFS_eq_kind]
      exact htodir0
    unfold phaseB
    simp only [show (Tagger.clearDriver fileImpl false).getFs g = g from rfl]
    have HL0 : ∀ e ∈ scandirFS g t0, e.2 = false → e.1.dropLast = t0 ∧
        (isFileFS g e.1 = true ∨ e.1 = t0 ++ [".tag"]) := by
      intro e he hf
      have he' : (e.1, false) ∈ scandirFS g t0 := by
        have : e = (e.1, e.2) := rfl
        rw [this, hf] at he
        exact he
      obtain ⟨⟨c, hc⟩, hkind⟩ := scandir_mem HW he'
      refine ⟨by rw [hc]; exact List.dropLast_concat, ?_⟩
      left
      exact isFileFS_of_kind_false hkind
    obtain ⟨B1, B2, B3, B4, B5, B6⟩ := clearBE_char t0 (scandirFS g t0) g
      roots HW htodir HL0 (HNE t0 (by simp))
    -- coverage of t0's record by its scandir file entries
    have hcov : ∀ k : FPath, ∀ v : List String,
        (k, v) ∈ (dirMeta g t0).getD [] → (k, false) ∈ scandirFS g t0 := by
      intro k v hkv
      obtain ⟨hkd, hkne, hkfile⟩ := HKEY t0 (by simp) k v hkv
      have hksome : (dirMeta g t0).isSome = true := by
        cases hmg : dirMeta g t0 with
        | none =>
          rw [hmg] at hkv
          simp at hkv
        | some m => rfl
      have hkshape : k = t0 ++ [k.getLast (by exact hkne)] := by
        conv_lhs => rw [← List.dropLast_append_getLast hkne]
        rw [hkd]
      by_cases hlast : k.getLast (by exact hkne) = ".tag"
      · rw [hkshape, hlast]
        exact tag_entry_mem htodir hksome
      · have hguard : ∀ e : FPath, k ≠ e ++ [".tag"] := by
          intro e heq
          apply hlast
          have h1 : k.dropLast = e := by
            rw [heq]
            exact List.dropLast_concat
          have h2 : e = t0 := by rw [← h1, hkd]
          have h3 : k = t0 ++ [".tag"] := by rw [heq, h2]
          have h4 := hkshape.symm.trans h3
          have := List.append_cancel_left h4
          simpa using this
        have hkk : kindAt g k = some false := by
          rw [HK k hguard]
          rw [isFileFS_eq_kind] at hkfile
          exact hkfile
        rw [hkshape]
        apply fileChild_mem HW t0 _ hlast
        rw [← hkshape]
        exact hkk
    have hmet0 : dirMeta (phaseBEntries (Tagger.clearDriver fileImpl false)
        (scandirFS g t0) g roots).1 t0 = none := B5 hcov
    -- invariants for the rest of the expansion
    have HW1 := B1
    have HK1 : ∀ q, (∀ e : FPath, q ≠ e ++ [".tag"]) →
        kindAt (phaseBEntries (Tagger.clearDriver fileImpl false)
          (scandirFS g t0) g roots).1 q = kindAt fs0 q := by
      intro q hq
      rw [B2 q hq]
      exact HK q hq
    obtain ⟨I1, I2, I3, I4, I5, I6⟩ := ih
      (phaseBEntries (Tagger.clearDriver fileImpl false) (scandirFS g t0) g
        roots).1
      (phaseBEntries (Tagger.clearDriver fileImpl false) (scandirFS g t0) g
        roots).2
      HW1 HK1
      (fun t ht => HD t (by simp [ht]))
      (fun t ht => by
        rw [B3 t (fun e => isDir_not_tagpath hwf0 (HD t (by simp [ht])) e)]
        exact HC t (by simp [ht]))
      (fun t ht k v hkv => by
        rw [B4 t (fun hh => (List.nodup_cons.mp HN).1 (hh ▸ ht))
          (fun e => isDir_not_tagpath hwf0 (HD t (by simp [ht])) e)] at hkv
        exact HKEY t (by simp [ht]) k v hkv)
      (fun t ht => by
        rw [B4 t (fun hh => (List.nodup_cons.mp HN).1 (hh ▸ ht))
          (fun e => isDir_not_tagpath hwf0 (HD t (by simp [ht])) e)]
        exact HNE t (by simp [ht]))
      (List.nodup_cons.mp HN).2
    refine ⟨I1, ?_, ?_, ?_, ?_, ?_⟩
    · intro q hq
      rw [I2 q hq]
      exact B2 q hq
    · intro q hq
      rw [I3 q hq]
      exact B3 q hq
    · intro q hq1 hq2
      have hq1' : q ≠ t0 ∧ q ∉ rest := by
        constructor
        · intro hh
          exact hq1 (by simp [hh])
        · intro hh
          exact hq1 (by simp [hh])
      rw [I4 q hq1'.2 hq2]
      exact B4 q hq1'.1 hq2
    · intro t ht
      rcases List.mem_cons.mp ht with rfl | ht'
      · rw [I4 t (List.nodup_cons.mp HN).1 hnotag]
        exact hmet0
      · exact I5 t ht'
    · rw [I6, B6]
      rw [show List.map (fun e : FPath × Bool => e.1)
          (List.filter (fun e => e.2) (scandirFS g t0)) =
          dirChildPaths g t0 from rfl]
      rw [HC t0 (by simp)]
      simp [List.append_assoc]

theorem clearAF_char (fs0 : FSNode) :
    ∀ (R : List FPath) (g : FSNode) (sub tmp : List FPath),
    namesOK g = true →
    (∀ r ∈ R, isDirFS g r = true ∧ isDirFS fs0 r = true) →
    (∀ r ∈ R, dirMeta g r = dirMeta fs0 r) →
    (∀ r ∈ R, dirChildPaths g r = dirChildPaths fs0 r) →
    R.Nodup →
    namesOK (phaseA (Tagger.clearDriver fileImpl false) R g sub tmp).1 =
      true ∧
    (∀ q, (∀ e : FPath, q ≠ e ++ [".tag"]) →
      kindAt (phaseA (Tagger.clearDriver fileImpl false) R g sub tmp).1 q =
        kindAt g q) ∧
    (∀ q, (∀ e : FPath, q ≠ e ++ [".tag"]) →
      dirChildPaths (phaseA (Tagger.clearDriver fileImpl false) R g sub
        tmp).1 q = dirChildPaths g q) ∧
    (∀ d, (∀ e : FPath, d ≠ e ++ [".tag"]) → d ∉ R →
      dirMeta (phaseA (Tagger.clearDriver fileImpl false) R g sub tmp).1 d =
        dirMeta g d) ∧
    (∀ d ∈ R, FileTagger.possible_has_tag_entry fs0 d = false →
      dirMeta (phaseA (Tagger.clearDriver fileImpl false) R g sub tmp).1 d =
        dirMeta g d) ∧
    (∀ d ∈ R, FileTagger.possible_has_tag_entry fs0 d = true →
      dirMeta (phaseA (Tagger.clearDriver fileImpl false) R g sub tmp).1 d =
        clearedMeta fs0 d) ∧
    (phaseA (Tagger.clearDriver fileImpl false) R g sub tmp).2.1 =
      sub ++ (R.filter
        (fun r => !FileTagger.possible_has_tag_entry fs0 r)).flatMap
        (dirChildPaths fs0) ∧
    (phaseA (Tagger.clearDriver fileImpl false) R g sub tmp).2.2 =
      tmp ++ R.filter (fun r => FileTagger.possible_has_tag_entry fs0 r) := by
  intro R
  induction R with
  | nil =>
    intro g sub tmp HW HKD HMQ HCQ HN
    refine ⟨HW, fun q _ => rfl, fun q _ => rfl, fun d _ _ => rfl,
      fun d hd => absurd hd (by simp), fun d hd => absurd hd (by simp),
      by simp [phaseA], by simp [phaseA]⟩
  | cons top rest ih =>
    intro g sub tmp HW HKD HMQ HCQ HN
    obtain ⟨htopg, htop0⟩ := HKD top (by simp)
    have htopmeta : dirMeta g top = dirMeta fs0 top := HMQ top (by simp)
    have hnotag : ∀ e : FPath, top ≠ e ++ [".tag"] :=
      fun e => isDir_not_tagpath HW htopg e
    have htopnotin : top ∉ rest := (List.nodup_cons.mp HN).1
    have hrestN : rest.Nodup := (List.nodup_cons.mp HN).2
    have hprobe_eq : FileTagger.possible_has_tag_entry g top =
        FileTagger.possible_has_tag_entry fs0 top := by
      unfold FileTagger.possible_has_tag_entry
      rw [tag_dir_of_dir htopg, tag_dir_of_dir htop0, htopmeta]
    unfold phaseA
    by_cases hp : FileTagger.possible_has_tag_entry fs0 top = true
    · rw [if_pos (show (Tagger.clearDriver fileImpl false).probeD g top =
          true from by
          rw [show (Tagger.clearDriver fileImpl false).probeD g top =
            FileTagger.possible_has_tag_entry g top from rfl, hprobe_eq]
          exact hp)]
      simp only [show (Tagger.clearDriver fileImpl false).onDir g top =
        ((FileTagger.write_tags g top []).1, false) from rfl,
        Bool.false_eq_true, if_false]
      have htd : FileTagger.tag_dir_of g top = top := tag_dir_of_dir htopg
      have Wnames : namesOK (FileTagger.write_tags g top []).1 = true := by
        rw [write_tags_namesOK]
        exact HW
      have Wkind : ∀ q, (∀ e : FPath, q ≠ e ++ [".tag"]) →
          kindAt (FileTagger.write_tags g top []).1 q = kindAt g q :=
        fun q hq => write_tags_kindAt g top [] q (by rw [htd]; exact hq top)
      have Wmeta : ∀ q, q ≠ top → (∀ e : FPath, q ≠ e ++ [".tag"]) →
          dirMeta (FileTagger.write_tags g top []).1 q = dirMeta g q :=
        fun q hq1 hq2 => write_tags_dirMeta_other g top [] q
          (by rw [htd]; exact hq1) (by rw [htd]; exact hq2 top)
      have Wchild : ∀ q, (∀ e : FPath, q ≠ e ++ [".tag"]) →
          dirChildPaths (FileTagger.write_tags g top []).1 q =
            dirChildPaths g q :=
        fun q hq =>
          write_tags_dirChildPaths g top [] q (by rw [htd]; exact hq top)
      have Wown : dirMeta (FileTagger.write_tags g top []).1 top =
          clearedMeta fs0 top := by
        rw [clear_own_meta htopg]
        unfold clearedMeta
        rw [htopmeta]
      obtain ⟨I1, I2, I3, I4, I5, I6, I7, I8⟩ := ih
        (FileTagger.write_tags g top []).1 sub (tmp ++ [top]) Wnames
        (fun r hr => ⟨by
            rw [isDirFS_eq_kind, Wkind r
              (fun e => isDir_not_tagpath HW (HKD r (by simp [hr])).1 e),
              ← isDirFS_eq_kind]
            exact (HKD r (by simp [hr])).1,
          (HKD r (by simp [hr])).2⟩)
        (fun r hr => by
          rw [Wmeta r (fun hh => htopnotin (hh ▸ hr))
            (fun e => isDir_not_tagpath HW (HKD r (by simp [hr])).1 e)]
          exact HMQ r (by simp [hr]))
        (fun r hr => by
          rw [Wchild r
            (fun e => isDir_not_tagpath HW (HKD r (by simp [hr])).1 e)]
          exact HCQ r (by simp [hr]))
        hrestN
      refine ⟨I1, ?_, ?_, ?_, ?_, ?_, ?_, ?_⟩
      · intro q hq
        rw [I2 q hq]
        exact Wkind q hq
      · intro q hq
        rw [I3 q hq]
        exact Wchild q hq
      · intro d hd1 hd2
        have hd2' : d ≠ top ∧ d ∉ rest := by
          constructor
          · intro hh
            exact hd2 (by simp [hh])
          · intro hh
            exact hd2 (by simp [hh])
        rw [I4 d hd1 hd2'.2]
        exact Wmeta d hd2'.1 hd1
      · intro d hd hdp
        rcases List.mem_cons.mp hd with rfl | hd'
        · rw [hdp] at hp
          simp at hp
        · rw [I5 d hd' hdp]
          exact Wmeta d (fun hh => htopnotin (hh ▸ hd'))
            (fun e => isDir_not_tagpath HW (HKD d (by simp [hd'])).1 e)
      · intro d hd hdp
        rcases List.mem_cons.mp hd with rfl | hd'
        · rw [I4 d hnotag htopnotin]
          exact Wown
        · exact I6 d hd' hdp
      · rw [I7]
        simp [List.filter_cons, hp]
      · rw [I8]
        simp [List.filter_cons, hp]
    · have hp' : FileTagger.possible_has_tag_entry fs0 top = false := by
        simpa using hp
      rw [if_neg (show ¬ (Tagger.clearDriver fileImpl false).probeD g top =
          true from by
          rw [show (Tagger.clearDriver fileImpl false).probeD g top =
            FileTagger.possible_has_tag_entry g top from rfl, hprobe_eq, hp']
          simp)]
      simp only [show (Tagger.clearDriver fileImpl false).getFs g = g
        from rfl]
      obtain ⟨I1, I2, I3, I4, I5, I6, I7, I8⟩ := ih g
        (sub ++ dirChildPaths g top) tmp HW
        (fun r hr => HKD r (by simp [hr]))
        (fun r hr => HMQ r (by simp [hr]))
        (fun r hr => HCQ r (by simp [hr]))
        hrestN
      refine ⟨I1, I2, I3, ?_, ?_, ?_, ?_, ?_⟩
      · intro d hd1 hd2
        exact I4 d hd1 (fun hh => hd2 (by simp [hh]))
      · intro d hd hdp
        rcases List.mem_cons.mp hd with rfl | hd'
        · exact I4 d hnotag htopnotin
        · exact I5 d hd' hdp
      · intro d hd hdp
        rcases List.mem_cons.mp hd with rfl | hd'
        · rw [hdp] at hp'
          simp at hp'
        · exact I6 d hd' hdp
      · rw [I7]
        rw [HCQ top (by simp)]
        simp [List.filter_cons, hp', List.append_assoc]
      · rw [I8]
        simp [List.filter_cons, hp']

theorem dirMeta_none_of_not_dir {g : FSNode} {q : FPath}
    (h : ¬ isDirFS g q = true) : dirMeta g q = none := by
  cases hm : dirMeta g q with
  | none => rfl
  | some m =>
    exact absurd (dirMeta_isSome_isDir (by rw [hm]; rfl)) h

theorem clearAllRun_char (fs0 : FSNode) (root : FPath)
    (hwf0 : namesOK fs0 = true)
    (HSC : ∀ d l, dirMeta fs0 d = some l → ∀ e ∈ l,
      entryScoped fs0 d e.1) :
    ∀ (fuel : Nat) (g : FSNode) (R : List FPath) (cd : Nat),
    namesOK g = true →
    (∀ q, (∀ e : FPath, q ≠ e ++ [".tag"]) → kindAt g q = kindAt fs0 q) →
    (∀ q, (∀ e : FPath, q ≠ e ++ [".tag"]) →
      dirChildPaths g q = dirChildPaths fs0 q) →
    (∀ r ∈ R, root <+: r ∧ isDirFS fs0 r = true ∧
      r.length = root.length + cd) →
    R.Nodup →
    heightFS fs0 + 1 ≤ fuel + cd →
    (∀ d, (∃ r ∈ R, r <+: d) → dirMeta g d = dirMeta fs0 d) →
    (∀ d, root <+: d → (¬ ∃ r ∈ R, r <+: d) → dirMeta g d = none) →
    (∀ d, ¬ root <+: d → dirMeta g d = dirMeta fs0 d) →
    (∀ d, root <+: d →
      dirMeta (runLayers (Tagger.clearDriver fileImpl false) fuel g R [] cd
        none) d = none) ∧
    (∀ d, ¬ root <+: d →
      dirMeta (runLayers (Tagger.clearDriver fileImpl false) fuel g R [] cd
        none) d = dirMeta fs0 d) := by
  intro fuel
  induction fuel with
  | zero =>
    intro g R cd HW HK HC HR HN HF H4 H5 H6
    have hRnil : R = [] := by
      cases R with
      | nil => rfl
      | cons r0 rest =>
        obtain ⟨-, hdir, hlen⟩ := HR r0 (by simp)
        have hk := kind_true_of_isDirFS hdir
        unfold kindAt at hk
        cases hl : lookupNode fs0 r0 with
        | none =>
          rw [hl] at hk
          simp at hk
        | some nd =>
          have := heightFS_lookup r0 fs0 nd hl
          omega
    subst hRnil
    exact ⟨fun d hd => H5 d hd (by simp), fun d hd => H6 d hd⟩
  | succ fuel ih =>
    intro g R cd HW HK HC HR HN HF H4 H5 H6
    cases R with
    | nil =>
      exact ⟨fun d hd => H5 d hd (by simp), fun d hd => H6 d hd⟩
    | cons r0 rest =>
      have hguardR : ∀ r ∈ (r0 :: rest), ∀ e : FPath, r ≠ e ++ [".tag"] :=
        fun r hr e => isDir_not_tagpath hwf0 (HR r hr).2.1 e
      obtain ⟨A1, A2, A3, A4, A5, A6, A7, A8⟩ := clearAF_char fs0
        (r0 :: rest) g [] []
        HW
        (fun r hr => ⟨by
            rw [isDirFS_eq_kind, HK r (hguardR r hr), ← isDirFS_eq_kind]
            exact (HR r hr).2.1,
          (HR r hr).2.1⟩)
        (fun r hr => H4 r ⟨r, hr, List.prefix_rfl⟩)
        (fun r hr => HC r (hguardR r hr))
        HN
      rw [List.nil_append] at A7 A8
      -- the expansion phase
      have hTsub : ∀ t ∈ (r0 :: rest).filter
          (fun r => FileTagger.possible_has_tag_entry fs0 r),
          t ∈ (r0 :: rest) ∧
            FileTagger.possible_has_tag_entry fs0 t = true := by
        intro t ht
        obtain ⟨h1, h2⟩ := List.mem_filter.mp ht
        exact ⟨h1, by simpa using h2⟩
      obtain ⟨B1, B2, B3, B4, B5, B6⟩ := clearB_char fs0 hwf0
        ((r0 :: rest).filter
          (fun r => FileTagger.possible_has_tag_entry fs0 r))
        (phaseA (Tagger.clearDriver fileImpl false) (r0 :: rest) g [] []).1
        (((r0 :: rest).filter
          (fun r => !FileTagger.possible_has_tag_entry fs0 r)).flatMap
          (dirChildPaths fs0))
        A1
        (fun q hq => by
          rw [A2 q hq]
          exact HK q hq)
        (fun t ht => (HR t (hTsub t ht).1).2.1)
        (fun t ht => by
          rw [A3 t (hguardR t (hTsub t ht).1)]
          exact HC t (hguardR t (hTsub t ht).1))
        (fun t ht k v hkv => by
          rw [A6 t (hTsub t ht).1 (hTsub t ht).2] at hkv
          unfold clearedMeta at hkv
          by_cases hme : (metaErase ((dirMeta fs0 t).getD []) t).isEmpty =
              true
          · rw [if_pos hme] at hkv
            simp at hkv
          · rw [if_neg hme] at hkv
            simp only [Option.getD_some] at hkv
            obtain ⟨hkm, hkne⟩ := metaErase_mem hkv
            cases hmf : dirMeta fs0 t with
            | none =>
              rw [hmf] at hkm
              simp at hkm
            | some l =>
              rw [hmf] at hkm
              simp only [Option.getD_some] at hkm
              rcases HSC t l hmf (k, v) hkm with heq | ⟨hne, hdl, hfl⟩
              · exact absurd heq hkne
              · exact ⟨hdl, hne, hfl⟩)
        (fun t ht => by
          rw [A6 t (hTsub t ht).1 (hTsub t ht).2]
          unfold clearedMeta
          by_cases hme : (metaErase ((dirMeta fs0 t).getD []) t).isEmpty =
              true
          · rw [if_pos hme]
            exact Or.inl rfl
          · rw [if_neg hme]
            refine Or.inr ⟨_, rfl, ?_⟩
            intro hh
            rw [hh] at hme
            simp at hme)
        (List.Nodup.filter _ HN)
      unfold runLayers
      dsimp only
      rw [if_neg (by simp)]
      rw [A8, A7, B6]
      -- the next layer
      have hSmem : ∀ s, s ∈ ((r0 :: rest).filter
            (fun r => !FileTagger.possible_has_tag_entry fs0 r)).flatMap
            (dirChildPaths fs0) ++
          ((r0 :: rest).filter
            (fun r => FileTagger.possible_has_tag_entry fs0 r)).flatMap
            (dirChildPaths fs0) →
          ∃ r ∈ (r0 :: rest), s ∈ dirChildPaths fs0 r := by
        intro s hs
        rcases List.mem_append.mp hs with h | h
        · obtain ⟨r, hr, hsr⟩ := List.mem_flatMap.mp h
          exact ⟨r, (List.mem_filter.mp hr).1, hsr⟩
        · obtain ⟨r, hr, hsr⟩ := List.mem_flatMap.mp h
          exact ⟨r, (List.mem_filter.mp hr).1, hsr⟩
      have hSfacts : ∀ s ∈ ((r0 :: rest).filter
            (fun r => !FileTagger.possible_has_tag_entry fs0 r)).flatMap
            (dirChildPaths fs0) ++
          ((r0 :: rest).filter
            (fun r => FileTagger.possible_has_tag_entry fs0 r)).flatMap
            (dirChildPaths fs0),
          root <+: s ∧ isDirFS fs0 s = true ∧
            s.length = root.length + (cd + 1) := by
        intro s hs
        obtain ⟨r, hr, hsr⟩ := hSmem s hs
        obtain ⟨⟨c, hsc⟩, hskind⟩ := dirChildPaths_mem hwf0 hsr
        obtain ⟨h1, h2, h3⟩ := HR r hr
        refine ⟨h1.trans (by rw [hsc]; exact List.prefix_append r [c]),
          isDirFS_of_kind_true hskind, ?_⟩
        rw [hsc]
        simp [h3]
        omega
      have hSall : ∀ r ∈ (r0 :: rest), ∀ s ∈ dirChildPaths fs0 r,
          s ∈ ((r0 :: rest).filter
            (fun r => !FileTagger.possible_has_tag_entry fs0 r)).flatMap
            (dirChildPaths fs0) ++
          ((r0 :: rest).filter
            (fun r => FileTagger.possible_has_tag_entry fs0 r)).flatMap
            (dirChildPaths fs0) := by
        intro r hr s hsr
        by_cases hp : FileTagger.possible_has_tag_entry fs0 r = true
        · exact List.mem_append.mpr (Or.inr (List.mem_flatMap.mpr
            ⟨r, List.mem_filter.mpr ⟨hr, by simp [hp]⟩, hsr⟩))
        · have hp' : FileTagger.possible_has_tag_entry fs0 r = false := by
            simpa using hp
          exact List.mem_append.mpr (Or.inl (List.mem_flatMap.mpr
            ⟨r, List.mem_filter.mpr ⟨hr, by simp [hp']⟩, hsr⟩))
      have hmetaother : ∀ d, (∀ e : FPath, d ≠ e ++ [".tag"]) →
          d ∉ (r0 :: rest) →
          dirMeta (phaseB (Tagger.clearDriver fileImpl false)
            ((r0 :: rest).filter
              (fun r => FileTagger.possible_has_tag_entry fs0 r))
            (phaseA (Tagger.clearDriver fileImpl false) (r0 :: rest) g []
              []).1
            (((r0 :: rest).filter
              (fun r => !FileTagger.possible_has_tag_entry fs0 r)).flatMap
              (dirChildPaths fs0))).1 d = dirMeta g d := by
        intro d hd1 hd2
        rw [B4 d (fun hh => hd2 (List.mem_filter.mp hh).1) hd1]
        exact A4 d hd1 hd2
      refine ih _ _ (cd + 1) B1
        (fun q hq => by
          rw [B2 q hq, A2 q hq]
          exact HK q hq)
        (fun q hq => by
          rw [B3 q hq, A3 q hq]
          exact HC q hq)
        hSfacts
        ?_ (by omega) ?_ ?_ ?_
      · -- Nodup of the next layer
        refine List.Nodup.append
          (flatMap_children_nodup hwf0 _ (List.Nodup.filter _ HN))
          (flatMap_children_nodup hwf0 _ (List.Nodup.filter _ HN)) ?_
        intro x hx1 hx2
        obtain ⟨r1, hr1, hxr1⟩ := List.mem_flatMap.mp hx1
        obtain ⟨r2, hr2, hxr2⟩ := List.mem_flatMap.mp hx2
        obtain ⟨⟨c1, hc1⟩, -⟩ := dirChildPaths_mem hwf0 hxr1
        obtain ⟨⟨c2, hc2⟩, -⟩ := dirChildPaths_mem hwf0 hxr2
        have hr12 : r1 = r2 := by
          have e1 : x.dropLast = r1 := by
            rw [hc1]
            exact List.dropLast_concat
          have e2 : x.dropLast = r2 := by
            rw [hc2]
            exact List.dropLast_concat
          rw [← e1, e2]
        have hp1 := (List.mem_filter.mp hr1).2
        have hp2 := (List.mem_filter.mp hr2).2
        rw [hr12] at hp1
        simp at hp1 hp2
        rw [hp1] at hp2
        exact Bool.noConfusion hp2
      · -- H4 for the next layer
        intro d ⟨s, hsS, hsd⟩
        obtain ⟨r, hr, hsr⟩ := hSmem s hsS
        obtain ⟨⟨c, hsc⟩, -⟩ := dirChildPaths_mem hwf0 hsr
        by_cases htag : ∀ e : FPath, d ≠ e ++ [".tag"]
        · have hdnotR : d ∉ (r0 :: rest) := by
            intro hdR
            obtain ⟨-, -, hdlen⟩ := HR d hdR
            obtain ⟨-, -, hrlen⟩ := HR r hr
            have h1 : s.length = r.length + 1 := by
              rw [hsc]
              simp
            have := hsd.length_le
            omega
          rw [hmetaother d htag hdnotR]
          exact H4 d ⟨r, hr, (by rw [hsc]; exact List.prefix_append r [c] :
            r <+: s).trans hsd⟩
        · push_neg at htag
          obtain ⟨e, he⟩ := htag
          subst he
          rw [dirMeta_tagpath B1 e, dirMeta_tagpath hwf0 e]
      · -- H5 for the next layer
        intro d hdroot hnos
        by_cases htag : ∀ e : FPath, d ≠ e ++ [".tag"]
        · by_cases hdR : ∃ r ∈ (r0 :: rest), r <+: d
          · obtain ⟨r, hr, hrd⟩ := hdR
            by_cases hreq : r = d
            · subst hreq
              by_cases hp : FileTagger.possible_has_tag_entry fs0 r = true
              · exact B5 r (List.mem_filter.mpr ⟨hr, by simp [hp]⟩)
              · have hp' : FileTagger.possible_has_tag_entry fs0 r =
                    false := by simpa using hp
                rw [B4 r (fun hh => by
                    have := (List.mem_filter.mp hh).2
                    rw [hp'] at this
                    simp at this) (hguardR r hr)]
                rw [A5 r hr hp']
                rw [H4 r ⟨r, hr, List.prefix_rfl⟩]
                unfold FileTagger.possible_has_tag_entry at hp'
                rw [tag_dir_of_dir (HR r hr).2.1] at hp'
                exact Option.not_isSome_iff_eq_none.mp (by simp [hp'])
            · by_cases hddir : isDirFS fs0 d = true
              · exfalso
                obtain ⟨s, hsch, hsd, -⟩ := step_toward hwf0 hrd hreq hddir
                exact hnos ⟨s, hSall r hr s hsch, hsd⟩
              · have hdnotR : d ∉ (r0 :: rest) := by
                  intro hdR'
                  exact hddir (HR d hdR').2.1
                rw [hmetaother d htag hdnotR]
                apply dirMeta_none_of_not_dir
                intro hgd
                apply hddir
                rw [isDirFS_eq_kind, HK d htag, ← isDirFS_eq_kind] at hgd
                exact hgd
          · have hdnotR : d ∉ (r0 :: rest) :=
              fun hh => hdR ⟨d, hh, List.prefix_rfl⟩
            rw [hmetaother d htag hdnotR]
            exact H5 d hdroot hdR
        · push_neg at htag
          obtain ⟨e, he⟩ := htag
          subst he
          exact dirMeta_tagpath B1 e
      · -- H6 for the next layer
        intro d hdroot
        by_cases htag : ∀ e : FPath, d ≠ e ++ [".tag"]
        · have hdnotR : d ∉ (r0 :: rest) := by
            intro hdR
            exact hdroot (HR d hdR).1
          rw [hmetaother d htag hdnotR]
          exact H6 d hdroot
        · push_neg at htag
          obtain ⟨e, he⟩ := htag
          subst he
          rw [dirMeta_tagpath B1 e, dirMeta_tagpath hwf0 e]


/-! ## Per-key effects of an empty `_write_tags`

The recursive clear issues only `_write_tags(p, [])` operations.  Such a
write never adds a mapping entry, never creates a sidecar, and never turns
anything into a directory; and it always removes the entry keyed by the
written path from the sidecar covering it.  These four facts drive the
`top_only = False` characterisation. -/

theorem metaLookup_nil (q : FPath) : metaLookup [] q = none := rfl

theorem metaLookup_erase_none {m : TagMeta} {k q : FPath}
    (h : metaLookup m q = none) : metaLookup (metaErase m k) q = none := by
  unfold metaLookup at h
  unfold metaLookup metaErase
  cases hf : m.find? (fun e => e.1 = q) with
  | none =>
    cases hf2 : (m.filter (fun e => ¬ e.1 = k)).find? (fun e => e.1 = q) with
    | none => rfl
    | some e =>
      have hmem : e ∈ m.filter (fun e => ¬ e.1 = k) :=
        List.mem_of_find?_eq_some hf2
      have hpred := List.find?_some hf2
      have := List.find?_eq_none.mp hf e (List.mem_of_mem_filter hmem)
      exact absurd hpred this
  | some e =>
    rw [hf] at h
    simp at h

theorem write_empty_lookup_none {g : FSNode} (hw : namesOK g = true)
    (p D q : FPath)
    (h : metaLookup ((dirMeta g D).getD []) q = none) :
    metaLookup ((dirMeta (FileTagger.write_tags g p []).1 D).getD []) q =
      none := by
  rw [write_tags_eq_erase]
  by_cases hme : (metaErase (FileTagger.read_tag_meta g p) p).isEmpty = true
  · by_cases hs :
        (dirMeta g (FileTagger.tag_dir_of g p)).isSome = true
    · rw [write_tag_meta_eq_del g p _ hme hs]
      by_cases hD1 : D = FileTagger.tag_dir_of g p
      · subst hD1
        rw [dirMeta_setMetaNode_self none _ g (dirMeta_isSome_isDir hs)]
        exact metaLookup_nil q
      · by_cases hD2 : D = FileTagger.tag_dir_of g p ++ [".tag"]
        · subst hD2
          rw [show dirMeta (setMetaNode g (FileTagger.tag_dir_of g p) none)
              (FileTagger.tag_dir_of g p ++ [".tag"]) = none from
            dirMeta_tagpath (by rw [namesOK_setMetaNode]; exact hw) _]
          exact metaLookup_nil q
        · rw [dirMeta_setMetaNode_other none _ g D hD1 hD2]
          exact h
    · rw [write_tag_meta_eq_keep g p _ hme hs]
      exact h
  · by_cases hdir : isDirFS g (FileTagger.tag_dir_of g p) = true
    · rw [write_tag_meta_eq_set g p _ hme hdir]
      by_cases hD1 : D = FileTagger.tag_dir_of g p
      · subst hD1
        rw [dirMeta_setMetaNode_self _ _ g hdir]
        simp only [Option.getD_some]
        unfold FileTagger.read_tag_meta
        by_cases hq : q = p
        · subst hq
          exact metaLookup_metaErase _ q
        · exact metaLookup_erase_none h
      · by_cases hD2 : D = FileTagger.tag_dir_of g p ++ [".tag"]
        · subst hD2
          rw [show dirMeta (setMetaNode g (FileTagger.tag_dir_of g p)
              (some (metaErase (FileTagger.read_tag_meta g p) p)))
              (FileTagger.tag_dir_of g p ++ [".tag"]) = none from
            dirMeta_tagpath (by rw [namesOK_setMetaNode]; exact hw) _]
          exact metaLookup_nil q
        · rw [dirMeta_setMetaNode_other _ _ g D hD1 hD2]
          exact h
    · rw [write_tag_meta_eq_fail g p _ hme hdir]
      exact h

theorem write_empty_meta_none {g : FSNode} (hw : namesOK g = true)
    (p D : FPath) (h : dirMeta g D = none) :
    dirMeta (FileTagger.write_tags g p []).1 D = none := by
  rw [write_tags_eq_erase]
  by_cases hme : (metaErase (FileTagger.read_tag_meta g p) p).isEmpty = true
  · by_cases hs :
        (dirMeta g (FileTagger.tag_dir_of g p)).isSome = true
    · rw [write_tag_meta_eq_del g p _ hme hs]
      by_cases hD1 : D = FileTagger.tag_dir_of g p
      · subst hD1
        exact dirMeta_setMetaNode_self none _ g (dirMeta_isSome_isDir hs)
      · by_cases hD2 : D = FileTagger.tag_dir_of g p ++ [".tag"]
        · subst hD2
          exact dirMeta_tagpath (by rw [namesOK_setMetaNode]; exact hw) _
        · rw [dirMeta_setMetaNode_other none _ g D hD1 hD2]
          exact h
    · rw [write_tag_meta_eq_keep g p _ hme hs]
      exact h
  · by_cases hdir : isDirFS g (FileTagger.tag_dir_of g p) = true
    · rw [write_tag_meta_eq_set g p _ hme hdir]
      by_cases hD1 : D = FileTagger.tag_dir_of g p
      · exfalso
        apply hme
        subst hD1
        unfold FileTagger.read_tag_meta
        rw [h]
        rfl
      · by_cases hD2 : D = FileTagger.tag_dir_of g p ++ [".tag"]
        · subst hD2
          exact dirMeta_tagpath (by rw [namesOK_setMetaNode]; exact hw) _
        · rw [dirMeta_setMetaNode_other _ _ g D hD1 hD2]
          exact h
    · rw [write_tag_meta_eq_fail g p _ hme hdir]
      exact h

theorem write_empty_self {g : FSNode} (p : FPath) :
    metaLookup ((dirMeta (FileTagger.write_tags g p []).1
      (FileTagger.tag_dir_of g p)).getD []) p = none := by
  rw [write_tags_eq_erase]
  by_cases hme : (metaErase (FileTagger.read_tag_meta g p) p).isEmpty = true
  · by_cases hs :
        (dirMeta g (FileTagger.tag_dir_of g p)).isSome = true
    · rw [write_tag_meta_eq_del g p _ hme hs]
      rw [dirMeta_setMetaNode_self none _ g (dirMeta_isSome_isDir hs)]
      exact metaLookup_nil p
    · rw [write_tag_meta_eq_keep g p _ hme hs]
      rw [Option.not_isSome_iff_eq_none.mp hs]
      exact metaLookup_nil p
  · by_cases hdir : isDirFS g (FileTagger.tag_dir_of g p) = true
    · rw [write_tag_meta_eq_set g p _ hme hdir]
      rw [dirMeta_setMetaNode_self _ _ g hdir]
      simp only [Option.getD_some]
      exact metaLookup_metaErase _ p
    · rw [write_tag_meta_eq_fail g p _ hme hdir]
      rw [dirMeta_none_of_not_dir (by simpa using hdir)]
      exact metaLookup_nil p

theorem write_empty_not_dir {g : FSNode} (hw : namesOK g = true)
    (p q : FPath) (h : isDirFS g q = false) :
    isDirFS (FileTagger.write_tags g p []).1 q = false := by
  rcases write_tags_cases g p [] with hid | ⟨m', heq, hdir⟩
  · rw [hid]
    exact h
  · rw [heq]
    by_cases hq : q = FileTagger.tag_dir_of g p ++ [".tag"]
    · subst hq
      rw [isDirFS_eq_match, kindAt_setMetaNode_tag m' _ g hw hdir]
      by_cases hm : m'.isSome = true
      · rw [if_pos hm]
      · rw [if_neg hm]
    · rw [isDirFS_congr (kindAt_setMetaNode m' _ g q hq)]
      exact h

/-- Per-key effect of the expansion loop over one directory's scandir
entries under the full clear (`top_only = False`): the entry keyed by every
yielded file candidate is removed from the sidecar of the hosting directory
`t`, previously-absent keys and previously-absent sidecars stay absent,
kinds and children are untouched away from sidecar paths, and the next
roots collect exactly the old roots plus the directory entries. -/
theorem clearEntriesK (t : FPath) :
    ∀ (L : List (FPath × Bool)) (g : FSNode) (roots : List FPath),
    namesOK g = true →
    isDirFS g t = true →
    (∀ e ∈ L, e.2 = false → e.1.dropLast = t ∧
      (isFileFS g e.1 = true ∨ e.1 = t ++ [".tag"])) →
    namesOK (phaseBEntries (Tagger.clearDriver fileImpl false) L g
      roots).1 = true ∧
    (∀ q, (∀ e : FPath, q ≠ e ++ [".tag"]) →
      kindAt (phaseBEntries (Tagger.clearDriver fileImpl false) L g
        roots).1 q = kindAt g q) ∧
    (∀ q, (∀ e : FPath, q ≠ e ++ [".tag"]) →
      dirChildPaths (phaseBEntries (Tagger.clearDriver fileImpl false) L g
        roots).1 q = dirChildPaths g q) ∧
    (∀ D q, metaLookup ((dirMeta g D).getD []) q = none →
      metaLookup ((dirMeta (phaseBEntries (Tagger.clearDriver fileImpl
        false) L g roots).1 D).getD []) q = none) ∧
    (∀ D, dirMeta g D = none →
      dirMeta (phaseBEntries (Tagger.clearDriver fileImpl false) L g
        roots).1 D = none) ∧
    (∀ q, isDirFS g q = false →
      isDirFS (phaseBEntries (Tagger.clearDriver fileImpl false) L g
        roots).1 q = false) ∧
    (∀ e ∈ L, e.2 = false →
      metaLookup ((dirMeta (phaseBEntries (Tagger.clearDriver fileImpl
        false) L g roots).1 t).getD []) e.1 = none) ∧
    (∀ x ∈ roots, x ∈ (phaseBEntries (Tagger.clearDriver fileImpl false) L
      g roots).2) ∧
    (∀ e ∈ L, e.2 = true → e.1 ∈ (phaseBEntries (Tagger.clearDriver
      fileImpl false) L g roots).2) ∧
    (∀ x ∈ (phaseBEntries (Tagger.clearDriver fileImpl false) L g
        roots).2,
      x ∈ roots ∨ ∃ e ∈ L, e.2 = true ∧ x = e.1) := by
  intro L
  induction L with
  | nil =>
    intro g roots hw ht hsh
    refine ⟨hw, fun q _ => rfl, fun q _ => rfl, fun D q h => h,
      fun D h => h, fun q h => h, fun e he => absurd he (by simp),
      fun x hx => hx, fun e he => absurd he (by simp),
      fun x hx => Or.inl hx⟩
  | cons e0 rest ih =>
    intro g roots hw ht hsh
    by_cases hb : e0.2 = true
    · -- directory entry: state unchanged, e0.1 appended to the roots
      unfold phaseBEntries
      rw [if_pos hb]
      obtain ⟨I1, I2, I3, I4, I5, I6, I7, I8, I9, I10⟩ :=
        ih g (roots ++ [e0.1]) hw ht
          (fun e he hf => hsh e (List.mem_cons_of_mem e0 he) hf)
      refine ⟨I1, I2, I3, I4, I5, I6, ?_, ?_, ?_, ?_⟩
      · intro e he hf
        rcases List.mem_cons.mp he with rfl | he'
        · rw [hf] at hb
          exact Bool.noConfusion hb
        · exact I7 e he' hf
      · intro x hx
        exact I8 x (List.mem_append.mpr (Or.inl hx))
      · intro e he hf
        rcases List.mem_cons.mp he with rfl | he'
        · exact I8 e.1 (List.mem_append.mpr (Or.inr (by simp)))
        · exact I9 e he' hf
      · intro x hx
        rcases I10 x hx with hx' | ⟨e, he, hf, hxe⟩
        · rcases List.mem_append.mp hx' with h | h
          · exact Or.inl h
          · exact Or.inr ⟨e0, by simp, hb, by simpa using h⟩
        · exact Or.inr ⟨e, List.mem_cons_of_mem e0 he, hf, hxe⟩
    · -- file entry: it is cleared
      have hb' : e0.2 = false := by simpa using hb
      obtain ⟨hdrop, hkind⟩ := hsh e0 (by simp) hb'
      unfold phaseBEntries
      rw [if_neg (by simp [hb'])]
      rw [show (Tagger.clearDriver fileImpl false).onFile g e0.1 =
        (FileTagger.write_tags g e0.1 []).1 from rfl]
      by_cases hf0 : isFileFS g e0.1 = true
      · -- a real file (or a still-present sidecar entry)
        have htd : FileTagger.tag_dir_of g e0.1 = t := by
          unfold FileTagger.tag_dir_of
          rw [if_pos hf0, hdrop]
        have hw' : namesOK (FileTagger.write_tags g e0.1 []).1 = true := by
          rw [write_tags_namesOK]
          exact hw
        have ht' : isDirFS (FileTagger.write_tags g e0.1 []).1 t = true := by
          rw [isDirFS_congr (write_tags_kindAt g e0.1 [] t
            (by rw [htd]; exact isDir_not_tagpath hw ht t))]
          exact ht
        have hsh' : ∀ e ∈ rest, e.2 = false → e.1.dropLast = t ∧
            (isFileFS (FileTagger.write_tags g e0.1 []).1 e.1 = true ∨
              e.1 = t ++ [".tag"]) := by
          intro e he hf
          obtain ⟨hd1, hd2⟩ := hsh e (List.mem_cons_of_mem e0 he) hf
          refine ⟨hd1, ?_⟩
          rcases hd2 with hfile | htag
          · by_cases het : e.1 = t ++ [".tag"]
            · exact Or.inr het
            · refine Or.inl ?_
              rw [isFileFS_congr (write_tags_kindAt g e0.1 [] e.1
                (by rw [htd]; exact het))]
              exact hfile
          · exact Or.inr htag
        obtain ⟨I1, I2, I3, I4, I5, I6, I7, I8, I9, I10⟩ :=
          ih (FileTagger.write_tags g e0.1 []).1 roots hw' ht' hsh'
        refine ⟨I1, ?_, ?_, ?_, ?_, ?_, ?_, I8, ?_, ?_⟩
        · intro q hq
          rw [I2 q hq]
          exact write_tags_kindAt g e0.1 [] q (by rw [htd]; exact hq t)
        · intro q hq
          rw [I3 q hq]
          exact write_tags_dirChildPaths g e0.1 [] q
            (by rw [htd]; exact hq t)
        · intro D q h
          exact I4 D q (write_empty_lookup_none hw e0.1 D q h)
        · intro D h
          exact I5 D (write_empty_meta_none hw e0.1 D h)
        · intro q h
          exact I6 q (write_empty_not_dir hw e0.1 q h)
        · intro e he hf
          rcases List.mem_cons.mp he with rfl | he'
          · refine I4 t e.1 ?_
            rw [← htd]
            exact write_empty_self e.1
          · exact I7 e he' hf
        · intro e he hf
          rcases List.mem_cons.mp he with rfl | he'
          · rw [hf] at hb'
            exact Bool.noConfusion hb'
          · exact I9 e he' hf
        · intro x hx
          rcases I10 x hx with h | ⟨e, he, hf, hxe⟩
          · exact Or.inl h
          · exact Or.inr ⟨e, List.mem_cons_of_mem e0 he, hf, hxe⟩
      · -- a stale `.tag` entry whose sidecar is already gone: the write is
        -- a no-op and the key's sidecar holds nothing
        have htag : e0.1 = t ++ [".tag"] := by
          rcases hkind with hfile | htag
          · exact absurd hfile hf0
          · exact htag
        have hf0' : isFileFS g e0.1 = false := by simpa using hf0
        have hnone : dirMeta g t = none := by
          have h1 := tagfile_iff hw ht
          rw [← htag, hf0'] at h1
          exact Option.not_isSome_iff_eq_none.mp (by simp [← h1])
        have hnoop : (FileTagger.write_tags g e0.1 []).1 = g := by
          rw [htag]
          exact write_noop_stale_tag hw (by rw [← htag]; exact hf0')
        rw [hnoop]
        obtain ⟨I1, I2, I3, I4, I5, I6, I7, I8, I9, I10⟩ :=
          ih g roots hw ht
            (fun e he hf => hsh e (List.mem_cons_of_mem e0 he) hf)
        refine ⟨I1, I2, I3, I4, I5, I6, ?_, I8, ?_, ?_⟩
        · intro e he hf
          rcases List.mem_cons.mp he with rfl | he'
          · rw [I5 t hnone]
            exact metaLookup_nil e.1
          · exact I7 e he' hf
        · intro e he hf
          rcases List.mem_cons.mp he with rfl | he'
          · rw [hf] at hb'
            exact Bool.noConfusion hb'
          · exact I9 e he' hf
        · intro x hx
          rcases I10 x hx with h | ⟨e, he, hf, hxe⟩
          · exact Or.inl h
          · exact Or.inr ⟨e, List.mem_cons_of_mem e0 he, hf, hxe⟩

theorem dirChild_scandir_mem {g : FSNode} {t c : FPath}
    (h : c ∈ dirChildPaths g t) : (c, true) ∈ scandirFS g t := by
  unfold dirChildPaths at h
  obtain ⟨e, he, hee⟩ := List.mem_map.mp h
  obtain ⟨hmem, hflt⟩ := List.mem_filter.mp he
  have h2 : e.2 = true := by simpa using hflt
  have h3 : e = (c, true) := by
    calc e = (e.1, e.2) := rfl
    _ = (c, true) := by rw [hee, h2]
  rw [h3] at hmem
  exact hmem

theorem scandir_dirChild_mem {g : FSNode} {t c : FPath}
    (h : (c, true) ∈ scandirFS g t) : c ∈ dirChildPaths g t := by
  unfold dirChildPaths
  exact List.mem_map.mpr ⟨(c, true), List.mem_filter.mpr ⟨h, by simp⟩, rfl⟩

theorem child_ne_tagpath {t : FPath} {c : String} (hc : c ≠ ".tag") :
    ∀ e : FPath, t ++ [c] ≠ e ++ [".tag"] := by
  intro e heq
  apply hc
  have hlen : t.length = e.length := by
    have := congrArg List.length heq
    simpa using this
  obtain ⟨h1, h2⟩ := List.append_inj heq hlen
  simpa using h2

/-- Per-key effect of the whole expansion phase under the full clear: every
file candidate inside each expanded directory — including a still-present
sidecar entry — has its mapping entry removed from that directory's
sidecar, absence of keys/sidecars is preserved, and the next layer's roots
collect exactly the incoming roots plus the subdirectories of the expanded
directories. -/
theorem clearBK : ∀ (T : List FPath) (g : FSNode) (roots : List FPath),
    namesOK g = true →
    (∀ t ∈ T, isDirFS g t = true) →
    namesOK (phaseB (Tagger.clearDriver fileImpl false) T g roots).1 =
      true ∧
    (∀ q, (∀ e : FPath, q ≠ e ++ [".tag"]) →
      kindAt (phaseB (Tagger.clearDriver fileImpl false) T g roots).1 q =
        kindAt g q) ∧
    (∀ q, (∀ e : FPath, q ≠ e ++ [".tag"]) →
      dirChildPaths (phaseB (Tagger.clearDriver fileImpl false) T g
        roots).1 q = dirChildPaths g q) ∧
    (∀ D q, metaLookup ((dirMeta g D).getD []) q = none →
      metaLookup ((dirMeta (phaseB (Tagger.clearDriver fileImpl false) T g
        roots).1 D).getD []) q = none) ∧
    (∀ D, dirMeta g D = none →
      dirMeta (phaseB (Tagger.clearDriver fileImpl false) T g roots).1 D =
        none) ∧
    (∀ t ∈ T, ∀ c : String, c ≠ ".tag" →
      kindAt g (t ++ [c]) = some false →
      metaLookup ((dirMeta (phaseB (Tagger.clearDriver fileImpl false) T g
        roots).1 t).getD []) (t ++ [c]) = none) ∧
    (∀ t ∈ T,
      metaLookup ((dirMeta (phaseB (Tagger.clearDriver fileImpl false) T g
        roots).1 t).getD []) (t ++ [".tag"]) = none) ∧
    (∀ x ∈ roots, x ∈ (phaseB (Tagger.clearDriver fileImpl false) T g
      roots).2) ∧
    (∀ t ∈ T, ∀ c ∈ dirChildPaths g t,
      c ∈ (phaseB (Tagger.clearDriver fileImpl false) T g roots).2) ∧
    (∀ x ∈ (phaseB (Tagger.clearDriver fileImpl false) T g roots).2,
      x ∈ roots ∨ ∃ t ∈ T, x ∈ dirChildPaths g t) := by
  intro T
  induction T with
  | nil =>
    intro g roots hw hd
    refine ⟨hw, fun q _ => rfl, fun q _ => rfl, fun D q h => h,
      fun D h => h, fun t ht => absurd ht (by simp),
      fun t ht => absurd ht (by simp), fun x hx => hx,
      fun t ht => absurd ht (by simp), fun x hx => Or.inl hx⟩
  | cons t0 rest ih =>
    intro g roots hw hd
    have ht0 : isDirFS g t0 = true := hd t0 (by simp)
    unfold phaseB
    rw [show (Tagger.clearDriver fileImpl false).getFs g = g from rfl]
    have hsh : ∀ e ∈ scandirFS g t0, e.2 = false → e.1.dropLast = t0 ∧
        (isFileFS g e.1 = true ∨ e.1 = t0 ++ [".tag"]) := by
      intro e he hf
      obtain ⟨⟨c, hc⟩, hk⟩ := scandir_mem hw he
      rw [hf] at hk
      refine ⟨by rw [hc]; exact List.dropLast_concat, ?_⟩
      exact Or.inl (isFileFS_of_kind_false hk)
    obtain ⟨E1, E2, E3, E4, E5, E6, E7, E8, E9, E10⟩ :=
      clearEntriesK t0 (scandirFS g t0) g roots hw ht0 hsh
    have hdrest : ∀ t ∈ rest,
        isDirFS (phaseBEntries (Tagger.clearDriver fileImpl false)
          (scandirFS g t0) g roots).1 t = true := by
      intro t ht
      have hdt := hd t (List.mem_cons_of_mem t0 ht)
      rw [isDirFS_congr (E2 t (isDir_not_tagpath hw hdt))]
      exact hdt
    obtain ⟨I1, I2, I3, I4, I5, I6, I7, I8, I9, I10⟩ :=
      ih (phaseBEntries (Tagger.clearDriver fileImpl false)
          (scandirFS g t0) g roots).1
        (phaseBEntries (Tagger.clearDriver fileImpl false)
          (scandirFS g t0) g roots).2 E1 hdrest
    refine ⟨I1, ?_, ?_, ?_, ?_, ?_, ?_, ?_, ?_, ?_⟩
    · intro q hq
      rw [I2 q hq]
      exact E2 q hq
    · intro q hq
      rw [I3 q hq]
      exact E3 q hq
    · intro D q h
      exact I4 D q (E4 D q h)
    · intro D h
      exact I5 D (E5 D h)
    · intro t ht c hc hk
      rcases List.mem_cons.mp ht with rfl | ht'
      · refine I4 t (t ++ [c]) ?_
        exact E7 (t ++ [c], false)
          (fileChild_mem hw t c hc hk) rfl
      · refine I6 t ht' c hc ?_
        rw [E2 (t ++ [c]) (child_ne_tagpath hc)]
        exact hk
    · intro t ht
      rcases List.mem_cons.mp ht with rfl | ht'
      · by_cases hm : (dirMeta g t).isSome = true
        · refine I4 t (t ++ [".tag"]) ?_
          exact E7 (t ++ [".tag"], false) (tag_entry_mem ht0 hm) rfl
        · have hmn : dirMeta g t = none :=
            Option.not_isSome_iff_eq_none.mp (by simpa using hm)
          rw [I5 t (E5 t hmn)]
          exact metaLookup_nil _
      · exact I7 t ht'
    · intro x hx
      exact I8 x (E8 x hx)
    · intro t ht c hc
      rcases List.mem_cons.mp ht with rfl | ht'
      · exact I8 c (E9 (c, true) (dirChild_scandir_mem hc) rfl)
      · refine I9 t ht' c ?_
        rw [E3 t (isDir_not_tagpath hw (hd t (List.mem_cons_of_mem t0
          ht')))]
        exact hc
    · intro x hx
      rcases I10 x hx with h | ⟨t, ht, hchild⟩
      · rcases E10 x h with h' | ⟨e, he, hf, hxe⟩
        · exact Or.inl h'
        · refine Or.inr ⟨t0, by simp, ?_⟩
          subst hxe
          have he2 : e = (e.1, true) := by
            calc e = (e.1, e.2) := rfl
            _ = (e.1, true) := by rw [hf]
          rw [he2] at he
          exact scandir_dirChild_mem he
      · refine Or.inr ⟨t, List.mem_cons_of_mem t0 ht, ?_⟩
        rw [E3 t (isDir_not_tagpath hw (hd t (List.mem_cons_of_mem t0
          ht)))] at hchild
        exact hchild


/-- Per-key effect of the candidate phase under the full clear: every
pending directory gets its own mapping entry removed from its own sidecar
(a probe-negative directory had no sidecar to begin with), and each one is
routed either into the expansion queue (probe positive) or — with its
sidecar still absent — its subdirectories into the next layer's roots
(probe negative). -/
theorem clearAK : ∀ (R : List FPath) (g : FSNode) (sub tmp : List FPath),
    namesOK g = true →
    (∀ r ∈ R, isDirFS g r = true) →
    namesOK (phaseA (Tagger.clearDriver fileImpl false) R g sub tmp).1 =
      true ∧
    (∀ q, (∀ e : FPath, q ≠ e ++ [".tag"]) →
      kindAt (phaseA (Tagger.clearDriver fileImpl false) R g sub tmp).1 q =
        kindAt g q) ∧
    (∀ q, (∀ e : FPath, q ≠ e ++ [".tag"]) →
      dirChildPaths (phaseA (Tagger.clearDriver fileImpl false) R g sub
        tmp).1 q = dirChildPaths g q) ∧
    (∀ D q, metaLookup ((dirMeta g D).getD []) q = none →
      metaLookup ((dirMeta (phaseA (Tagger.clearDriver fileImpl false) R g
        sub tmp).1 D).getD []) q = none) ∧
    (∀ D, dirMeta g D = none →
      dirMeta (phaseA (Tagger.clearDriver fileImpl false) R g sub tmp).1
        D = none) ∧
    (∀ r ∈ R,
      metaLookup ((dirMeta (phaseA (Tagger.clearDriver fileImpl false) R g
        sub tmp).1 r).getD []) r = none) ∧
    (∀ r ∈ R,
      r ∈ (phaseA (Tagger.clearDriver fileImpl false) R g sub tmp).2.2 ∨
      (dirMeta (phaseA (Tagger.clearDriver fileImpl false) R g sub tmp).1
          r = none ∧
        ∀ c ∈ dirChildPaths g r,
          c ∈ (phaseA (Tagger.clearDriver fileImpl false) R g sub
            tmp).2.1)) ∧
    (∀ x ∈ sub,
      x ∈ (phaseA (Tagger.clearDriver fileImpl false) R g sub tmp).2.1) ∧
    (∀ x ∈ (phaseA (Tagger.clearDriver fileImpl false) R g sub tmp).2.1,
      x ∈ sub ∨ ∃ r ∈ R, x ∈ dirChildPaths g r) ∧
    (∀ x ∈ (phaseA (Tagger.clearDriver fileImpl false) R g sub tmp).2.2,
      x ∈ tmp ∨ x ∈ R) ∧
    (∀ x ∈ tmp,
      x ∈ (phaseA (Tagger.clearDriver fileImpl false) R g sub
        tmp).2.2) := by
  intro R
  induction R with
  | nil =>
    intro g sub tmp hw hd
    refine ⟨hw, fun q _ => rfl, fun q _ => rfl, fun D q h => h,
      fun D h => h, fun r hr => absurd hr (by simp),
      fun r hr => absurd hr (by simp), fun x hx => hx,
      fun x hx => Or.inl hx, fun x hx => Or.inl hx, fun x hx => hx⟩
  | cons r0 rest ih =>
    intro g sub tmp hw hd
    have hr0 : isDirFS g r0 = true := hd r0 (by simp)
    have htd0 : FileTagger.tag_dir_of g r0 = r0 := tag_dir_of_dir hr0
    have hnotag : ∀ e : FPath, r0 ≠ e ++ [".tag"] :=
      fun e => isDir_not_tagpath hw hr0 e
    unfold phaseA
    by_cases hp : FileTagger.possible_has_tag_entry g r0 = true
    · -- probe positive: the directory's own entry is cleared and it is
      -- queued for expansion
      rw [if_pos (show (Tagger.clearDriver fileImpl false).probeD g r0 =
          true from hp)]
      simp only [show (Tagger.clearDriver fileImpl false).onDir g r0 =
        ((FileTagger.write_tags g r0 []).1, false) from rfl,
        Bool.false_eq_true, if_false]
      have hw' : namesOK (FileTagger.write_tags g r0 []).1 = true := by
        rw [write_tags_namesOK]
        exact hw
      have Wkind : ∀ q, (∀ e : FPath, q ≠ e ++ [".tag"]) →
          kindAt (FileTagger.write_tags g r0 []).1 q = kindAt g q :=
        fun q hq => write_tags_kindAt g r0 [] q (by rw [htd0]; exact hq r0)
      have Wchild : ∀ q, (∀ e : FPath, q ≠ e ++ [".tag"]) →
          dirChildPaths (FileTagger.write_tags g r0 []).1 q =
            dirChildPaths g q :=
        fun q hq =>
          write_tags_dirChildPaths g r0 [] q (by rw [htd0]; exact hq r0)
      have hd' : ∀ r ∈ rest,
          isDirFS (FileTagger.write_tags g r0 []).1 r = true := by
        intro r hr
        have hdr := hd r (List.mem_cons_of_mem r0 hr)
        rw [isDirFS_congr (Wkind r (fun e => isDir_not_tagpath hw hdr e))]
        exact hdr
      obtain ⟨I1, I2, I3, I4, I5, I6, I7, I8, I9, I10, I11⟩ :=
        ih (FileTagger.write_tags g r0 []).1 sub (tmp ++ [r0]) hw' hd'
      refine ⟨I1, ?_, ?_, ?_, ?_, ?_, ?_, I8, ?_, ?_, ?_⟩
      · intro q hq
        rw [I2 q hq]
        exact Wkind q hq
      · intro q hq
        rw [I3 q hq]
        exact Wchild q hq
      · intro D q h
        exact I4 D q (write_empty_lookup_none hw r0 D q h)
      · intro D h
        exact I5 D (write_empty_meta_none hw r0 D h)
      · intro r hr
        rcases List.mem_cons.mp hr with rfl | hr'
        · refine I4 r r ?_
          have hws := @write_empty_self g r
          rw [htd0] at hws
          exact hws
        · exact I6 r hr'
      · intro r hr
        rcases List.mem_cons.mp hr with rfl | hr'
        · exact Or.inl (I11 r (List.mem_append.mpr (Or.inr (by simp))))
        · rcases I7 r hr' with h | ⟨hnone, hroute⟩
          · exact Or.inl h
          · refine Or.inr ⟨hnone, ?_⟩
            intro c hc
            refine hroute c ?_
            rw [Wchild r (fun e => isDir_not_tagpath hw
              (hd r (List.mem_cons_of_mem r0 hr')) e)]
            exact hc
      · intro x hx
        rcases I9 x hx with h | ⟨r, hr, hchild⟩
        · exact Or.inl h
        · refine Or.inr ⟨r, List.mem_cons_of_mem r0 hr, ?_⟩
          rw [Wchild r (fun e => isDir_not_tagpath hw
            (hd r (List.mem_cons_of_mem r0 hr)) e)] at hchild
          exact hchild
      · intro x hx
        rcases I10 x hx with h | h
        · rcases List.mem_append.mp h with h' | h'
          · exact Or.inl h'
          · exact Or.inr (by simp at h'; simp [h'])
        · exact Or.inr (List.mem_cons_of_mem r0 h)
      · intro x hx
        exact I11 x (List.mem_append.mpr (Or.inl hx))
    · -- probe negative: the directory had no sidecar; its subdirectories
      -- go to the next layer's roots
      have hp' : FileTagger.possible_has_tag_entry g r0 = false := by
        simpa using hp
      have hm0 : dirMeta g r0 = none := by
        unfold FileTagger.possible_has_tag_entry at hp'
        rw [htd0] at hp'
        exact Option.not_isSome_iff_eq_none.mp (by simp [hp'])
      rw [if_neg (show ¬ (Tagger.clearDriver fileImpl false).probeD g r0 =
          true from by
          rw [show (Tagger.clearDriver fileImpl false).probeD g r0 =
            FileTagger.possible_has_tag_entry g r0 from rfl, hp']
          simp)]
      simp only [show (Tagger.clearDriver fileImpl false).getFs g = g
        from rfl]
      obtain ⟨I1, I2, I3, I4, I5, I6, I7, I8, I9, I10, I11⟩ :=
        ih g (sub ++ dirChildPaths g r0) tmp hw
          (fun r hr => hd r (List.mem_cons_of_mem r0 hr))
      refine ⟨I1, I2, I3, I4, I5, ?_, ?_, ?_, ?_, ?_, I11⟩
      · intro r hr
        rcases List.mem_cons.mp hr with rfl | hr'
        · refine I4 r r ?_
          rw [hm0]
          exact metaLookup_nil r
        · exact I6 r hr'
      · intro r hr
        rcases List.mem_cons.mp hr with rfl | hr'
        · refine Or.inr ⟨I5 r hm0, ?_⟩
          intro c hc
          exact I8 c (List.mem_append.mpr (Or.inr hc))
        · exact (I7 r hr').imp id (fun h => h)
      · intro x hx
        exact I8 x (List.mem_append.mpr (Or.inl hx))
      · intro x hx
        rcases I9 x hx with h | ⟨r, hr, hchild⟩
        · rcases List.mem_append.mp h with h' | h'
          · exact Or.inl h'
          · exact Or.inr ⟨r0, by simp, h'⟩
        · exact Or.inr ⟨r, List.mem_cons_of_mem r0 hr, hchild⟩
      · intro x hx
        exact (I10 x hx).imp id (List.mem_cons_of_mem r0)

/-- The full recursive clear (`top_only = False`), run to exhaustion: every
existing path under `root` that the depth bound admits ends up with no
mapping entry keyed by it in the sidecar covering it.  The invariants say
that the pending queue holds exactly the still-unprocessed directories of
the current layer (`HCOV`), and that everything of the already-processed
layers has had its key removed (`HDONE`). -/
theorem clearAllRunK (fs0 : FSNode) (root : FPath)
    (hwf0 : namesOK fs0 = true) :
    ∀ (fuel : Nat) (g : FSNode) (R : List FPath) (cd : Nat)
      (depth : Option Nat),
    namesOK g = true →
    (∀ q, (∀ e : FPath, q ≠ e ++ [".tag"]) → kindAt g q = kindAt fs0 q) →
    (∀ q, (∀ e : FPath, q ≠ e ++ [".tag"]) →
      dirChildPaths g q = dirChildPaths fs0 q) →
    (∀ r ∈ R, root <+: r ∧ isDirFS fs0 r = true ∧
      r.length = root.length + cd) →
    heightFS fs0 + 1 ≤ fuel + cd →
    (∀ q, root <+: q → existsFS fs0 q = true →
      root.length + cd ≤ q.length →
      (isDirFS fs0 q = true ∨ root.length + cd < q.length) →
      q.take (root.length + cd) ∈ R) →
    (∀ q, root <+: q → existsFS fs0 q = true →
      (∀ m, depth = some m → q.length ≤ root.length + m) →
      (q.length < root.length + cd ∨
        (q.length = root.length + cd ∧ isDirFS fs0 q = false)) →
      metaLookup ((dirMeta g (FileTagger.tag_dir_of fs0 q)).getD []) q =
        none) →
    namesOK (runLayers (Tagger.clearDriver fileImpl false) fuel g R [] cd
      depth) = true ∧
    (∀ q, (∀ e : FPath, q ≠ e ++ [".tag"]) →
      kindAt (runLayers (Tagger.clearDriver fileImpl false) fuel g R [] cd
        depth) q = kindAt fs0 q) ∧
    (∀ q, root <+: q → existsFS fs0 q = true →
      (∀ m, depth = some m → q.length ≤ root.length + m) →
      metaLookup ((dirMeta (runLayers (Tagger.clearDriver fileImpl false)
        fuel g R [] cd depth) (FileTagger.tag_dir_of fs0 q)).getD []) q =
        none) := by
  intro fuel
  induction fuel with
  | zero =>
    intro g R cd depth HW HK HC HR HF HCOV HDONE
    have hRnil : R = [] := by
      cases R with
      | nil => rfl
      | cons r0 rest =>
        obtain ⟨-, hdir, hlen⟩ := HR r0 (by simp)
        have hk := kind_true_of_isDirFS hdir
        unfold kindAt at hk
        cases hl : lookupNode fs0 r0 with
        | none =>
          rw [hl] at hk
          simp at hk
        | some nd =>
          have := heightFS_lookup r0 fs0 nd hl
          omega
    subst hRnil
    refine ⟨HW, HK, ?_⟩
    intro q hpre hex hwd
    rcases Nat.lt_trichotomy q.length (root.length + cd) with hlt | heq1 |
      hgt
    · exact HDONE q hpre hex hwd (Or.inl hlt)
    · by_cases hdq : isDirFS fs0 q = true
      · exact absurd (HCOV q hpre hex (by omega) (Or.inl hdq)) (by simp)
      · exact HDONE q hpre hex hwd
          (Or.inr ⟨heq1, by simpa using hdq⟩)
    · exact absurd (HCOV q hpre hex (by omega) (Or.inr hgt)) (by simp)
  | succ fuel ih =>
    intro g R cd depth HW HK HC HR HF HCOV HDONE
    cases R with
    | nil =>
      refine ⟨HW, HK, ?_⟩
      intro q hpre hex hwd
      rcases Nat.lt_trichotomy q.length (root.length + cd) with hlt |
        heq1 | hgt
      · exact HDONE q hpre hex hwd (Or.inl hlt)
      · by_cases hdq : isDirFS fs0 q = true
        · exact absurd (HCOV q hpre hex (by omega) (Or.inl hdq)) (by simp)
        · exact HDONE q hpre hex hwd
            (Or.inr ⟨heq1, by simpa using hdq⟩)
      · exact absurd (HCOV q hpre hex (by omega) (Or.inr hgt)) (by simp)
    | cons r0 rest =>
      have HDg : ∀ r ∈ (r0 :: rest), isDirFS g r = true := by
        intro r hr
        rw [isDirFS_eq_kind,
          HK r (fun e => isDir_not_tagpath hwf0 (HR r hr).2.1 e),
          ← isDirFS_eq_kind]
        exact (HR r hr).2.1
      obtain ⟨A1, A2, A3, A4, A5, A6, A7, A8, A9, A10, A11⟩ :=
        clearAK (r0 :: rest) g [] [] HW HDg
      unfold runLayers
      dsimp only
      by_cases hdep : depth = some cd
      · -- the depth bound cuts the walk right after the candidate phase
        rw [if_pos hdep]
        refine ⟨A1, fun q hq => (A2 q hq).trans (HK q hq), ?_⟩
        intro q hpre hex hwd
        rcases Nat.lt_trichotomy q.length (root.length + cd) with hlt |
          heq1 | hgt
        · exact A4 _ _ (HDONE q hpre hex hwd (Or.inl hlt))
        · by_cases hdq : isDirFS fs0 q = true
          · have htk : q.take (root.length + cd) = q := by
              rw [← heq1]
              exact List.take_length q
            have hqR : q ∈ r0 :: rest := by
              have hmem := HCOV q hpre hex (by omega) (Or.inl hdq)
              rw [htk] at hmem
              exact hmem
            rw [tag_dir_of_dir hdq]
            exact A6 q hqR
          · exact A4 _ _ (HDONE q hpre hex hwd
              (Or.inr ⟨heq1, by simpa using hdq⟩))
        · have := hwd cd hdep
          omega
      · -- expansion and recursion into the next layer
        rw [if_neg hdep]
        have HDT : ∀ t ∈ (phaseA (Tagger.clearDriver fileImpl false)
            (r0 :: rest) g [] []).2.2,
            isDirFS (phaseA (Tagger.clearDriver fileImpl false)
              (r0 :: rest) g [] []).1 t = true := by
          intro t ht
          rcases A10 t ht with h | h
          · exact absurd h (by simp)
          · have hdt0 := (HR t h).2.1
            have hnt : ∀ e : FPath, t ≠ e ++ [".tag"] :=
              fun e => isDir_not_tagpath hwf0 hdt0 e
            rw [isDirFS_eq_kind, A2 t hnt, HK t hnt, ← isDirFS_eq_kind]
            exact hdt0
        obtain ⟨B1, B2, B3, B4, B5, B6, B7, B8, B9, B10⟩ :=
          clearBK (phaseA (Tagger.clearDriver fileImpl false)
              (r0 :: rest) g [] []).2.2
            (phaseA (Tagger.clearDriver fileImpl false)
              (r0 :: rest) g [] []).1
            (phaseA (Tagger.clearDriver fileImpl false)
              (r0 :: rest) g [] []).2.1 A1 HDT
        refine ih _ _ (cd + 1) depth B1
          (fun q hq => (B2 q hq).trans ((A2 q hq).trans (HK q hq)))
          (fun q hq => (B3 q hq).trans ((A3 q hq).trans (HC q hq)))
          ?_ (by omega) ?_ ?_
        · -- the next layer's queue holds directories one level deeper
          intro s hs
          have hsrc : ∃ r ∈ (r0 :: rest), s ∈ dirChildPaths fs0 r := by
            rcases B10 s hs with h | ⟨t, ht, hchild⟩
            · rcases A9 s h with h' | ⟨r, hr, hch⟩
              · exact absurd h' (by simp)
              · refine ⟨r, hr, ?_⟩
                rw [HC r (fun e => isDir_not_tagpath hwf0
                  (HR r hr).2.1 e)] at hch
                exact hch
            · rcases A10 t ht with h' | h'
              · exact absurd h' (by simp)
              · refine ⟨t, h', ?_⟩
                have hnt : ∀ e : FPath, t ≠ e ++ [".tag"] :=
                  fun e => isDir_not_tagpath hwf0 (HR t h').2.1 e
                rw [A3 t hnt, HC t hnt] at hchild
                exact hchild
          obtain ⟨r, hr, hsr⟩ := hsrc
          obtain ⟨⟨c, hsc⟩, hskind⟩ := dirChildPaths_mem hwf0 hsr
          obtain ⟨hp1, hp2, hp3⟩ := HR r hr
          refine ⟨hp1.trans (by rw [hsc]; exact List.prefix_append r [c]),
            isDirFS_of_kind_true hskind, ?_⟩
          rw [hsc]
          simp [hp3]
          omega
        · -- coverage of the next layer
          intro q hpre hex hge hdisj
          have h1 : root.length + cd < q.length := by omega
          have hpaR : q.take (root.length + cd) ∈ r0 :: rest :=
            HCOV q hpre hex (by omega) (Or.inr h1)
          have hpadirfs0 : isDirFS fs0 (q.take (root.length + cd)) =
              true := (HR _ hpaR).2.1
          have hpanotag : ∀ e : FPath,
              q.take (root.length + cd) ≠ e ++ [".tag"] :=
            fun e => isDir_not_tagpath hwf0 hpadirfs0 e
          have hadirfs0 : isDirFS fs0 (q.take (root.length + cd + 1)) =
              true := by
            rcases Nat.lt_or_ge (root.length + cd + 1) q.length with hlt |
              hge2
            · refine ancestors_isDir hwf0 _ q (List.take_prefix _ q) ?_ hex
              intro hh
              have := congrArg List.length hh
              rw [List.length_take] at this
              omega
            · have hq1 : q.length = root.length + cd + 1 := by omega
              have htk : q.take (root.length + cd + 1) = q := by
                rw [← hq1]
                exact List.take_length q
              rw [htk]
              rcases hdisj with hd | hlt2
              · exact hd
              · omega
          have hshape : q.take (root.length + cd + 1) =
              q.take (root.length + cd) ++
                [q.get ⟨root.length + cd, h1⟩] := by
            rw [List.take_succ]
            congr 1
            rw [List.getElem?_eq_getElem h1]
            rfl
          have hmem0 : q.take (root.length + cd + 1) ∈
              dirChildPaths fs0 (q.take (root.length + cd)) := by
            have hk := kind_true_of_isDirFS hadirfs0
            rw [hshape] at hk ⊢
            exact dirChild_mem hwf0 _ _ hk
          rcases A7 _ hpaR with hptmp | ⟨hpnone, hroute⟩
          · refine B9 _ hptmp _ ?_
            rw [A3 _ hpanotag, HC _ hpanotag]
            exact hmem0
          · refine B8 _ (hroute _ ?_)
            rw [HC _ hpanotag]
            exact hmem0
        · -- everything at or above the new layer's files is already
          -- cleared
          intro q hpre hex hwd hdisj
          rcases hdisj with hlt | ⟨heq1, hnd⟩
          · rcases Nat.lt_or_ge q.length (root.length + cd) with hlt2 |
              hge2
            · exact B4 _ _ (A4 _ _ (HDONE q hpre hex hwd (Or.inl hlt2)))
            · have heq2 : q.length = root.length + cd := by omega
              by_cases hdq : isDirFS fs0 q = true
              · have htk : q.take (root.length + cd) = q := by
                  rw [← heq2]
                  exact List.take_length q
                have hqR : q ∈ r0 :: rest := by
                  have hmem := HCOV q hpre hex (by omega) (Or.inl hdq)
                  rw [htk] at hmem
                  exact hmem
                rw [tag_dir_of_dir hdq]
                exact B4 _ _ (A6 q hqR)
              · exact B4 _ _ (A4 _ _ (HDONE q hpre hex hwd
                  (Or.inr ⟨heq2, by simpa using hdq⟩)))
          · have h1 : root.length + cd < q.length := by omega
            have hpaR : q.take (root.length + cd) ∈ r0 :: rest :=
              HCOV q hpre hex (by omega) (Or.inr h1)
            have hpadirfs0 : isDirFS fs0 (q.take (root.length + cd)) =
                true := (HR _ hpaR).2.1
            have htk1 : q.take (root.length + cd + 1) = q := by
              have hq1 : q.length = root.length + cd + 1 := by omega
              rw [← hq1]
              exact List.take_length q
            have hshape : q = q.take (root.length + cd) ++
                [q.get ⟨root.length + cd, h1⟩] := by
              conv_lhs => rw [← htk1]
              rw [List.take_succ]
              congr 1
              rw [List.getElem?_eq_getElem h1]
              rfl
            have hkq : kindAt fs0 q = some false := by
              have hex2 := hex
              rw [existsFS_eq_kind] at hex2
              cases hk0 : kindAt fs0 q with
              | none =>
                rw [hk0] at hex2
                simp at hex2
              | some b =>
                cases b with
                | true =>
                  exact absurd (isDirFS_of_kind_true hk0)
                    (by simp [hnd])
                | false => rfl
            have hfq : isFileFS fs0 q = true := by
              rw [isFileFS_eq_kind]
              exact hkq
            have htdq : FileTagger.tag_dir_of fs0 q =
                q.take (root.length + cd) := by
              unfold FileTagger.tag_dir_of
              rw [if_pos hfq]
              conv_lhs => rw [hshape]
              exact List.dropLast_concat
            rw [htdq]
            by_cases hc : q.get ⟨root.length + cd, h1⟩ = ".tag"
            · have hq2 : q = q.take (root.length + cd) ++ [".tag"] :=
                hshape.trans (by rw [hc])
              rcases A7 _ hpaR with hptmp | ⟨hpnone, -⟩
              · have hb := B7 _ hptmp
                rw [← hq2] at hb
                exact hb
              · rw [B5 _ hpnone]
                exact metaLookup_nil q
            · have hguardq : ∀ e : FPath, q ≠ e ++ [".tag"] := by
                intro e heqq
                apply hc
                have h2 : q.take (root.length + cd) ++
                    [q.get ⟨root.length + cd, h1⟩] = e ++ [".tag"] := by
                  rw [← hshape]
                  exact heqq
                have hlen2 : (q.take (root.length + cd)).length =
                    e.length := by
                  have h5 := congrArg List.length h2
                  rw [List.length_append, List.length_append] at h5
                  simp only [List.length_singleton] at h5
                  omega
                obtain ⟨-, h4⟩ := List.append_inj h2 hlen2
                simpa using h4
              rcases A7 _ hpaR with hptmp | ⟨hpnone, -⟩
              · have hkq1 : kindAt (phaseA (Tagger.clearDriver fileImpl
                    false) (r0 :: rest) g [] []).1 q = some false := by
                  rw [A2 q hguardq, HK q hguardq]
                  exact hkq
                have hb := B6 _ hptmp (q.get ⟨root.length + cd, h1⟩) hc
                  (by rw [← hshape]; exact hkq1)
                rw [← hshape] at hb
                exact hb
              · rw [B5 _ hpnone]
                exact metaLookup_nil q

/-- C4 (amended): `clear_tags` with `recursive = True` on a directory.
With `top_only = True` (no depth bound) it clears exactly the shallowest
*sidecar-bearing* directory of each branch — the walk keys on
`_possible_has_tag_entry` (sidecar presence), not on the node's own tags:
such a directory has its own entry removed from its sidecar (the sidecar
file disappearing when nothing else was recorded in it), and every other
sidecar, in particular those holding the tags of deeper tagged
descendants, is unchanged; the shallowest *tagged* node need not be
cleared.  With `top_only = False` every tagged node in the branch (within
the depth bound) is cleared: afterwards every existing path under the root
admitted by the depth bound has no tags at all. -/
theorem c4_clear_exact (fs : FSNode) (root : FPath)
    (hwf : namesOK fs = true) (hroot : isDirFS fs root = true) :
    ((Tagger.clear_tags fileImpl fs root true none true).2 = true ∧
     (∀ d, firstPositive fs root d →
       dirMeta (Tagger.clear_tags fileImpl fs root true none true).1 d =
         clearedMeta fs d) ∧
     (∀ d, ¬ firstPositive fs root d →
       dirMeta (Tagger.clear_tags fileImpl fs root true none true).1 d =
         dirMeta fs d)) ∧
    (∀ depth : Option Nat,
     (Tagger.clear_tags fileImpl fs root true depth false).2 = true ∧
     (∀ q, root <+: q → existsFS fs q = true →
       (∀ m, depth = some m → q.length ≤ root.length + m) →
       Tagger.get_tags fileImpl
         (Tagger.clear_tags fileImpl fs root true depth false).1 q =
         [])) := by
  refine ⟨clear_top_only_exact fs root hwf hroot, ?_⟩
  intro depth
  have hex : existsFS (fileImpl.getFs fs) root = true :=
    exists_of_kind_some (kind_true_of_isDirFS hroot)
  have heq : Tagger.clear_tags fileImpl fs root true depth false =
      (runLayers (Tagger.clearDriver fileImpl false) (travFuel fs) fs
        [root] [] 0 depth, true) := by
    unfold Tagger.clear_tags
    rw [if_neg (not_not_intro hex),
      if_neg (not_not_intro
        (show isDirFS (fileImpl.getFs fs) root = true from hroot)),
      if_neg (by simp)]
    rfl
  obtain ⟨K1, K2, K3⟩ := clearAllRunK fs root hwf (travFuel fs) fs [root]
    0 depth hwf (fun q _ => rfl) (fun q _ => rfl)
    (by
      intro r hr
      simp at hr
      subst hr
      exact ⟨List.prefix_rfl, hroot, by simp⟩)
    (by unfold travFuel; omega)
    (by
      intro q hpre hex0 hge hdisj
      have htk : q.take (root.length + 0) = root := by
        rw [Nat.add_zero]
        exact (List.prefix_iff_eq_take.mp hpre).symm
      rw [htk]
      simp)
    (by
      intro q hpre hex0 hwd hdisj
      rcases hdisj with hlt | ⟨heq1, hnd⟩
      · have := hpre.length_le
        omega
      · have hqroot : root = q := by
          refine List.IsPrefix.eq_of_length hpre ?_
          omega
        rw [← hqroot] at hnd
        rw [hroot] at hnd
        exact Bool.noConfusion hnd)
  refine ⟨by rw [heq], ?_⟩
  intro q hpre hex0 hwd
  rw [heq]
  by_cases hex1 : existsFS
      (runLayers (Tagger.clearDriver fileImpl false) (travFuel fs) fs
        [root] [] 0 depth) q = true
  · have htd : FileTagger.tag_dir_of
        (runLayers (Tagger.clearDriver fileImpl false) (travFuel fs) fs
          [root] [] 0 depth) q = FileTagger.tag_dir_of fs q := by
      by_cases htag : ∀ e : FPath, q ≠ e ++ [".tag"]
      · unfold FileTagger.tag_dir_of
        rw [isFileFS_congr (K2 q htag)]
      · push_neg at htag
        obtain ⟨e, he⟩ := htag
        have hf1 : isFileFS fs q = true := by
          rw [isFileFS_eq_kind]
          have hex2 := hex0
          rw [existsFS_eq_kind] at hex2
          cases hk0 : kindAt fs q with
          | none =>
            rw [hk0] at hex2
            simp at hex2
          | some b =>
            cases b with
            | true =>
              exact absurd (isDir_not_tagpath hwf
                (isDirFS_of_kind_true hk0) e) (not_not_intro he)
            | false => rfl
        have hf2 : isFileFS
            (runLayers (Tagger.clearDriver fileImpl false) (travFuel fs)
              fs [root] [] 0 depth) q = true := by
          rw [isFileFS_eq_kind]
          have hex2 := hex1
          rw [existsFS_eq_kind] at hex2
          cases hk0 : kindAt (runLayers (Tagger.clearDriver fileImpl
              false) (travFuel fs) fs [root] [] 0 depth) q with
          | none =>
            rw [hk0] at hex2
            simp at hex2
          | some b =>
            cases b with
            | true =>
              exact absurd (isDir_not_tagpath K1
                (isDirFS_of_kind_true hk0) e) (not_not_intro he)
            | false => rfl
        unfold FileTagger.tag_dir_of
        rw [hf1, hf2]
    have hlook := K3 q hpre hex0 hwd
    unfold Tagger.get_tags
    rw [if_neg (not_not_intro (show existsFS (fileImpl.getFs
      (runLayers (Tagger.clearDriver fileImpl false) (travFuel fs) fs
        [root] [] 0 depth)) q = true from hex1))]
    show sortTags (FileTagger.read_tags _ q) = []
    unfold FileTagger.read_tags FileTagger.read_tag_meta
    rw [htd, hlook]
    rfl
  · unfold Tagger.get_tags
    rw [if_pos ?_]
    show ¬ existsFS (fileImpl.getFs _) q = true
    exact hex1

/-- Witness for C4 (amended) on the counterexample tree. -/
theorem c4_witness :
    namesOK c4FS = true ∧ isDirFS c4FS ["r"] = true ∧
    (((Tagger.clear_tags fileImpl c4FS ["r"] true none true).2 = true ∧
      (∀ d, firstPositive c4FS ["r"] d →
        dirMeta (Tagger.clear_tags fileImpl c4FS ["r"] true none true).1
          d = clearedMeta c4FS d) ∧
      (∀ d, ¬ firstPositive c4FS ["r"] d →
        dirMeta (Tagger.clear_tags fileImpl c4FS ["r"] true none true).1
          d = dirMeta c4FS d)) ∧
     (∀ depth : Option Nat,
      (Tagger.clear_tags fileImpl c4FS ["r"] true depth false).2 = true ∧
      (∀ q, ["r"] <+: q → existsFS c4FS q = true →
        (∀ m, depth = some m → q.length ≤ (["r"] : FPath).length + m) →
        Tagger.get_tags fileImpl
          (Tagger.clear_tags fileImpl c4FS ["r"] true depth false).1 q =
          []))) :=
  ⟨by decide, by decide,
    c4_clear_exact c4FS ["r"] (by decide) (by decide)⟩
